import Mathlib

/-!
# CoDiPack chunk vectors

A shallow embedding of `include/tapes/chunkVector.hpp` (the segmented, checkpointable
store used by the tapes) together with the properties of recording, rewinding and
reverse iteration.

Conventions of the embedding

* `size_t` values are natural numbers; every counter stays far below `2^64` because it
  counts allocated records, so no wrap-around is modelled.
* A failed `assert` makes the operation return `none`; operations without an assertion
  are total functions.
* Heap blocks are owned by the `chunks` vector and never freed before the destructor, so
  a `ChunkData*` is represented by the index of the block in `chunks` (the order of
  allocation).  `curChunk` is such a pointer and is kept separately from `curChunkIndex`,
  exactly as in the class.
* The nested vector is held by reference in C++; here the referenced object is the field
  `nested` of the state.
-/

set_option autoImplicit false

namespace codi

/-! ## The record block -/

/-- Modelled from the spec: the fixed-capacity record block (`chunk.hpp` is not among the
sources).  It holds `size` slots contiguously and tracks how many are used.  Fresh slots
hold the default value of the record type. -/
structure Chunk (D : Type) where
  /-- capacity of the block -/
  size : Nat
  /-- number of used slots -/
  usedSize : Nat
  /-- the slots of the block -/
  data : List D
deriving DecidableEq

namespace Chunk

variable {D : Type}

/-- Modelled from the spec: a new block of the given capacity with no used slot. -/
def new [Inhabited D] (size : Nat) : Chunk D :=
  { size := size, usedSize := 0, data := List.replicate size default }

/-- Modelled from the spec: the number of used slots. -/
def getUsedSize (c : Chunk D) : Nat := c.usedSize

/-- Modelled from the spec: logical reset, capacity retained and content discarded: the
used count becomes zero and the slots stay where they are, to be overwritten. -/
def reset (c : Chunk D) : Chunk D := { c with usedSize := 0 }

/-- Modelled from the spec: truncation of the used count (used by the rewind). -/
def setUsedSize (c : Chunk D) (usage : Nat) : Chunk D := { c with usedSize := usage }

/-- Modelled from the spec: the store keeps every block in memory (no persistence), so
loading a block leaves it as it is. -/
def load (c : Chunk D) : Chunk D := c

/-- Modelled from the spec: the store keeps every block in memory (no persistence), so
finalising a block leaves it as it is. -/
def store (c : Chunk D) : Chunk D := c

/-- Modelled from the spec: append, the record is written into the slot at the used
count and the used count advances by one.  No capacity check is performed; a write past
the capacity finds no slot and only the count advances. -/
def setDataAndMove (c : Chunk D) (d : D) : Chunk D :=
  { c with data := c.data.set c.usedSize d, usedSize := c.usedSize + 1 }

/-- Modelled from the spec: random positional read, the record in slot `index` if the
block has such a slot. -/
def dataPointer (c : Chunk D) (index : Nat) : Option D := c.data[index]?

/-- Modelled from the spec: the capacity is settable; the block gets new storage of the
requested capacity and keeps its used count. -/
def resize [Inhabited D] (c : Chunk D) (size : Nat) : Chunk D :=
  { c with size := size, data := List.replicate size default }

end Chunk

/-! ## Nested vectors and positions -/

/-- The interface a `ChunkVector` needs from its `NestedVector` template argument:
the type of positions with its default constructor, `getPosition` and `reset`. -/
class NestedVector (N : Type) (NP : outParam Type) where
  /-- the default constructed position -/
  defaultPosition : NP
  /-- position of the vector -/
  getPosition : N → NP
  /-- rewind of the vector, `none` when an assertion fails -/
  reset : N → NP → Option N

/-- The terminal vector of a chain of chunk vectors; it has no data. -/
structure EmptyChunkVector where
deriving DecidableEq

/-- Position of the terminal vector: a structure without members. -/
structure EmptyPosition where
deriving DecidableEq

namespace EmptyChunkVector

/-- Returns the empty position. -/
def getPosition (_v : EmptyChunkVector) : EmptyPosition := {}

/-- Does nothing. -/
def reset (v : EmptyChunkVector) (_pos : EmptyPosition) : Option EmptyChunkVector := some v

end EmptyChunkVector

instance : NestedVector EmptyChunkVector EmptyPosition where
  defaultPosition := {}
  getPosition := EmptyChunkVector.getPosition
  reset := EmptyChunkVector.reset

/-- Position of a chunk vector: chunk index, data index in the chunk and the position of the
nested vector. -/
structure Position (NP : Type) where
  /-- index of the chunk -/
  chunk : Nat
  /-- data position in the chunk -/
  data : Nat
  /-- position of the nested chunk vector -/
  inner : NP
deriving DecidableEq

/-- The default constructor `Position()`. -/
def Position.zero {NP : Type} (inner : NP) : Position NP :=
  { chunk := 0, data := 0, inner := inner }

/-- The order in which `forEach` requires `start` not to be before `end`:
`start.chunk > end.chunk || (start.chunk == end.chunk && start.data >= end.data)`. -/
def Position.ge {NP : Type} (start stop : Position NP) : Prop :=
  start.chunk > stop.chunk ∨ (start.chunk = stop.chunk ∧ start.data ≥ stop.data)

instance {NP : Type} (p q : Position NP) : Decidable (Position.ge p q) := by
  unfold Position.ge; infer_instance

/-- Strict lexicographic order on `(chunk, data)`. -/
def Position.lt {NP : Type} (p q : Position NP) : Prop :=
  p.chunk < q.chunk ∨ (p.chunk = q.chunk ∧ p.data < q.data)

instance {NP : Type} (p q : Position NP) : Decidable (Position.lt p q) := by
  unfold Position.lt; infer_instance

/-! ## The chunk vector -/

/-- State of a `ChunkVector<ChunkData, NestedVector>`. -/
structure ChunkVector (D N NP : Type) where
  /-- array of the chunks -/
  chunks : List (Chunk D)
  /-- array of nested positions for the chunks -/
  positions : List NP
  /-- pointer to the loaded chunk (index of the block in allocation order) -/
  curChunk : Nat
  /-- index of the chunk which is loaded -/
  curChunkIndex : Nat
  /-- global size of the chunks -/
  chunkSize : Nat
  /-- the nested vector -/
  nested : N
deriving DecidableEq

/-- Dereference of a block pointer; a pointer that addresses no block yields an empty
block (this does not happen in a reachable state). -/
def derefChunk {D : Type} (cs : List (Chunk D)) (p : Nat) : Chunk D :=
  cs.getD p { size := 0, usedSize := 0, data := [] }

/-- Update of the block behind a pointer. -/
def updateChunk {D : Type} (cs : List (Chunk D)) (p : Nat) (g : Chunk D → Chunk D) :
    List (Chunk D) :=
  cs.set p (g (derefChunk cs p))

namespace ChunkVector

variable {D N NP : Type}

/-- The constructor: creates one chunk and loads it. -/
def new [Inhabited D] [NestedVector N NP] (chunkSize : Nat) (nested : N) : ChunkVector D N NP :=
  { chunks := [Chunk.new chunkSize]
    positions := [NestedVector.getPosition nested]
    curChunk := 0
    curChunkIndex := 0
    chunkSize := chunkSize
    nested := nested }

/-- Sets the global chunk size and resizes all chunks. -/
def setChunkSize [Inhabited D] (v : ChunkVector D N NP) (chunkSize : Nat) : ChunkVector D N NP :=
  { v with chunkSize := chunkSize, chunks := v.chunks.map (fun c => c.resize chunkSize) }

/-- One iteration of the loop of `resize`: a new chunk and the nested position are pushed. -/
def pushChunk [Inhabited D] [NestedVector N NP] (v : ChunkVector D N NP) : ChunkVector D N NP :=
  { v with chunks := v.chunks ++ [Chunk.new v.chunkSize]
           positions := v.positions ++ [NestedVector.getPosition v.nested] }

/-- The loop `for(i = chunks.size(); i < noOfChunks; ++i)` of `resize`, with `k` iterations
left. -/
def resizeLoop [Inhabited D] [NestedVector N NP] : Nat → ChunkVector D N NP → ChunkVector D N NP
  | 0, v => v
  | k + 1, v => resizeLoop k (pushChunk v)

/-- Ensures that enough chunks are allocated so that `totalSize` data items can be stored.
The division by a chunk size of zero aborts the program (`none`). -/
def resize [Inhabited D] [NestedVector N NP] (v : ChunkVector D N NP) (totalSize : Nat) :
    Option (ChunkVector D N NP) :=
  if v.chunkSize = 0 then none
  else
    let noOfChunks := totalSize / v.chunkSize + (if 0 ≠ totalSize % v.chunkSize then 1 else 0)
    some (resizeLoop (noOfChunks - v.chunks.length) v)

/-- Loads the next chunk.  If the current chunk was the last chunk in the array a new chunk
is created, otherwise the old chunk is reset and loaded.  The position of the nested
vector is stored in both cases. -/
def nextChunk [Inhabited D] [NestedVector N NP] (v : ChunkVector D N NP) : ChunkVector D N NP :=
  let chunks := updateChunk v.chunks v.curChunk Chunk.store
  let curChunkIndex := v.curChunkIndex + 1
  if chunks.length = curChunkIndex then
    { v with curChunkIndex := curChunkIndex
             curChunk := chunks.length
             chunks := chunks ++ [Chunk.new v.chunkSize]
             positions := v.positions ++ [NestedVector.getPosition v.nested] }
  else
    { v with curChunkIndex := curChunkIndex
             curChunk := curChunkIndex
             chunks := updateChunk chunks curChunkIndex Chunk.reset
             positions := v.positions.set curChunkIndex (NestedVector.getPosition v.nested) }

/-- The loop `for(i = curChunkIndex; i > pos.chunk; --i) chunks[i]->reset()` of `reset`,
with `i = lo + k`. -/
def resetLoop (lo : Nat) : Nat → List (Chunk D) → List (Chunk D)
  | 0, cs => cs
  | k + 1, cs => resetLoop lo k (updateChunk cs (lo + (k + 1)) Chunk.reset)

/-- Resets the chunk vector to the given position; also resets the nested vector. -/
def reset [NestedVector N NP] (v : ChunkVector D N NP) (pos : Position NP) :
    Option (ChunkVector D N NP) :=
  if ¬ pos.chunk < v.chunks.length then none
  else if ¬ pos.data < v.chunkSize then none
  else
    let chunks := resetLoop pos.chunk (v.curChunkIndex - pos.chunk) v.chunks
    let chunks := updateChunk chunks pos.chunk (fun c => c.load.setUsedSize pos.data)
    match NestedVector.reset v.nested pos.inner with
    | none => none
    | some nested =>
      some { v with chunks := chunks, curChunk := pos.chunk, curChunkIndex := pos.chunk
                    nested := nested }

/-- Resets the complete chunk vector: `reset(Position())`. -/
def resetAll [NestedVector N NP] (v : ChunkVector D N NP) : Option (ChunkVector D N NP) :=
  v.reset (Position.zero (NestedVector.defaultPosition N))

/-- Checks if the current chunk has enough items left; if not the next chunk is loaded. -/
def reserveItems [Inhabited D] [NestedVector N NP] (v : ChunkVector D N NP) (items : Nat) :
    Option (ChunkVector D N NP) :=
  if ¬ items ≤ v.chunkSize then none
  else if v.chunkSize < (derefChunk v.chunks v.curChunk).getUsedSize + items then
    some v.nextChunk
  else some v

/-- Sets the data and increases the used chunk data by one. -/
def setDataAndMove (v : ChunkVector D N NP) (data : D) : ChunkVector D N NP :=
  { v with chunks := updateChunk v.chunks v.curChunk (fun c => c.setDataAndMove data) }

/-- The position inside the data of the current chunk. -/
def getChunkPosition (v : ChunkVector D N NP) : Nat :=
  (derefChunk v.chunks v.curChunk).getUsedSize

/-- The position of the chunk vector and the nested vectors. -/
def getPosition [NestedVector N NP] (v : ChunkVector D N NP) : Position NP :=
  { chunk := v.curChunkIndex
    data := (derefChunk v.chunks v.curChunk).getUsedSize
    inner := NestedVector.getPosition v.nested }

/-- The position of the nested chunk vector when the chunk was loaded. -/
def getInnerPosition (v : ChunkVector D N NP) (chunkIndex : Nat) : Option NP :=
  if chunkIndex < v.positions.length then v.positions[chunkIndex]? else none

/-- The data at the given position. -/
def getDataAtPosition (v : ChunkVector D N NP) (chunkIndex dataPos : Nat) : Option D :=
  if chunkIndex < v.chunks.length then (derefChunk v.chunks chunkIndex).dataPointer dataPos
  else none

/-- The number of data items used in the chunk. -/
def getChunkUsedData (v : ChunkVector D N NP) (chunkIndex : Nat) : Option Nat :=
  if chunkIndex < v.chunks.length then some (derefChunk v.chunks chunkIndex).getUsedSize
  else none

/-- The loop of `forEachData` with `dataPos = stop + k`: the position is decremented and
the function object is called on the data at that position. -/
def forEachDataLoop {σ : Type} (v : ChunkVector D N NP) (chunkPos stop : Nat)
    (function : σ → D → σ) : Nat → σ → Option σ
  | 0, s => some s
  | k + 1, s =>
    match v.getDataAtPosition chunkPos (stop + k) with
    | none => none
    | some d => forEachDataLoop v chunkPos stop function k (function s d)

/-- Iterates over the data entries of one chunk from `start` down to `stop`. -/
def forEachData {σ : Type} (v : ChunkVector D N NP) (chunkPos start stop : Nat)
    (function : σ → D → σ) (s : σ) : Option σ :=
  if ¬ start ≥ stop then none
  else if ¬ chunkPos < v.chunks.length then none
  else forEachDataLoop v chunkPos stop function (start - stop) s

/-- The loop over the chunks of `forEach` with `chunkPos = stopChunk + k`; it returns the
remaining `dataStart` together with the state of the function object. -/
def forEachLoop {σ : Type} (v : ChunkVector D N NP) (stopChunk : Nat)
    (function : σ → D → σ) : Nat → Nat → σ → Option (Nat × σ)
  | 0, dataStart, s => some (dataStart, s)
  | k + 1, dataStart, s =>
    match v.forEachData (stopChunk + (k + 1)) dataStart 0 function s with
    | none => none
    | some s1 =>
      forEachLoop v stopChunk function k (derefChunk v.chunks (stopChunk + k)).getUsedSize s1

/-- Iterates over all data entries in the given range, from `start` down to `stop`. -/
def forEach {σ : Type} (v : ChunkVector D N NP) (start stop : Position NP)
    (function : σ → D → σ) (s : σ) : Option σ :=
  if ¬ Position.ge start stop then none
  else if ¬ start.chunk < v.chunks.length then none
  else
    match v.forEachLoop stop.chunk function (start.chunk - stop.chunk) start.data s with
    | none => none
    | some (dataStart, s1) => v.forEachData stop.chunk dataStart stop.data function s1

end ChunkVector

instance {D N NP : Type} [NestedVector N NP] : NestedVector (ChunkVector D N NP) (Position NP) where
  defaultPosition := Position.zero (NestedVector.defaultPosition N)
  getPosition := ChunkVector.getPosition
  reset := ChunkVector.reset

/-! ## Recording in batches -/

/-- The records of a block: the slots below its used count. -/
def Chunk.records {D : Type} (c : Chunk D) : List D := c.data.take c.usedSize

/-- The records of a list of blocks that lie before offset `d` of block `i`. -/
def recordsBefore {D : Type} (L : List (List D)) (i d : Nat) : List D :=
  (L.take i).flatten ++ (L.getD i []).take d

/-- The records of a list of blocks that lie at or after offset `d` of block `i`. -/
def recordsAfter {D : Type} (L : List (List D)) (i d : Nat) : List D :=
  (L.getD i []).drop d ++ (L.drop (i + 1)).flatten

namespace ChunkVector

variable {D N NP : Type}

/-- One recording batch as the tapes perform it: `reserveItems(items)` followed by one
`setDataAndMove` for every record of `rs`. -/
def recordBatch [Inhabited D] [NestedVector N NP] (v : ChunkVector D N NP) (items : Nat)
    (rs : List D) : Option (ChunkVector D N NP) :=
  match v.reserveItems items with
  | none => none
  | some v1 => some (rs.foldl setDataAndMove v1)

/-- A sequence of batches, each given by the reserved number of items and the records
that are pushed. -/
def recordBatches [Inhabited D] [NestedVector N NP] :
    ChunkVector D N NP → List (Nat × List D) → Option (ChunkVector D N NP)
  | v, [] => some v
  | v, b :: bs =>
    match v.recordBatch b.1 b.2 with
    | none => none
    | some v1 => recordBatches v1 bs

/-- Batches that push exactly as many records as they reserve. -/
def exactBatches (bs : List (List D)) : List (Nat × List D) :=
  bs.map (fun rs => (rs.length, rs))

/-- A sequence of batches `reserveItems(n)` followed by exactly `n` calls of
`setDataAndMove`. -/
def recordAll [Inhabited D] [NestedVector N NP] (v : ChunkVector D N NP) (bs : List (List D)) :
    Option (ChunkVector D N NP) :=
  v.recordBatches (exactBatches bs)

/-- The records the vector holds logically: for every chunk up to the loaded one the
slots below its used count. -/
def live (v : ChunkVector D N NP) : List (List D) :=
  (v.chunks.take (v.curChunkIndex + 1)).map Chunk.records

/-- All records the vector holds logically, oldest first. -/
def flat (v : ChunkVector D N NP) : List D := v.live.flatten

/-- The position `(i, d)` lies inside the recorded part of the vector. -/
def Covers (v : ChunkVector D N NP) (i d : Nat) : Prop :=
  i ≤ v.curChunkIndex ∧ d ≤ (derefChunk v.chunks i).usedSize

/-- The structural invariant of the class: the loaded chunk is the chunk at the current
index, the current index addresses an allocated chunk and every chunk has a nested
position. -/
structure Inv (v : ChunkVector D N NP) : Prop where
  cur_eq : v.curChunk = v.curChunkIndex
  cur_lt : v.curChunkIndex < v.chunks.length
  pos_len : v.positions.length = v.chunks.length

/-- Well-formed stores: the structural invariant holds, every chunk has `chunkSize` slots
and no used count exceeds the chunk size. -/
structure WF (v : ChunkVector D N NP) extends Inv v : Prop where
  slots : ∀ c ∈ v.chunks, c.data.length = v.chunkSize
  used_le : ∀ c ∈ v.chunks, c.usedSize ≤ v.chunkSize

/-- The store `w` continues the recording of the well-formed store `v` with the records
`rs`: nothing recorded in `v` is touched and `rs` comes after it. -/
structure Continues (v w : ChunkVector D N NP) (rs : List D) : Prop where
  wf : w.WF
  chunkSize_eq : w.chunkSize = v.chunkSize
  nested_eq : w.nested = v.nested
  flat_eq : w.flat = v.flat ++ rs
  covers : ∀ i d, v.Covers i d →
    w.Covers i d ∧ recordsBefore w.live i d = recordsBefore v.live i d

/-- The states a chunk vector reaches from its constructor through its public modifying
members.  The nested vector is held by reference and is also used by its owner, which is
the last rule. -/
inductive Reachable [Inhabited D] [NestedVector N NP] : ChunkVector D N NP → Prop
  | new (chunkSize : Nat) (nested : N) : Reachable (ChunkVector.new chunkSize nested)
  | setChunkSize {v : ChunkVector D N NP} (chunkSize : Nat) :
      Reachable v → Reachable (v.setChunkSize chunkSize)
  | resize {v w : ChunkVector D N NP} (totalSize : Nat) :
      Reachable v → v.resize totalSize = some w → Reachable w
  | nextChunk {v : ChunkVector D N NP} : Reachable v → Reachable v.nextChunk
  | reserveItems {v w : ChunkVector D N NP} (items : Nat) :
      Reachable v → v.reserveItems items = some w → Reachable w
  | setDataAndMove {v : ChunkVector D N NP} (data : D) :
      Reachable v → Reachable (v.setDataAndMove data)
  | reset {v w : ChunkVector D N NP} (pos : Position NP) :
      Reachable v → v.reset pos = some w → Reachable w
  | resetAll {v w : ChunkVector D N NP} : Reachable v → v.resetAll = some w → Reachable w
  | useNested {v : ChunkVector D N NP} (nested : N) :
      Reachable v → Reachable { v with nested := nested }

end ChunkVector

/-! ## Example stores -/

/-- Example: chunk size 4, the batch `1, 2, 3` recorded. -/
def demoA : ChunkVector Nat EmptyChunkVector EmptyPosition :=
  { chunks := [⟨4, 3, [1, 2, 3, 0]⟩]
    positions := [{}]
    curChunk := 0
    curChunkIndex := 0
    chunkSize := 4
    nested := {} }

/-- Example: `demoA` after the batches `4, 5` and `6`, which go to a second chunk. -/
def demoB : ChunkVector Nat EmptyChunkVector EmptyPosition :=
  { chunks := [⟨4, 3, [1, 2, 3, 0]⟩, ⟨4, 3, [4, 5, 6, 0]⟩]
    positions := [{}, {}]
    curChunk := 1
    curChunkIndex := 1
    chunkSize := 4
    nested := {} }

/-- Example: `demoB` rewound to the position of `demoA`; the second chunk stays allocated
with its stale content. -/
def demoR : ChunkVector Nat EmptyChunkVector EmptyPosition :=
  { chunks := [⟨4, 3, [1, 2, 3, 0]⟩, ⟨4, 0, [4, 5, 6, 0]⟩]
    positions := [{}, {}]
    curChunk := 0
    curChunkIndex := 0
    chunkSize := 4
    nested := {} }

/-- Example: chunk size 4 with two records in the only chunk. -/
def demoTwo : ChunkVector Nat EmptyChunkVector EmptyPosition :=
  ((ChunkVector.new 4 ({} : EmptyChunkVector)).setDataAndMove 1).setDataAndMove 2

/-- Nested vectors whose accepted rewind ends at the requested position. -/
class LawfulNested (N NP : Type) [NestedVector N NP] : Prop where
  getPosition_reset : ∀ (n n1 : N) (p : NP),
    NestedVector.reset n p = some n1 → NestedVector.getPosition n1 = p

/-! ## Histories of a chunk vector -/

namespace ChunkVector

variable {D N NP : Type}

/-- The nested vector is held by reference: its owner puts it into the state `nested`. -/
def useNested (v : ChunkVector D N NP) (nested : N) : ChunkVector D N NP :=
  { v with nested := nested }

/-- Reachable states together with a note `g` taken along the history: `g i` is the
position of the nested vector at the moment chunk `i` was most recently allocated (by the
constructor or by `resize`) or loaded by `nextChunk` (called directly or by
`reserveItems`).  A rewind notes nothing. -/
inductive Tracked [Inhabited D] [NestedVector N NP] :
    ChunkVector D N NP → (Nat → Option NP) → Prop
  | new (chunkSize : Nat) (nested : N) :
      Tracked (ChunkVector.new chunkSize nested)
        (fun i => if i = 0 then some (NestedVector.getPosition nested) else none)
  | setChunkSize {v : ChunkVector D N NP} {g : Nat → Option NP} (chunkSize : Nat) :
      Tracked v g → Tracked (v.setChunkSize chunkSize) g
  | resize {v w : ChunkVector D N NP} {g : Nat → Option NP} (totalSize : Nat) :
      Tracked v g → v.resize totalSize = some w →
      Tracked w (fun i => if v.chunks.length ≤ i ∧ i < w.chunks.length
        then some (NestedVector.getPosition v.nested) else g i)
  | nextChunk {v : ChunkVector D N NP} {g : Nat → Option NP} :
      Tracked v g →
      Tracked v.nextChunk
        (Function.update g (v.curChunkIndex + 1) (some (NestedVector.getPosition v.nested)))
  | reserveItems {v w : ChunkVector D N NP} {g : Nat → Option NP} (items : Nat) :
      Tracked v g → v.reserveItems items = some w →
      Tracked w (if w.curChunkIndex = v.curChunkIndex then g
        else Function.update g w.curChunkIndex (some (NestedVector.getPosition v.nested)))
  | setDataAndMove {v : ChunkVector D N NP} {g : Nat → Option NP} (data : D) :
      Tracked v g → Tracked (v.setDataAndMove data) g
  | reset {v w : ChunkVector D N NP} {g : Nat → Option NP} (pos : Position NP) :
      Tracked v g → v.reset pos = some w → Tracked w g
  | resetAll {v w : ChunkVector D N NP} {g : Nat → Option NP} :
      Tracked v g → v.resetAll = some w → Tracked w g
  | useNested {v : ChunkVector D N NP} {g : Nat → Option NP} (nested : N) :
      Tracked v g → Tracked (v.useNested nested) g

end ChunkVector

/-! ## The Jacobi index tape -/

instance : Inhabited EmptyPosition := ⟨{}⟩

instance {NP : Type} [Inhabited NP] : Inhabited (Position NP) := ⟨Position.zero default⟩

/-- The chunk vector for the statement data: number of arguments and index of the left
hand side (`Chunk2<StatementInt, IndexType>` over the terminal vector). -/
abbrev StatementVector := ChunkVector (Nat × Nat) EmptyChunkVector EmptyPosition

/-- Position of the statement vector. -/
abbrev StmtPosition := Position EmptyPosition

/-- The chunk vector for the jacobi data: jacobi and index of each argument
(`Chunk2<Real, IndexType>` over the statement vector). -/
abbrev JacobiVector (R : Type) := ChunkVector (R × Nat) StatementVector StmtPosition

/-- Position of the jacobi vector. -/
abbrev JacobiPosition := Position StmtPosition

/-- The chunk vector for the external functions
(`Chunk2<ExternalFunction, JacobiVector::Position>` over the jacobi vector); the type `E` of
the external functions is a parameter. -/
abbrev ExternalFunctionVector (R E : Type) :=
  ChunkVector (E × JacobiPosition) (JacobiVector R) JacobiPosition

/-- The interface of the index manager `IndexHandler` (a template parameter of the tape
types): both members take the index by reference, so they return the handler and the
index. -/
class IndexHandler (H : Type) where
  /-- ensures that the index is allocated -/
  checkIndex : H → Nat → H × Nat
  /-- releases the index -/
  freeIndex : H → Nat → H × Nat

/-- Modelled from the spec: an index allocator that is a monotonic counter (the index
managers are not among the sources).  The state is the largest index handed out;
`checkIndex` gives a new index to the inactive index 0 and `freeIndex` marks the index
inactive. -/
structure CounterIndexHandler where
  /-- largest index handed out so far -/
  last : Nat
deriving DecidableEq

instance : IndexHandler CounterIndexHandler where
  checkIndex h index := if index = 0 then (⟨h.last + 1⟩, h.last + 1) else (h, index)
  freeIndex h _index := (h, 0)

/-- The part of `ActiveReal` the tape reads: the primal value and the gradient data, which
is the index for this tape. -/
structure ActiveReal (R : Type) where
  /-- primal value -/
  value : R
  /-- index of the value on the tape -/
  gradientData : Nat
deriving DecidableEq

/-- The primal value. -/
def ActiveReal.getValue {R : Type} (a : ActiveReal R) : R := a.value

/-- The gradient data. -/
def ActiveReal.getGradientData {R : Type} (a : ActiveReal R) : Nat := a.gradientData

/-- The compile time options of the configuration that `store` checks, and the default
chunk size (the configuration header is not among the sources). -/
structure TapeOptions where
  /-- check whether the tape is active -/
  OptTapeActivity : Bool
  /-- check whether the index of the right hand side is zero -/
  OptCheckZeroIndex : Bool
  /-- chunk size of the statement and jacobi vectors of a new tape -/
  DefaultChunkSize : Nat

/-- Modelled from the spec: the macro `ENABLE_CHECK(option, condition)` of the configuration
header, which is not among the sources.  An enabled option check runs the guarded block
when the condition holds and the other block when it does not; a disabled check always runs
the guarded block. -/
def enableCheck (option condition : Bool) : Bool := !option || condition

/-- State of a `JacobiIndexTape`.  The statement vector is the nested vector of the jacobi
vector, which is the nested vector of the external function vector, as the references of
the class say. -/
structure JacobiIndexTape (R H E : Type) where
  /-- the index manager -/
  indexHandler : H
  /-- the adjoint vector -/
  adjoints : Nat → R
  /-- size of the adjoint vector -/
  adjointsSize : Nat
  /-- whether the tape records -/
  active : Bool
  /-- the external function vector with the jacobi and statement vectors nested in it -/
  extFuncVector : ExternalFunctionVector R E

namespace JacobiIndexTape

variable {R H E : Type}

/-- The member `jacobiVector`. -/
def jacobiVector (t : JacobiIndexTape R H E) : JacobiVector R := t.extFuncVector.nested

/-- The member `stmtVector`. -/
def stmtVector (t : JacobiIndexTape R H E) : StatementVector := t.extFuncVector.nested.nested

/-- Assignment to the member `jacobiVector`. -/
def setJacobiVector (t : JacobiIndexTape R H E) (jv : JacobiVector R) : JacobiIndexTape R H E :=
  { t with extFuncVector := t.extFuncVector.useNested jv }

/-- The constructor: a tape with the default chunk sizes that does not record. -/
def new [Zero R] [Inhabited E] (opts : TapeOptions) (indexHandler : H) : JacobiIndexTape R H E :=
  { indexHandler := indexHandler
    adjoints := fun _ => 0
    adjointsSize := 0
    active := false
    extFuncVector :=
      haveI : Inhabited R := ⟨0⟩
      ChunkVector.new 1000
        (ChunkVector.new opts.DefaultChunkSize
          (ChunkVector.new opts.DefaultChunkSize ({} : EmptyChunkVector))) }

/-- The copy operation `store(lhsValue, lhsIndex, rhs)`.  The two reference parameters are
returned with the tape: the primal value and the index of the left hand side. -/
def store [One R] [Inhabited R] [IndexHandler H] (opts : TapeOptions) (t : JacobiIndexTape R H E)
    (_lhsValue : R) (lhsIndex : Nat) (rhs : ActiveReal R) :
    Option (JacobiIndexTape R H E × R × Nat) :=
  if enableCheck opts.OptTapeActivity t.active then
    if enableCheck opts.OptCheckZeroIndex (0 != rhs.getGradientData) then
      let r := IndexHandler.checkIndex t.indexHandler lhsIndex
      match t.stmtVector.reserveItems 1 with
      | none => none
      | some sv =>
        match (t.jacobiVector.useNested sv).reserveItems 1 with
        | none => none
        | some jv =>
          let jv := jv.setDataAndMove (1, rhs.getGradientData)
          let jv := jv.useNested (jv.nested.setDataAndMove (1, r.2))
          some ({ t with indexHandler := r.1
                         extFuncVector := t.extFuncVector.useNested jv }, rhs.getValue, r.2)
    else
      let r := IndexHandler.freeIndex t.indexHandler lhsIndex
      some ({ t with indexHandler := r.1 }, rhs.getValue, r.2)
  else
    let r := IndexHandler.freeIndex t.indexHandler lhsIndex
    some ({ t with indexHandler := r.1 }, rhs.getValue, r.2)

/-- The member `pushStmtData`. -/
def pushStmtData (t : JacobiIndexTape R H E) (numberOfArguments lhsIndex : Nat) :
    JacobiIndexTape R H E :=
  t.setJacobiVector
    (t.jacobiVector.useNested (t.stmtVector.setDataAndMove (numberOfArguments, lhsIndex)))

end JacobiIndexTape

/-- Modelled from the spec: the recording of one elementary assignment with the arguments
`args` (the statement module with the general `store` is not among the sources):
`Statement.reserve(1)`, `Coefficient.reserve(k)`, one `Coefficient.append` for every
argument and `Statement.append((k, resultIndex))`.  The copy operation of the tape is the
case of the single argument `(1.0, rhsIndex)`. -/
def recordStatement {R : Type} [Inhabited R] (jv : JacobiVector R) (args : List (R × Nat))
    (lhsIndex : Nat) : Option (JacobiVector R) :=
  match jv.nested.reserveItems 1 with
  | none => none
  | some sv =>
    match (jv.useNested sv).reserveItems args.length with
    | none => none
    | some jv =>
      let jv := args.foldl ChunkVector.setDataAndMove jv
      some (jv.useNested (jv.nested.setDataAndMove (args.length, lhsIndex)))

/-! ## Reverse evaluation -/

/-- The pointers that `getDataAtPosition(chunkIndex, dataPos)` returns, used as arrays as
`evaluateStmt` does: entry `i` is the record in slot `dataPos + i` of the chunk (the
default record outside the chunk). -/
def ChunkVector.getDataArrayAtPosition {D N NP : Type} [Inhabited D] (v : ChunkVector D N NP)
    (chunkIndex dataPos : Nat) : Option (Nat → D) :=
  if chunkIndex < v.chunks.length then
    some (fun i => (derefChunk v.chunks chunkIndex).data.getD (dataPos + i) default)
  else none

/-- The loop of `incrementAdjoints`, see there. -/
def incrementAdjointsLoop {R : Type} [Add R] [Mul R] (adj : R) (jacobies : Nat → R)
    (indices : Nat → Nat) : Nat → (Nat → R) × Nat → (Nat → R) × Nat
  | 0, s => s
  | k + 1, s =>
    incrementAdjointsLoop adj jacobies indices k
      (Function.update s.1 (indices (s.2 - 1))
        (s.1 (indices (s.2 - 1)) + jacobies (s.2 - 1) * adj), s.2 - 1)

/-- Modelled from the spec: `incrementAdjoints` of the jacobi module, which is not among the
sources.  If the harvested value `adj` is nonzero, for each of the `activeVariables`
coefficient records, read in reverse order, `adjoint[argumentIndex] += coefficient * adj`;
in both cases the coefficient cursor advances by `activeVariables` records.  It returns the
adjoints and the cursor. -/
def incrementAdjoints {R : Type} [Zero R] [Add R] [Mul R] [DecidableEq R] (adj : R)
    (adjoints : Nat → R) (activeVariables dataPos : Nat) (jacobies : Nat → R)
    (indices : Nat → Nat) : (Nat → R) × Nat :=
  if adj ≠ 0 then incrementAdjointsLoop adj jacobies indices activeVariables (adjoints, dataPos)
  else (adjoints, dataPos - activeVariables)

/-- The loop `while(stmtPos > endStmtPos)` of `evalStmtCallback` with `k` iterations left;
the state is the adjoint vector, `stmtPos` and `dataPos`. -/
def evalStmtCallbackLoop {R : Type} [Zero R] [Add R] [Mul R] [DecidableEq R]
    (numberOfArguments lhsIndices : Nat → Nat) (jacobies : Nat → R) (indices : Nat → Nat) :
    Nat → (Nat → R) × Nat × Nat → (Nat → R) × Nat × Nat
  | 0, s => s
  | k + 1, (adjoints, stmtPos, dataPos) =>
    let stmtPos := stmtPos - 1
    let lhsIndex := lhsIndices stmtPos
    let adj := adjoints lhsIndex
    let adjoints := Function.update adjoints lhsIndex 0
    let r := incrementAdjoints adj adjoints (numberOfArguments stmtPos) dataPos jacobies indices
    evalStmtCallbackLoop numberOfArguments lhsIndices jacobies indices k (r.1, stmtPos, r.2)

/-- The AD stack evaluation `evalStmtCallback`: the statements from `stmtPos` down to
`endStmtPos` are evaluated.  It returns the adjoint vector and the two reference parameters
`stmtPos` and `dataPos`. -/
def evalStmtCallback {R : Type} [Zero R] [Add R] [Mul R] [DecidableEq R] (adjoints : Nat → R)
    (stmtPos endStmtPos : Nat) (numberOfArguments lhsIndices : Nat → Nat) (dataPos : Nat)
    (jacobies : Nat → R) (indices : Nat → Nat) : (Nat → R) × Nat × Nat :=
  evalStmtCallbackLoop numberOfArguments lhsIndices jacobies indices (stmtPos - endStmtPos)
    (adjoints, stmtPos, dataPos)

/-- The loop `for(curChunk = start.chunk; curChunk > end.chunk; --curChunk)` of
`evaluateStmt` with `curChunk = stopChunk + k`; `stmtDataPos` is the local variable
`dataPos` of `evaluateStmt` and the state is the adjoint vector with the cursor of the
jacobi data. -/
def evaluateStmtLoop {R : Type} [Zero R] [Add R] [Mul R] [DecidableEq R]
    (stmtVector : StatementVector) (stopChunk : Nat) (jacobies : Nat → R)
    (indices : Nat → Nat) : Nat → Nat → (Nat → R) × Nat → Option (Nat × (Nat → R) × Nat)
  | 0, stmtDataPos, s => some (stmtDataPos, s)
  | k + 1, stmtDataPos, s =>
    match stmtVector.getDataArrayAtPosition (stopChunk + (k + 1)) 0 with
    | none => none
    | some data =>
      let r := evalStmtCallback s.1 stmtDataPos 0 (fun i => (data i).1) (fun i => (data i).2)
        s.2 jacobies indices
      match stmtVector.getChunkUsedData (stopChunk + (k + 1) - 1) with
      | none => none
      | some used => evaluateStmtLoop stmtVector stopChunk jacobies indices k used (r.1, r.2.2)

/-- Evaluates a part of the statement vector, from `start` down to `stop`, with the
arguments `dataPos`, `jacobies` and `indices` that are forwarded to `evalStmtCallback`.  It
returns the adjoint vector and the cursor of the jacobi data. -/
def evaluateStmt {R : Type} [Zero R] [Add R] [Mul R] [DecidableEq R]
    (stmtVector : StatementVector) (adjoints : Nat → R) (start stop : StmtPosition)
    (dataPos : Nat) (jacobies : Nat → R) (indices : Nat → Nat) : Option ((Nat → R) × Nat) :=
  match evaluateStmtLoop stmtVector stop.chunk jacobies indices (start.chunk - stop.chunk)
      start.data (adjoints, dataPos) with
  | none => none
  | some (stmtDataPos, s) =>
    match stmtVector.getDataArrayAtPosition stop.chunk 0 with
    | none => none
    | some data =>
      let r := evalStmtCallback s.1 stmtDataPos stop.data (fun i => (data i).1)
        (fun i => (data i).2) s.2 jacobies indices
      some (r.1, r.2.2)

/-- The `k` coefficient records below the cursor `dataPos` of the arrays `jacobies` and
`indices`, in ascending offset order (the recording order). -/
def coefficientRecords {R : Type} (jacobies : Nat → R) (indices : Nat → Nat) (dataPos k : Nat) :
    List (R × Nat) :=
  (List.range k).map (fun i => (jacobies (dataPos - k + i), indices (dataPos - k + i)))

/-- The sum of the coefficients of the records whose argument index is `j`. -/
def coefficientSum {R : Type} [AddMonoid R] (args : List (R × Nat)) (j : Nat) : R :=
  ((args.filter (fun a => a.2 = j)).map Prod.fst).sum

/-! ## Example tape -/

/-- Example: all option checks enabled, default chunk size 4. -/
def demoOptions : TapeOptions :=
  { OptTapeActivity := true, OptCheckZeroIndex := true, DefaultChunkSize := 4 }

/-- Example: a new tape over the integers with the counter index manager, set active. -/
def demoTape : JacobiIndexTape Int CounterIndexHandler Unit :=
  { (JacobiIndexTape.new demoOptions ⟨0⟩ : JacobiIndexTape Int CounterIndexHandler Unit) with
    active := true }

/-! ## Example reverse sweep -/

/-- Example: adjoints that are 1 at index 3 and 0 elsewhere. -/
def demoSeed : Nat → Int := fun j => if j = 3 then 1 else 0

/-- Example: every statement has one argument. -/
def demoArgs : Nat → Nat := fun _ => 1

/-- Example: every statement has the left hand side index 3. -/
def demoLhs : Nat → Nat := fun _ => 3

/-- Example: every coefficient is 5. -/
def demoJacobies : Nat → Int := fun _ => 5

/-- Example: every coefficient belongs to the argument index 2. -/
def demoIndices : Nat → Nat := fun _ => 2

/-- Example: a jacobi vector of chunk size 2 with one record, over a new statement vector
of chunk size 4. -/
def demoJacobi : JacobiVector Int :=
  (ChunkVector.new 2 (ChunkVector.new 4 ({} : EmptyChunkVector))).setDataAndMove (7, 1)

/-- Example: a vector of chunk size 2 over a statement vector; the statement vector gets a
record after the constructor ran, then the next chunk is loaded. -/
def demoOuter : ChunkVector Nat StatementVector StmtPosition :=
  ((ChunkVector.new 2 (ChunkVector.new 4 ({} : EmptyChunkVector))).useNested
    ((ChunkVector.new 4 ({} : EmptyChunkVector)).setDataAndMove (1, 7))).nextChunk

/-! ## The chunks behind the current chunk -/

/-- Every chunk behind the current one is empty. -/
def ChunkVector.TailEmpty {D N NP : Type} (v : ChunkVector D N NP) : Prop :=
  ∀ i, v.curChunkIndex < i → (derefChunk v.chunks i).usedSize = 0

/-! ## Example statement vector -/

/-- Example: a statement vector of chunk size 4 with the six statements `(1, 1) … (1, 6)`
(one argument each, left hand side indices 1 to 6); the last two lie in the second chunk. -/
def demoStmt : StatementVector :=
  { chunks := [⟨4, 4, [(1, 1), (1, 2), (1, 3), (1, 4)]⟩, ⟨4, 2, [(1, 5), (1, 6), (0, 0), (0, 0)]⟩]
    positions := [{}, {}]
    curChunk := 1
    curChunkIndex := 1
    chunkSize := 4
    nested := {} }

/-- Example: adjoints that are 1 at index 6 and 0 elsewhere. -/
def demoSeedSix : Nat → Int := fun j => if j = 6 then 1 else 0

/-! ## The statements of a range -/

/-- The body of the loop of `evalStmtCallback` as a function object on statement records:
for the record `(numberOfArguments, lhsIndex)` the adjoint of `lhsIndex` is read and set to
zero and `incrementAdjoints` is called.  The state is the adjoint vector with the cursor of
the jacobi data. -/
def evalStatement {R : Type} [Zero R] [Add R] [Mul R] [DecidableEq R] (jacobies : Nat → R)
    (indices : Nat → Nat) (s : (Nat → R) × Nat) (stmt : Nat × Nat) : (Nat → R) × Nat :=
  incrementAdjoints (s.1 stmt.2) (Function.update s.1 stmt.2 0) stmt.1 s.2 jacobies indices

/-- The records of the descending range from `start` down to `stop`, newest first: the
slots below `start.data` of the chunk of `start`, then every chunk in between from its used
count down, then the slots of the chunk of `stop` from its used count down to `stop.data`
(in one chunk: the slots from `start.data` down to `stop.data`). -/
def ChunkVector.visited {D N NP : Type} (v : ChunkVector D N NP) (start stop : Position NP) :
    List D :=
  if start.chunk = stop.chunk then
    (((derefChunk v.chunks stop.chunk).data.take start.data).drop stop.data).reverse
  else
    ((derefChunk v.chunks start.chunk).data.take start.data).reverse
      ++ (((v.chunks.take start.chunk).drop (stop.chunk + 1)).map Chunk.records).flatten.reverse
      ++ ((derefChunk v.chunks stop.chunk).records.drop stop.data).reverse

/-! ## Recording by the protocol -/

/-- The states of the jacobi vector, with the statement vector nested in it, that are reached
from new vectors of the given chunk sizes by recording statements with the protocol. -/
inductive Recorded {R : Type} [Inhabited R] (jacobiChunkSize stmtChunkSize : Nat) :
    JacobiVector R → Prop
  | new : Recorded jacobiChunkSize stmtChunkSize
      (ChunkVector.new jacobiChunkSize (ChunkVector.new stmtChunkSize ({} : EmptyChunkVector)))
  | statement {jv w : JacobiVector R} (args : List (R × Nat)) (lhsIndex : Nat) :
      Recorded jacobiChunkSize stmtChunkSize jv → recordStatement jv args lhsIndex = some w →
      Recorded jacobiChunkSize stmtChunkSize w

/-- The sum of the argument counts of the statements that lie before a position of the
statement vector. -/
def argsBefore (sv : StatementVector) (p : StmtPosition) : Nat :=
  ((recordsBefore sv.live p.chunk p.data).map Prod.fst).sum

/-- The number of records in the chunks before chunk `i`. -/
def ChunkVector.usedBefore {D N NP : Type} (v : ChunkVector D N NP) (i : Nat) : Nat :=
  (recordsBefore v.live i 0).length

/-- The alignment of the jacobi chunks with the statement positions stored for them: the
statements before the position stored for chunk `i` have as many arguments as there are
records in the chunks before chunk `i`, and the stored positions ascend up to the position
of the statement vector. -/
structure Aligned {R : Type} (jv : JacobiVector R) : Prop where
  wf : jv.WF
  wfs : jv.nested.WF
  total : (jv.nested.flat.map Prod.fst).sum = jv.flat.length
  stored : ∀ i, i ≤ jv.curChunkIndex → ∃ a : StmtPosition, jv.positions[i]? = some a
    ∧ jv.nested.Covers a.chunk a.data ∧ argsBefore jv.nested a = jv.usedBefore i
    ∧ Position.ge jv.nested.getPosition a
  mono : ∀ i, i < jv.curChunkIndex → ∀ a b : StmtPosition, jv.positions[i]? = some a →
    jv.positions[i + 1]? = some b → Position.ge b a

/-! ## The tape under copies and rewinds -/

/-- The slots below `n` hold statement records with one argument. -/
def OneArgument (l : List (Nat × Nat)) (n : Nat) : Prop :=
  ∀ j, j < n → ∃ x, l[j]? = some (1, x)

/-- The lock-step of the jacobi vector with the statement vector nested in it, on a tape
that records copies only: both vectors have the same chunk size, the same current chunk
and the same used count in every chunk, the used slots of the statement vector hold
statements with one argument, and so do the slots below every captured position `p` of the
list `P`, whose statement part is at the same chunk and offset. -/
structure LockStep {R : Type} (jv : JacobiVector R) (P : List JacobiPosition) : Prop where
  wf : jv.WF
  wfs : jv.nested.WF
  chunkSize_eq : jv.chunkSize = jv.nested.chunkSize
  cur_eq : jv.curChunkIndex = jv.nested.curChunkIndex
  length_eq : jv.chunks.length = jv.nested.chunks.length
  used_eq : ∀ i, (derefChunk jv.chunks i).usedSize = (derefChunk jv.nested.chunks i).usedSize
  ones : ∀ i, OneArgument (derefChunk jv.nested.chunks i).data
    (derefChunk jv.nested.chunks i).usedSize
  captured : ∀ p ∈ P, p.chunk < jv.chunks.length ∧ p.inner.chunk = p.chunk
    ∧ p.inner.data = p.data ∧ OneArgument (derefChunk jv.nested.chunks p.chunk).data p.data

/-- The states of a tape that are reached from the constructor by `store` calls, by switching
the activity of the tape (`setActive` and `setPassive` of the tape base module, which only
assign the member `active`), and by rewinds of the jacobi vector to positions that its
`getPosition()` returned before; the list holds the positions returned so far. -/
inductive JacobiIndexTape.Reached {R H E : Type} [Zero R] [One R] [Inhabited R] [Inhabited E]
    [IndexHandler H] (opts : TapeOptions) :
    JacobiIndexTape R H E → List JacobiPosition → Prop
  | new (indexHandler : H) : Reached opts (JacobiIndexTape.new opts indexHandler) []
  | setActive {t : JacobiIndexTape R H E} {P : List JacobiPosition} (active : Bool) :
      Reached opts t P → Reached opts { t with active := active } P
  | store {t : JacobiIndexTape R H E} {P : List JacobiPosition} (lhsValue : R)
      (lhsIndex : Nat) (rhs : ActiveReal R) (r : JacobiIndexTape R H E × R × Nat) :
      Reached opts t P → JacobiIndexTape.store opts t lhsValue lhsIndex rhs = some r →
      Reached opts r.1 P
  | getPosition {t : JacobiIndexTape R H E} {P : List JacobiPosition} :
      Reached opts t P → Reached opts t (t.jacobiVector.getPosition :: P)
  | reset {t : JacobiIndexTape R H E} {P : List JacobiPosition} (pos : JacobiPosition)
      (jv : JacobiVector R) :
      Reached opts t P → pos ∈ P → t.jacobiVector.reset pos = some jv →
      Reached opts (t.setJacobiVector jv) P

/-! ## Basic facts about block pointers -/

section Pointers

variable {D : Type}

@[simp] theorem updateChunk_length (cs : List (Chunk D)) (p : Nat) (g : Chunk D → Chunk D) :
    (updateChunk cs p g).length = cs.length := by
  simp [updateChunk]

theorem derefChunk_of_lt {cs : List (Chunk D)} {p : Nat} (h : p < cs.length) :
    derefChunk cs p = cs[p] := by
  simp [derefChunk, List.getD, List.getElem?_eq_getElem h]

theorem derefChunk_mem {cs : List (Chunk D)} {p : Nat} (h : p < cs.length) :
    derefChunk cs p ∈ cs := by
  rw [derefChunk_of_lt h]; exact List.getElem_mem h

theorem derefChunk_updateChunk_same {cs : List (Chunk D)} {p : Nat} (g : Chunk D → Chunk D)
    (h : p < cs.length) : derefChunk (updateChunk cs p g) p = g (derefChunk cs p) := by
  simp [derefChunk, updateChunk, List.getD, List.getElem?_set, h]

theorem derefChunk_updateChunk_ne {cs : List (Chunk D)} {p q : Nat} (g : Chunk D → Chunk D)
    (h : p ≠ q) : derefChunk (updateChunk cs p g) q = derefChunk cs q := by
  simp [derefChunk, updateChunk, List.getD, List.getElem?_set, h]

theorem getElem?_updateChunk_ne {cs : List (Chunk D)} {p q : Nat} (g : Chunk D → Chunk D)
    (h : p ≠ q) : (updateChunk cs p g)[q]? = cs[q]? := by
  simp [updateChunk, List.getElem?_set, h]

theorem updateChunk_id (cs : List (Chunk D)) (p : Nat) : updateChunk cs p Chunk.store = cs := by
  unfold updateChunk Chunk.store derefChunk
  by_cases h : p < cs.length
  · apply List.ext_getElem?
    intro i
    by_cases hi : p = i
    · subst hi; simp [List.getD, List.getElem?_eq_getElem h, List.getElem?_set, h]
    · simp [List.getElem?_set, hi]
  · exact List.set_eq_of_length_le (by omega)

theorem derefChunk_append_left {cs : List (Chunk D)} {p : Nat} (c : Chunk D)
    (h : p < cs.length) : derefChunk (cs ++ [c]) p = derefChunk cs p := by
  simp [derefChunk, List.getD, List.getElem?_append_left h]

theorem derefChunk_append_length (cs : List (Chunk D)) (c : Chunk D) :
    derefChunk (cs ++ [c]) cs.length = c := by
  simp [derefChunk, List.getD]

end Pointers

namespace ChunkVector

variable {D : Type}

theorem resetLoop_length (lo k : Nat) (cs : List (Chunk D)) :
    (resetLoop lo k cs).length = cs.length := by
  induction k generalizing cs with
  | zero => rfl
  | succ k ih => simp [resetLoop, ih]

theorem resetLoop_getElem?_le (lo k : Nat) (cs : List (Chunk D)) (p : Nat) (h : p ≤ lo) :
    (resetLoop lo k cs)[p]? = cs[p]? := by
  induction k generalizing cs with
  | zero => rfl
  | succ k ih =>
    simp only [resetLoop]
    rw [ih, getElem?_updateChunk_ne]
    omega

theorem derefChunk_resetLoop_le (lo k : Nat) (cs : List (Chunk D)) (p : Nat) (h : p ≤ lo) :
    derefChunk (resetLoop lo k cs) p = derefChunk cs p := by
  simp [derefChunk, List.getD, resetLoop_getElem?_le lo k cs p h]

end ChunkVector

/-! ## Reserving -/

namespace ChunkVector

variable {D N NP : Type} [Inhabited D] [NestedVector N NP]

theorem nextChunk_curChunkIndex (v : ChunkVector D N NP) :
    v.nextChunk.curChunkIndex = v.curChunkIndex + 1 := by
  unfold nextChunk; dsimp only; split <;> rfl

theorem nextChunk_chunkSize (v : ChunkVector D N NP) : v.nextChunk.chunkSize = v.chunkSize := by
  unfold nextChunk; dsimp only; split <;> rfl

theorem nextChunk_nested (v : ChunkVector D N NP) : v.nextChunk.nested = v.nested := by
  unfold nextChunk; dsimp only; split <;> rfl

theorem nextChunk_length_last (v : ChunkVector D N NP)
    (h : v.chunks.length = v.curChunkIndex + 1) :
    v.nextChunk.chunks.length = v.chunks.length + 1 := by
  unfold nextChunk; simp [updateChunk_id, h]

theorem nextChunk_length_reuse (v : ChunkVector D N NP)
    (h : v.chunks.length ≠ v.curChunkIndex + 1) :
    v.nextChunk.chunks.length = v.chunks.length := by
  unfold nextChunk; simp [updateChunk_id, h]

theorem nextChunk_used (v : ChunkVector D N NP) (h : v.curChunkIndex < v.chunks.length) :
    (derefChunk v.nextChunk.chunks v.nextChunk.curChunk).usedSize = 0 := by
  unfold nextChunk
  simp only [updateChunk_id]
  split
  · simp [derefChunk_append_length, Chunk.new]
  · rename_i hne
    rw [derefChunk_updateChunk_same _ (by omega)]
    rfl

theorem nextChunk_inv (v : ChunkVector D N NP) (h : v.Inv) : v.nextChunk.Inv := by
  obtain ⟨h1, h2, h3⟩ := h
  unfold nextChunk
  simp only [updateChunk_id]
  split
  · rename_i he
    exact ⟨by simp [he], by simp; omega, by simp [h3]⟩
  · rename_i hne
    exact ⟨rfl, by simp; omega, by simp [h3]⟩

theorem nextChunk_innerPosition (v : ChunkVector D N NP) (h : v.Inv) :
    v.nextChunk.getInnerPosition v.nextChunk.curChunkIndex
      = some (NestedVector.getPosition v.nested) := by
  obtain ⟨h1, h2, h3⟩ := h
  unfold nextChunk getInnerPosition
  simp only [updateChunk_id]
  split
  · rename_i he
    simp [h3, he]
  · rename_i hne
    have : v.curChunkIndex + 1 < v.positions.length := by omega
    simp [this]



theorem reserveItems_eq (v : ChunkVector D N NP) (n : Nat) (hn : n ≤ v.chunkSize) :
    v.reserveItems n
      = some (if v.chunkSize < (derefChunk v.chunks v.curChunk).usedSize + n then v.nextChunk
              else v) := by
  unfold reserveItems Chunk.getUsedSize
  simp only [hn, not_true_eq_false, if_false]
  split <;> rfl

theorem reserveItems_inv (v w : ChunkVector D N NP) (n : Nat) (h : v.Inv)
    (hw : v.reserveItems n = some w) : w.Inv := by
  unfold reserveItems at hw
  split at hw
  · exact absurd hw (by simp)
  · split at hw
    · cases hw; exact nextChunk_inv v h
    · cases hw; exact h

omit [Inhabited D] [NestedVector N NP] in
theorem setDataAndMove_inv (v : ChunkVector D N NP) (d : D) (h : v.Inv) :
    (v.setDataAndMove d).Inv := by
  obtain ⟨h1, h2, h3⟩ := h
  exact ⟨h1, by simpa [setDataAndMove] using h2, by simpa [setDataAndMove] using h3⟩

omit [Inhabited D] [NestedVector N NP] in
theorem foldl_setDataAndMove_fields (rs : List D) (v : ChunkVector D N NP) :
    (rs.foldl setDataAndMove v).curChunk = v.curChunk
    ∧ (rs.foldl setDataAndMove v).curChunkIndex = v.curChunkIndex
    ∧ (rs.foldl setDataAndMove v).chunkSize = v.chunkSize
    ∧ (rs.foldl setDataAndMove v).nested = v.nested
    ∧ (rs.foldl setDataAndMove v).positions = v.positions
    ∧ (rs.foldl setDataAndMove v).chunks.length = v.chunks.length := by
  induction rs generalizing v with
  | nil => simp
  | cons r rs ih =>
    obtain ⟨a, b, c, d, e, f⟩ := ih (v.setDataAndMove r)
    simp only [List.foldl_cons]
    refine ⟨a, b, c, d, e, ?_⟩
    rw [f]; simp [setDataAndMove]

omit [Inhabited D] [NestedVector N NP] in
theorem foldl_setDataAndMove_inv (rs : List D) (v : ChunkVector D N NP) (h : v.Inv) :
    (rs.foldl setDataAndMove v).Inv := by
  induction rs generalizing v with
  | nil => exact h
  | cons r rs ih => exact ih _ (setDataAndMove_inv v r h)

omit [Inhabited D] [NestedVector N NP] in
theorem foldl_setDataAndMove_used (rs : List D) (v : ChunkVector D N NP)
    (h : v.curChunk < v.chunks.length) :
    (derefChunk (rs.foldl setDataAndMove v).chunks v.curChunk).usedSize
      = (derefChunk v.chunks v.curChunk).usedSize + rs.length := by
  induction rs generalizing v with
  | nil => simp
  | cons r rs ih =>
    have h1 : (v.setDataAndMove r).curChunk = v.curChunk := rfl
    have h2 : (v.setDataAndMove r).curChunk < (v.setDataAndMove r).chunks.length := by
      simpa [setDataAndMove] using h
    have := ih (v.setDataAndMove r) h2
    rw [h1] at this
    simp only [List.foldl_cons, this, List.length_cons]
    simp only [setDataAndMove]
    rw [derefChunk_updateChunk_same _ h]
    simp [Chunk.setDataAndMove]; omega

omit [Inhabited D] [NestedVector N NP] in
theorem foldl_setDataAndMove_other (rs : List D) (v : ChunkVector D N NP) (i : Nat)
    (h : i ≠ v.curChunk) : (rs.foldl setDataAndMove v).chunks[i]? = v.chunks[i]? := by
  induction rs generalizing v with
  | nil => simp
  | cons r rs ih =>
    simp only [List.foldl_cons]
    rw [ih (v.setDataAndMove r) h]
    show (updateChunk v.chunks v.curChunk (fun c => c.setDataAndMove r))[i]? = v.chunks[i]?
    exact getElem?_updateChunk_ne _ (Ne.symm h)

/-- C8: `reserveItems(n)` fails its precondition check if and only if `n` exceeds the chunk
size; in particular `reserveItems(C+1)` always fails and `reserveItems(0)` and
`reserveItems(C)` are accepted in every state. -/
theorem reserveItems_fails_iff (v : ChunkVector D N NP) :
    (∀ n, v.reserveItems n = none ↔ v.chunkSize < n)
    ∧ v.reserveItems (v.chunkSize + 1) = none
    ∧ (v.reserveItems 0).isSome
    ∧ (v.reserveItems v.chunkSize).isSome := by
  have key : ∀ n, v.reserveItems n = none ↔ v.chunkSize < n := by
    intro n
    by_cases h : n ≤ v.chunkSize
    · rw [reserveItems_eq v n h]; simp; omega
    · unfold reserveItems; simp [h]; omega
  refine ⟨key, (key _).2 (by omega), ?_, ?_⟩
  · rw [reserveItems_eq v 0 (by omega)]; rfl
  · rw [reserveItems_eq v _ (le_refl _)]; rfl

/-- C4: in every state with the structural invariant of the class (`Inv`, which every
reachable state has) and for `n` not above the chunk size, `reserveItems(n)` leaves the whole
store unchanged when the used count of the current chunk plus `n` fits into the chunk size.  Otherwise the
current chunk index grows by exactly one, the new current chunk has used count zero, its
entry in `positions` is the position of the nested vector at that moment, and the number of
chunks grows by one exactly when the previous current chunk was the last allocated one
(else the allocated next chunk is reused and the count stays). -/
theorem reserveItems_effect (v : ChunkVector D N NP) (hv : v.Inv) (n : Nat)
    (hn : n ≤ v.chunkSize) :
    ((derefChunk v.chunks v.curChunk).getUsedSize + n ≤ v.chunkSize →
      v.reserveItems n = some v)
    ∧ (v.chunkSize < (derefChunk v.chunks v.curChunk).getUsedSize + n →
      ∃ w, v.reserveItems n = some w
        ∧ w.curChunkIndex = v.curChunkIndex + 1
        ∧ w.curChunk = w.curChunkIndex
        ∧ (derefChunk w.chunks w.curChunk).getUsedSize = 0
        ∧ w.getChunkUsedData w.curChunkIndex = some 0
        ∧ w.getInnerPosition w.curChunkIndex = some (NestedVector.getPosition v.nested)
        ∧ w.nested = v.nested
        ∧ w.positions.length = w.chunks.length
        ∧ (v.curChunkIndex + 1 = v.chunks.length → w.chunks.length = v.chunks.length + 1)
        ∧ (v.curChunkIndex + 1 ≠ v.chunks.length → w.chunks.length = v.chunks.length)) := by
  rw [reserveItems_eq v n hn]
  unfold Chunk.getUsedSize
  constructor
  · intro h
    rw [if_neg (by omega)]
  · intro h
    rw [if_pos h]
    have hi := nextChunk_inv v hv
    have hu := nextChunk_used v hv.cur_lt
    refine ⟨_, rfl, nextChunk_curChunkIndex v, hi.cur_eq, hu, ?_, nextChunk_innerPosition v hv,
      nextChunk_nested v, hi.pos_len, ?_, ?_⟩
    · unfold getChunkUsedData
      rw [if_pos hi.cur_lt, ← hi.cur_eq]
      simp [Chunk.getUsedSize, hu]
    · intro he; exact nextChunk_length_last v he.symm
    · intro hne; exact nextChunk_length_reuse v (fun e => hne e.symm)

/-- C7 (amended): `reserveItems(C)` with `C` the chunk size is accepted in every state and
leaves the number of allocated chunks unchanged exactly when the current chunk is empty or
is not the last allocated chunk; when the current chunk is non-empty and is the last
allocated one, exactly one chunk is allocated. -/
theorem reserveItems_chunkSize_length (v : ChunkVector D N NP) :
    ∃ w, v.reserveItems v.chunkSize = some w
      ∧ (w.chunks.length = v.chunks.length ↔
          ((derefChunk v.chunks v.curChunk).getUsedSize = 0
            ∨ v.chunks.length ≠ v.curChunkIndex + 1))
      ∧ (w.chunks.length ≠ v.chunks.length → w.chunks.length = v.chunks.length + 1) := by
  rw [reserveItems_eq v _ (le_refl _)]
  refine ⟨_, rfl, ?_⟩
  unfold Chunk.getUsedSize
  by_cases hu : (derefChunk v.chunks v.curChunk).usedSize = 0
  · simp [hu]
  · have hlt : v.chunkSize < (derefChunk v.chunks v.curChunk).usedSize + v.chunkSize := by omega
    rw [if_pos hlt]
    by_cases hl : v.chunks.length = v.curChunkIndex + 1
    · rw [nextChunk_length_last v hl]; simp [hu, hl]
    · rw [nextChunk_length_reuse v hl]; simp [hl]

/-- C7 (counterexample): with chunk size 4 and one record in the only chunk,
`reserveItems(4)` allocates a second chunk. -/
theorem reserveItems_chunkSize_allocates :
    ((ChunkVector.new 4 ({} : EmptyChunkVector) : ChunkVector Nat EmptyChunkVector
        EmptyPosition).recordAll [[1]]).bind
      (fun v => (v.reserveItems v.chunkSize).map (fun w => (v.chunks.length, w.chunks.length)))
      = some (1, 2) := by
  decide

/-- C3: in every state with the structural invariant of the class (`Inv`, which every
reachable state has) and for every `n` up to the chunk size `C`, the call `reserveItems(n)`
is accepted and afterwards the current chunk has at least `n` free slots
(`C - usedSize ≥ n`); the following (at most `n`) calls of `setDataAndMove` keep the current
chunk and its index, advance only the used count of that chunk, which stays within `C`, and
leave every other chunk alone.  The bound on the used counts of the state before is not
needed. -/
theorem reserveItems_room (v : ChunkVector D N NP) (hv : v.Inv) (n : Nat)
    (hn : n ≤ v.chunkSize) :
    ∃ w, v.reserveItems n = some w
      ∧ w.chunkSize = v.chunkSize
      ∧ w.chunkSize - (derefChunk w.chunks w.curChunk).getUsedSize ≥ n
      ∧ (derefChunk w.chunks w.curChunk).getUsedSize + n ≤ w.chunkSize
      ∧ ∀ rs : List D, rs.length ≤ n →
          (rs.foldl setDataAndMove w).curChunkIndex = w.curChunkIndex
          ∧ (rs.foldl setDataAndMove w).curChunk = w.curChunk
          ∧ (rs.foldl setDataAndMove w).chunks.length = w.chunks.length
          ∧ (rs.foldl setDataAndMove w).getChunkPosition = w.getChunkPosition + rs.length
          ∧ (rs.foldl setDataAndMove w).getChunkPosition ≤ w.chunkSize
          ∧ ∀ i, i ≠ w.curChunk → (rs.foldl setDataAndMove w).chunks[i]? = w.chunks[i]? := by
  obtain ⟨w, hw⟩ : ∃ w, v.reserveItems n = some w := ⟨_, reserveItems_eq v n hn⟩
  have hwi := reserveItems_inv v w n hv hw
  have hcs : w.chunkSize = v.chunkSize := by
    rw [reserveItems_eq v n hn] at hw
    cases hw; split
    · exact nextChunk_chunkSize v
    · rfl
  have hroom : (derefChunk w.chunks w.curChunk).usedSize + n ≤ w.chunkSize := by
    rw [reserveItems_eq v n hn] at hw
    cases hw; split
    · rw [nextChunk_used v hv.cur_lt, nextChunk_chunkSize]; omega
    · omega
  have hcur : w.curChunk < w.chunks.length := by rw [hwi.cur_eq]; exact hwi.cur_lt
  refine ⟨w, hw, hcs, ?_, hroom, ?_⟩
  · unfold Chunk.getUsedSize; omega
  · intro rs hrs
    obtain ⟨a, b, _, _, _, f⟩ := foldl_setDataAndMove_fields rs w
    have hu := foldl_setDataAndMove_used rs w hcur
    have hpos : (rs.foldl setDataAndMove w).getChunkPosition
        = w.getChunkPosition + rs.length := by
      unfold getChunkPosition Chunk.getUsedSize
      rw [a]; exact hu
    refine ⟨b, a, f, hpos, ?_, fun i hi => foldl_setDataAndMove_other rs w i hi⟩
    rw [hpos]; unfold getChunkPosition Chunk.getUsedSize; omega



/-! ## Rewinding -/

omit [Inhabited D] in
theorem reset_spec (v w : ChunkVector D N NP) (pos : Position NP) (h : v.reset pos = some w) :
    pos.chunk < v.chunks.length ∧ pos.data < v.chunkSize
    ∧ ∃ nested, NestedVector.reset v.nested pos.inner = some nested
      ∧ w = { v with
              chunks := updateChunk (resetLoop pos.chunk (v.curChunkIndex - pos.chunk) v.chunks)
                pos.chunk (fun c => c.load.setUsedSize pos.data)
              curChunk := pos.chunk
              curChunkIndex := pos.chunk
              nested := nested } := by
  unfold reset at h
  by_cases h1 : pos.chunk < v.chunks.length
  · by_cases h2 : pos.data < v.chunkSize
    · simp only [h1, h2, not_true_eq_false, if_false] at h
      cases hn : NestedVector.reset v.nested pos.inner with
      | none => rw [hn] at h; exact absurd h (by simp)
      | some nested =>
        rw [hn] at h
        exact ⟨h1, h2, nested, rfl, (Option.some.inj h).symm⟩
    · simp [h1, h2] at h
  · simp [h1] at h

omit [Inhabited D] in
theorem getPosition_after_reset [LawfulNested N NP] (v w : ChunkVector D N NP)
    (pos : Position NP) (h : v.reset pos = some w) :
    w.curChunkIndex = pos.chunk
    ∧ (derefChunk w.chunks w.curChunk).getUsedSize = pos.data
    ∧ NestedVector.getPosition w.nested = pos.inner := by
  obtain ⟨h1, _, nested, hn, rfl⟩ := reset_spec v w pos h
  refine ⟨rfl, ?_, LawfulNested.getPosition_reset _ _ _ hn⟩
  dsimp only
  rw [derefChunk_updateChunk_same _ (by rw [resetLoop_length]; exact h1)]
  rfl

omit [Inhabited D] in
theorem reset_inv (v w : ChunkVector D N NP) (pos : Position NP) (hv : v.Inv)
    (h : v.reset pos = some w) : w.Inv := by
  obtain ⟨h1, _, nested, _, rfl⟩ := reset_spec v w pos h
  exact ⟨rfl, by simpa [resetLoop_length] using h1, by simpa [resetLoop_length] using hv.pos_len⟩

end ChunkVector

@[instance]
theorem EmptyChunkVector.lawfulNested_empty : LawfulNested EmptyChunkVector EmptyPosition :=
  ⟨fun _ _ _ _ => rfl⟩

@[instance]
theorem ChunkVector.lawfulNested_chunkVector {D N NP : Type} [NestedVector N NP] [LawfulNested N NP] :
    LawfulNested (ChunkVector D N NP) (Position NP) := by
  constructor
  intro v w pos h
  obtain ⟨a, b, c⟩ := ChunkVector.getPosition_after_reset v w pos h
  show w.getPosition = pos
  cases pos
  simp only [ChunkVector.getPosition, Position.mk.injEq]
  exact ⟨a, b, c⟩

namespace ChunkVector

section Rewind

variable {D N NP : Type} [NestedVector N NP]

/-- C5: rewind round trip.  After an accepted `reset(pos)` (the checks of the nested
vectors included) `getPosition()` returns `pos`: the chunk index is `pos.chunk`, the used
count of the current chunk is `pos.data` and the position of the nested vector is
`pos.inner`, recursively through every lawful nested vector down to the terminal one. -/
theorem reset_getPosition [LawfulNested N NP] (v w : ChunkVector D N NP) (pos : Position NP)
    (h : v.reset pos = some w) :
    w.getPosition = pos
    ∧ w.curChunkIndex = pos.chunk
    ∧ w.getChunkPosition = pos.data
    ∧ w.getChunkUsedData pos.chunk = some pos.data
    ∧ NestedVector.getPosition w.nested = pos.inner := by
  obtain ⟨a, b, c⟩ := getPosition_after_reset v w pos h
  refine ⟨LawfulNested.getPosition_reset v w pos h, a, b, ?_, c⟩
  obtain ⟨h1, _, nested, _, rfl⟩ := reset_spec v w pos h
  unfold getChunkUsedData
  rw [if_pos (by simpa [resetLoop_length] using h1)]
  exact congrArg some b

end Rewind

variable {D N NP : Type} [Inhabited D] [NestedVector N NP]

/-- C6 (failing input): with chunk size 2 the batch of two records fills the only chunk;
the position returned by `getPosition()` is `(0, 2)`, inside the allocated range and with
offset equal to the chunk size, and `reset` rejects it. -/
theorem reset_full_chunk_rejected :
    ((ChunkVector.new 2 ({} : EmptyChunkVector) : ChunkVector Nat EmptyChunkVector
        EmptyPosition).recordAll [[1, 2]]).map
      (fun v => (v.getPosition.chunk, v.getPosition.data, v.chunks.length, v.chunkSize,
        (v.reset v.getPosition).isSome))
      = some (0, 2, 1, 2, false) := by
  decide



/-! ## Monotonic positions -/

theorem position_lt_trans {NP : Type} {p q r : Position NP} (h1 : Position.lt p q)
    (h2 : Position.lt q r) : Position.lt p r := by
  unfold Position.lt at *
  omega

theorem recordBatch_lt (v : ChunkVector D N NP) (hv : v.Inv) (n : Nat) (rs : List D)
    (h1 : 1 ≤ rs.length) (hn : n ≤ v.chunkSize) :
    ∃ w, v.recordBatch n rs = some w ∧ w.Inv ∧ w.chunkSize = v.chunkSize
      ∧ Position.lt v.getPosition w.getPosition := by
  unfold recordBatch
  rw [reserveItems_eq v n hn]
  dsimp only
  obtain ⟨a, b, c, _, _, _⟩ := foldl_setDataAndMove_fields rs
    (if v.chunkSize < (derefChunk v.chunks v.curChunk).usedSize + n then v.nextChunk else v)
  refine ⟨_, rfl, foldl_setDataAndMove_inv rs _ ?_, ?_, ?_⟩
  · split
    · exact nextChunk_inv v hv
    · exact hv
  · rw [c]; split
    · exact nextChunk_chunkSize v
    · rfl
  · unfold Position.lt getPosition Chunk.getUsedSize
    dsimp only
    rw [a, b]
    split
    · left; rw [nextChunk_curChunkIndex]; omega
    · right
      refine ⟨rfl, ?_⟩
      rw [foldl_setDataAndMove_used rs v (by rw [hv.cur_eq]; exact hv.cur_lt)]
      omega

theorem recordBatches_lt (bs : List (Nat × List D)) (v : ChunkVector D N NP) (hv : v.Inv)
    (hbs : ∀ b ∈ bs, 1 ≤ b.2.length ∧ b.1 ≤ v.chunkSize) (hne : bs ≠ []) :
    ∃ w, v.recordBatches bs = some w ∧ w.Inv ∧ w.chunkSize = v.chunkSize
      ∧ Position.lt v.getPosition w.getPosition := by
  induction bs generalizing v with
  | nil => exact absurd rfl hne
  | cons b bs ih =>
    obtain ⟨hb1, hb2⟩ := hbs b (List.mem_cons_self _ _)
    obtain ⟨w1, e1, i1, c1, l1⟩ := recordBatch_lt v hv b.1 b.2 hb1 hb2
    simp only [recordBatches, e1]
    by_cases hbs0 : bs = []
    · subst hbs0
      exact ⟨w1, rfl, i1, c1, l1⟩
    · have hbs1 : ∀ b1 ∈ bs, 1 ≤ b1.2.length ∧ b1.1 ≤ w1.chunkSize := by
        intro b1 hb1; rw [c1]; exact hbs b1 (List.mem_cons_of_mem _ hb1)
      obtain ⟨w, e, i, c, l⟩ := ih w1 i1 hbs1 hbs0
      exact ⟨w, e, i, c.trans c1, position_lt_trans l1 l⟩

theorem recordBatches_append (bs1 bs2 : List (Nat × List D)) (v : ChunkVector D N NP) :
    v.recordBatches (bs1 ++ bs2) = (v.recordBatches bs1).bind (fun w => w.recordBatches bs2) := by
  induction bs1 generalizing v with
  | nil => rfl
  | cons b bs ih =>
    simp only [List.cons_append, recordBatches]
    cases v.recordBatch b.1 b.2 with
    | none => rfl
    | some w => exact ih w

theorem recordBatches_some (bs : List (Nat × List D)) (v : ChunkVector D N NP) (hv : v.Inv)
    (hbs : ∀ b ∈ bs, b.1 ≤ v.chunkSize) :
    ∃ w, v.recordBatches bs = some w ∧ w.Inv ∧ w.chunkSize = v.chunkSize := by
  induction bs generalizing v with
  | nil => exact ⟨v, rfl, hv, rfl⟩
  | cons b bs ih =>
    have hb := hbs b (List.mem_cons_self _ _)
    have e1 : v.recordBatch b.1 b.2 = some (b.2.foldl setDataAndMove
        (if v.chunkSize < (derefChunk v.chunks v.curChunk).usedSize + b.1 then v.nextChunk
         else v)) := by
      unfold recordBatch; rw [reserveItems_eq v b.1 hb]
    obtain ⟨_, _, c, _, _, _⟩ := foldl_setDataAndMove_fields b.2
      (if v.chunkSize < (derefChunk v.chunks v.curChunk).usedSize + b.1 then v.nextChunk else v)
    have c1 : (b.2.foldl setDataAndMove
        (if v.chunkSize < (derefChunk v.chunks v.curChunk).usedSize + b.1 then v.nextChunk
         else v)).chunkSize = v.chunkSize := by
      rw [c]; split
      · exact nextChunk_chunkSize v
      · rfl
    have i1 := foldl_setDataAndMove_inv b.2
      (if v.chunkSize < (derefChunk v.chunks v.curChunk).usedSize + b.1 then v.nextChunk else v)
      (by split
          · exact nextChunk_inv v hv
          · exact hv)
    obtain ⟨w, e, i, c2⟩ := ih _ i1 (by
      intro b1 hb1; rw [c1]; exact hbs b1 (List.mem_cons_of_mem _ hb1))
    refine ⟨w, ?_, i, c2.trans c1⟩
    simp only [recordBatches, e1]
    exact e

/-- C9: position monotonicity.  From a state with position `p` (any state with the
structural invariant `Inv` of the class, which every reachable state has), a batch `reserveItems(n)`
with `1 ≤ n ≤ C` followed by between one and `n` calls of `setDataAndMove` ends at a
position strictly greater than `p` in the lexicographic order on `(chunk, data)`; hence
for batches `bs1` followed by at least one more batch `bs2` (no reset), the position after
all of them is strictly greater than the position captured after `bs1`. -/
theorem getPosition_strictMono (v : ChunkVector D N NP) (hv : v.Inv)
    (bs1 bs2 : List (Nat × List D))
    (h1 : ∀ b ∈ bs1, 1 ≤ b.2.length ∧ b.2.length ≤ b.1 ∧ b.1 ≤ v.chunkSize)
    (h2 : ∀ b ∈ bs2, 1 ≤ b.2.length ∧ b.2.length ≤ b.1 ∧ b.1 ≤ v.chunkSize)
    (hne : bs2 ≠ []) :
    ∃ w1 w2, v.recordBatches bs1 = some w1
      ∧ w1.recordBatches bs2 = some w2
      ∧ v.recordBatches (bs1 ++ bs2) = some w2
      ∧ Position.lt w1.getPosition w2.getPosition := by
  obtain ⟨w1, e1, i1, c1⟩ := recordBatches_some bs1 v hv (fun b hb => (h1 b hb).2.2)
  obtain ⟨w2, e2, _, _, l⟩ := recordBatches_lt bs2 w1 i1
    (fun b hb => ⟨(h2 b hb).1, by rw [c1]; exact (h2 b hb).2.2⟩) hne
  refine ⟨w1, w2, e1, e2, ?_, l⟩
  rw [recordBatches_append, e1]
  exact e2

/-! ## The structural invariant -/

theorem new_inv (chunkSize : Nat) (nested : N) :
    (ChunkVector.new chunkSize nested : ChunkVector D N NP).Inv :=
  ⟨rfl, by simp [ChunkVector.new], rfl⟩

omit [NestedVector N NP] in
theorem setChunkSize_inv (v : ChunkVector D N NP) (chunkSize : Nat) (hv : v.Inv) :
    (v.setChunkSize chunkSize).Inv :=
  ⟨hv.cur_eq, by simpa [setChunkSize] using hv.cur_lt, by simpa [setChunkSize] using hv.pos_len⟩

theorem resizeLoop_inv (k : Nat) (v : ChunkVector D N NP) (hv : v.Inv) : (resizeLoop k v).Inv := by
  induction k generalizing v with
  | zero => exact hv
  | succ k ih =>
    apply ih
    obtain ⟨a, b, c⟩ := hv
    exact ⟨a, by simp [pushChunk]; omega, by simp [pushChunk, c]⟩

theorem resize_inv (v w : ChunkVector D N NP) (totalSize : Nat) (hv : v.Inv)
    (h : v.resize totalSize = some w) : w.Inv := by
  unfold resize at h
  split at h
  · exact absurd h (by simp)
  · cases h; exact resizeLoop_inv _ v hv

theorem Reachable.inv {v : ChunkVector D N NP} (h : Reachable v) : v.Inv := by
  induction h with
  | new chunkSize nested => exact new_inv chunkSize nested
  | setChunkSize chunkSize _ ih => exact setChunkSize_inv _ chunkSize ih
  | resize totalSize _ hw ih => exact resize_inv _ _ totalSize ih hw
  | nextChunk _ ih => exact nextChunk_inv _ ih
  | reserveItems items _ hw ih => exact reserveItems_inv _ _ items ih hw
  | setDataAndMove data _ ih => exact setDataAndMove_inv _ data ih
  | reset pos _ hw ih => exact reset_inv _ _ pos ih hw
  | resetAll _ hw ih => exact reset_inv _ _ _ ih hw
  | useNested nested _ ih => exact ⟨ih.cur_eq, ih.cur_lt, ih.pos_len⟩

/-- C10: in every state reachable from the constructor by `setChunkSize`, `resize`,
`nextChunk`, `reserveItems`, `setDataAndMove`, `reset(pos)` and `reset()` the vector of
nested positions has exactly as many entries as the vector of chunks. -/
theorem positions_length_eq_chunks_length (v : ChunkVector D N NP) (h : Reachable v) :
    v.positions.length = v.chunks.length :=
  (Reachable.inv h).pos_len



end ChunkVector

/-! ## Lists of blocks -/

section Blocks

variable {D : Type}

theorem recordsBefore_append_recordsAfter (L : List (List D)) (i d : Nat) (h : i < L.length) :
    recordsBefore L i d ++ recordsAfter L i d = L.flatten := by
  unfold recordsBefore recordsAfter
  have hL : L = L.take i ++ L[i] :: L.drop (i + 1) := by
    conv_lhs => rw [← List.take_append_drop i L, List.drop_eq_getElem_cons h]
  have hg : L.getD i [] = L[i] := by simp [List.getD, List.getElem?_eq_getElem h]
  rw [hg]
  have hF : L.flatten = (L.take i).flatten ++ (L[i] ++ (L.drop (i + 1)).flatten) := by
    conv_lhs => rw [hL]
    rw [List.flatten_append, List.flatten_cons]
  rw [hF, List.append_assoc, ← List.append_assoc (List.take d L[i]), List.take_append_drop]

theorem recordsBefore_append_left (L : List (List D)) (x : List D) (i d : Nat)
    (h : i < L.length) : recordsBefore (L ++ [x]) i d = recordsBefore L i d := by
  unfold recordsBefore
  rw [List.take_append_of_le_length (by omega)]
  simp [List.getD, List.getElem?_append_left h]

theorem recordsBefore_last (L : List (List D)) (x : List D) :
    recordsBefore (L ++ [x]) L.length x.length = (L ++ [x]).flatten := by
  unfold recordsBefore
  simp [List.getD]

theorem recordsBefore_last_extend (L : List (List D)) (x y : List D) (d : Nat)
    (h : d ≤ x.length) :
    recordsBefore (L ++ [x ++ y]) L.length d = recordsBefore (L ++ [x]) L.length d := by
  unfold recordsBefore
  simp [List.getD, List.take_append_of_le_length h]

theorem recordsBefore_inner_extend (L : List (List D)) (x y : List D) (i d : Nat)
    (h : i < L.length) :
    recordsBefore (L ++ [x ++ y]) i d = recordsBefore (L ++ [x]) i d := by
  rw [recordsBefore_append_left _ _ _ _ h, recordsBefore_append_left _ _ _ _ h]

end Blocks

namespace ChunkVector

variable {D N NP : Type} [Inhabited D] [NestedVector N NP]

omit [Inhabited D] [NestedVector N NP] in
theorem live_eq (v : ChunkVector D N NP) (h : v.curChunkIndex < v.chunks.length) :
    v.live = (v.chunks.take v.curChunkIndex).map Chunk.records
      ++ [(derefChunk v.chunks v.curChunkIndex).records] := by
  unfold live
  rw [List.take_succ, List.getElem?_eq_getElem h, derefChunk_of_lt h]
  simp only [Option.toList, List.map_append, List.map_cons, List.map_nil]



/-! ## Well-formed stores and their records -/

theorem new_wf (chunkSize : Nat) (nested : N) :
    (ChunkVector.new chunkSize nested : ChunkVector D N NP).WF := by
  refine ⟨new_inv chunkSize nested, ?_, ?_⟩
  · intro c hc
    simp only [ChunkVector.new, List.mem_singleton] at hc
    subst hc; simp [ChunkVector.new, Chunk.new]
  · intro c hc
    simp only [ChunkVector.new, List.mem_singleton] at hc
    subst hc; simp [Chunk.new]

theorem nextChunk_wf (v : ChunkVector D N NP) (hv : v.WF) : v.nextChunk.WF := by
  have hm : v.chunks.length ≠ v.curChunkIndex + 1 →
      derefChunk v.chunks (v.curChunkIndex + 1) ∈ v.chunks := fun hne =>
    derefChunk_mem (by have := hv.cur_lt; omega)
  refine ⟨nextChunk_inv v hv.toInv, ?_, ?_⟩
  · rw [nextChunk_chunkSize]
    unfold nextChunk
    simp only [updateChunk_id]
    split
    · intro c hc
      rcases List.mem_append.1 hc with h | h
      · exact hv.slots c h
      · simp only [List.mem_singleton] at h
        subst h; simp [Chunk.new]
    · rename_i hne
      intro c hc
      rcases List.mem_or_eq_of_mem_set hc with h | h
      · exact hv.slots c h
      · subst h; exact hv.slots (derefChunk v.chunks (v.curChunkIndex + 1)) (hm hne)
  · rw [nextChunk_chunkSize]
    unfold nextChunk
    simp only [updateChunk_id]
    split
    · intro c hc
      rcases List.mem_append.1 hc with h | h
      · exact hv.used_le c h
      · simp only [List.mem_singleton] at h
        subst h; simp [Chunk.new]
    · rename_i hne
      intro c hc
      rcases List.mem_or_eq_of_mem_set hc with h | h
      · exact hv.used_le c h
      · subst h; simp [Chunk.reset]

omit [Inhabited D] [NestedVector N NP] in
theorem take_updateChunk_of_le (cs : List (Chunk D)) (p m : Nat) (g : Chunk D → Chunk D)
    (h : m ≤ p) : (updateChunk cs p g).take m = cs.take m := by
  unfold updateChunk
  rw [List.set_take]
  exact List.set_eq_of_length_le (by simp; omega)

theorem nextChunk_live (v : ChunkVector D N NP) (hv : v.Inv) :
    v.nextChunk.live = v.live ++ [[]] := by
  have hi := nextChunk_inv v hv
  rw [live_eq _ hi.cur_lt, nextChunk_curChunkIndex]
  have hc := hv.cur_lt
  unfold nextChunk live
  simp only [updateChunk_id]
  split
  · rename_i he
    rw [List.take_append_of_le_length (by omega), ← he, derefChunk_append_length]
    simp [Chunk.records, Chunk.new]
  · rename_i hne
    rw [take_updateChunk_of_le _ _ _ _ (le_refl _)]
    congr 2
    rw [derefChunk_updateChunk_same _ (by omega)]
    simp [Chunk.records, Chunk.reset]



omit [Inhabited D] [NestedVector N NP] in
theorem live_length (v : ChunkVector D N NP) (h : v.curChunkIndex < v.chunks.length) :
    v.live.length = v.curChunkIndex + 1 := by
  unfold live
  simp; omega

omit [Inhabited D] in
theorem take_set_of_le {α : Type} (l : List α) (n m : Nat) (a : α) (h : m ≤ n) :
    (l.set n a).take m = l.take m := by
  rw [List.set_take]
  exact List.set_eq_of_length_le (by simp; omega)

omit [Inhabited D] in
theorem records_setDataAndMove (c : Chunk D) (x : D) (h : c.usedSize < c.data.length) :
    (c.setDataAndMove x).records = c.records ++ [x] := by
  unfold Chunk.records Chunk.setDataAndMove
  dsimp only
  rw [List.take_succ, take_set_of_le _ _ _ _ (le_refl _)]
  simp [List.getElem?_set, h]

omit [Inhabited D] in
theorem records_length (c : Chunk D) (h : c.usedSize ≤ c.data.length) :
    c.records.length = c.usedSize := by
  unfold Chunk.records
  simp; omega

omit [Inhabited D] [NestedVector N NP] in
theorem setDataAndMove_wf (v : ChunkVector D N NP) (x : D) (hv : v.WF)
    (h : (derefChunk v.chunks v.curChunk).usedSize < v.chunkSize) :
    (v.setDataAndMove x).WF := by
  refine ⟨setDataAndMove_inv v x hv.toInv, ?_, ?_⟩
  · intro c hc
    rcases List.mem_or_eq_of_mem_set hc with h1 | h1
    · exact hv.slots c h1
    · subst h1
      have hm : derefChunk v.chunks v.curChunk ∈ v.chunks :=
        derefChunk_mem (by rw [hv.cur_eq]; exact hv.cur_lt)
      simpa [Chunk.setDataAndMove] using hv.slots _ hm
  · intro c hc
    rcases List.mem_or_eq_of_mem_set hc with h1 | h1
    · exact hv.used_le c h1
    · subst h1
      show (derefChunk v.chunks v.curChunk).usedSize + 1 ≤ v.chunkSize
      omega

omit [Inhabited D] [NestedVector N NP] in
theorem setDataAndMove_live (v : ChunkVector D N NP) (x : D) (hv : v.WF)
    (h : (derefChunk v.chunks v.curChunk).usedSize < v.chunkSize) :
    (v.setDataAndMove x).live = (v.chunks.take v.curChunkIndex).map Chunk.records
      ++ [(derefChunk v.chunks v.curChunkIndex).records ++ [x]] := by
  have hc : v.curChunk < v.chunks.length := by rw [hv.cur_eq]; exact hv.cur_lt
  have hm : derefChunk v.chunks v.curChunk ∈ v.chunks := derefChunk_mem hc
  have hi := (setDataAndMove_inv v x hv.toInv).cur_lt
  rw [live_eq _ hi]
  have e1 : (v.setDataAndMove x).chunks
      = updateChunk v.chunks v.curChunk (fun c => c.setDataAndMove x) := rfl
  have e2 : (v.setDataAndMove x).curChunkIndex = v.curChunkIndex := rfl
  rw [e1, e2]
  conv_lhs => rw [← hv.cur_eq]
  rw [take_updateChunk_of_le _ _ _ _ (le_refl _),
    derefChunk_updateChunk_same _ hc, records_setDataAndMove _ _ (by rw [hv.slots _ hm]; exact h),
    hv.cur_eq]



/-! ## Continuing a recording -/

omit [Inhabited D] [NestedVector N NP] in
theorem Continues.refl (v : ChunkVector D N NP) (hv : v.WF) : Continues v v [] :=
  ⟨hv, rfl, rfl, by simp, fun _ _ h => ⟨h, rfl⟩⟩

omit [Inhabited D] [NestedVector N NP] in
theorem Continues.trans {u v w : ChunkVector D N NP} {a b : List D} (h1 : Continues u v a)
    (h2 : Continues v w b) : Continues u w (a ++ b) := by
  refine ⟨h2.wf, h2.chunkSize_eq.trans h1.chunkSize_eq, h2.nested_eq.trans h1.nested_eq, ?_, ?_⟩
  · rw [h2.flat_eq, h1.flat_eq, List.append_assoc]
  · intro i d h
    obtain ⟨c1, e1⟩ := h1.covers i d h
    obtain ⟨c2, e2⟩ := h2.covers i d c1
    exact ⟨c2, e2.trans e1⟩

theorem nextChunk_deref_le (v : ChunkVector D N NP) (hv : v.Inv) (i : Nat)
    (h : i ≤ v.curChunkIndex) : derefChunk v.nextChunk.chunks i = derefChunk v.chunks i := by
  have hc := hv.cur_lt
  unfold nextChunk
  simp only [updateChunk_id]
  split
  · exact derefChunk_append_left _ (by omega)
  · exact derefChunk_updateChunk_ne _ (by omega)

theorem continues_nextChunk (v : ChunkVector D N NP) (hv : v.WF) :
    Continues v v.nextChunk [] := by
  have hl := nextChunk_live v hv.toInv
  refine ⟨nextChunk_wf v hv, nextChunk_chunkSize v, nextChunk_nested v, ?_, ?_⟩
  · unfold flat; rw [hl]; simp
  · intro i d h
    refine ⟨⟨?_, ?_⟩, ?_⟩
    · rw [nextChunk_curChunkIndex]; exact Nat.le_succ_of_le h.1
    · rw [nextChunk_deref_le v hv.toInv i h.1]; exact h.2
    · rw [hl]
      exact recordsBefore_append_left _ _ _ _ (by rw [live_length v hv.cur_lt]; have := h.1; omega)

omit [Inhabited D] [NestedVector N NP] in
theorem continues_setDataAndMove (v : ChunkVector D N NP) (x : D) (hv : v.WF)
    (h : (derefChunk v.chunks v.curChunk).usedSize < v.chunkSize) :
    Continues v (v.setDataAndMove x) [x] := by
  have hc : v.curChunk < v.chunks.length := by rw [hv.cur_eq]; exact hv.cur_lt
  have hl := setDataAndMove_live v x hv h
  have hl0 := live_eq v hv.cur_lt
  have hlen : ((v.chunks.take v.curChunkIndex).map Chunk.records).length = v.curChunkIndex := by
    have := hv.cur_lt
    simp; omega
  refine ⟨setDataAndMove_wf v x hv h, rfl, rfl, ?_, ?_⟩
  · unfold flat; rw [hl, hl0]; simp
  · intro i d hcov
    refine ⟨⟨hcov.1, ?_⟩, ?_⟩
    · show d ≤ (derefChunk (updateChunk v.chunks v.curChunk (fun c => c.setDataAndMove x))
        i).usedSize
      by_cases hi : v.curChunk = i
      · subst hi
        rw [derefChunk_updateChunk_same _ hc]
        have := hcov.2
        show d ≤ (derefChunk v.chunks v.curChunk).usedSize + 1
        omega
      · rw [derefChunk_updateChunk_ne _ hi]; exact hcov.2
    · rw [hl, hl0]
      by_cases hi : i = v.curChunkIndex
      · subst hi
        have hm : derefChunk v.chunks v.curChunkIndex ∈ v.chunks := derefChunk_mem hv.cur_lt
        have hd : d ≤ (derefChunk v.chunks v.curChunkIndex).records.length := by
          rw [records_length _ (by rw [hv.slots _ hm]; exact hv.used_le _ hm)]
          exact hcov.2
        have := recordsBefore_last_extend ((v.chunks.take v.curChunkIndex).map Chunk.records)
          (derefChunk v.chunks v.curChunkIndex).records [x] d hd
        rw [hlen] at this
        exact this
      · exact recordsBefore_inner_extend _ _ _ _ _ (by rw [hlen]; have := hcov.1; omega)

omit [Inhabited D] [NestedVector N NP] in
theorem continues_foldl (rs : List D) (v : ChunkVector D N NP) (hv : v.WF)
    (h : (derefChunk v.chunks v.curChunk).usedSize + rs.length ≤ v.chunkSize) :
    Continues v (rs.foldl setDataAndMove v) rs := by
  induction rs generalizing v with
  | nil => exact Continues.refl v hv
  | cons r rs ih =>
    have hlen : (r :: rs).length = rs.length + 1 := rfl
    have hc : v.curChunk < v.chunks.length := by rw [hv.cur_eq]; exact hv.cur_lt
    have h1 := continues_setDataAndMove v r hv (by omega)
    have hu : (derefChunk (v.setDataAndMove r).chunks (v.setDataAndMove r).curChunk).usedSize
        = (derefChunk v.chunks v.curChunk).usedSize + 1 := by
      show (derefChunk (updateChunk v.chunks v.curChunk (fun c => c.setDataAndMove r))
        v.curChunk).usedSize = _
      rw [derefChunk_updateChunk_same _ hc]
      rfl
    have h2 := ih (v.setDataAndMove r) h1.wf (by rw [hu, h1.chunkSize_eq]; omega)
    exact Continues.trans h1 h2

theorem continues_recordBatch (v : ChunkVector D N NP) (hv : v.WF) (n : Nat) (rs : List D)
    (hrs : rs.length ≤ n) (hn : n ≤ v.chunkSize) :
    ∃ w, v.recordBatch n rs = some w ∧ Continues v w rs := by
  unfold recordBatch
  rw [reserveItems_eq v n hn]
  dsimp only
  refine ⟨_, rfl, ?_⟩
  split
  · rename_i hlt
    have h1 := continues_nextChunk v hv
    have h2 := continues_foldl rs v.nextChunk h1.wf (by
      rw [nextChunk_used v hv.cur_lt, nextChunk_chunkSize]; omega)
    exact Continues.trans h1 h2
  · exact continues_foldl rs v hv (by omega)

theorem continues_recordBatches (bs : List (Nat × List D)) (v : ChunkVector D N NP) (hv : v.WF)
    (hbs : ∀ b ∈ bs, b.2.length ≤ b.1 ∧ b.1 ≤ v.chunkSize) :
    ∃ w, v.recordBatches bs = some w ∧ Continues v w (bs.map Prod.snd).flatten := by
  induction bs generalizing v with
  | nil => exact ⟨v, rfl, Continues.refl v hv⟩
  | cons b bs ih =>
    obtain ⟨hb1, hb2⟩ := hbs b (List.mem_cons_self _ _)
    obtain ⟨w1, e1, c1⟩ := continues_recordBatch v hv b.1 b.2 hb1 hb2
    obtain ⟨w, e, c⟩ := ih w1 c1.wf (by
      intro b1 hb1; rw [c1.chunkSize_eq]; exact hbs b1 (List.mem_cons_of_mem _ hb1))
    refine ⟨w, by simp only [recordBatches, e1]; exact e, ?_⟩
    simpa using Continues.trans c1 c



/-! ## Reverse iteration -/

section Iteration

variable {σ : Type}

omit [Inhabited D] [NestedVector N NP] in
theorem forEachDataLoop_eq (v : ChunkVector D N NP) (chunkPos stop : Nat) (f : σ → D → σ)
    (k : Nat) (s : σ) (hc : chunkPos < v.chunks.length)
    (hk : stop + k ≤ (derefChunk v.chunks chunkPos).data.length) :
    v.forEachDataLoop chunkPos stop f k s
      = some (List.foldl f s (((derefChunk v.chunks chunkPos).data.drop stop).take k).reverse) := by
  induction k generalizing s with
  | zero => simp [forEachDataLoop]
  | succ k ih =>
    have hlt : stop + k < (derefChunk v.chunks chunkPos).data.length := by omega
    have hget : v.getDataAtPosition chunkPos (stop + k)
        = some ((derefChunk v.chunks chunkPos).data[stop + k]) := by
      unfold getDataAtPosition Chunk.dataPointer
      rw [if_pos hc, List.getElem?_eq_getElem hlt]
    have hdrop : ((derefChunk v.chunks chunkPos).data.drop stop)[k]?
        = some ((derefChunk v.chunks chunkPos).data[stop + k]) := by
      rw [List.getElem?_drop, List.getElem?_eq_getElem hlt]
    simp only [forEachDataLoop, hget]
    rw [ih _ (by omega), List.take_succ, hdrop]
    simp

omit [Inhabited D] [NestedVector N NP] in
theorem forEachData_eq (v : ChunkVector D N NP) (chunkPos start stop : Nat) (f : σ → D → σ)
    (s : σ) (hc : chunkPos < v.chunks.length) (h1 : stop ≤ start)
    (h2 : start ≤ (derefChunk v.chunks chunkPos).data.length) :
    v.forEachData chunkPos start stop f s
      = some (List.foldl f s (((derefChunk v.chunks chunkPos).data.take start).drop stop).reverse)
    := by
  unfold forEachData
  rw [if_neg (by omega), if_neg (by omega), forEachDataLoop_eq v chunkPos stop f _ s hc (by omega),
    List.drop_take]

omit [Inhabited D] [NestedVector N NP] in
theorem forEachLoop_eq (v : ChunkVector D N NP) (stopChunk : Nat) (f : σ → D → σ) (k : Nat)
    (s : σ) (hu : ∀ c ∈ v.chunks, c.usedSize ≤ c.data.length)
    (hk : stopChunk + k < v.chunks.length) :
    v.forEachLoop stopChunk f k (derefChunk v.chunks (stopChunk + k)).usedSize s
      = some ((derefChunk v.chunks stopChunk).usedSize,
          List.foldl f s
            (((v.chunks.take (stopChunk + k + 1)).drop (stopChunk + 1)).map
              Chunk.records).flatten.reverse) := by
  induction k generalizing s with
  | zero =>
    have : (v.chunks.take (stopChunk + 0 + 1)).drop (stopChunk + 1) = [] :=
      List.drop_eq_nil_of_le (by simp)
    simp [forEachLoop, this]
  | succ k ih =>
    have hlt : stopChunk + (k + 1) < v.chunks.length := hk
    have hm := derefChunk_mem hlt
    have e1 := forEachData_eq v (stopChunk + (k + 1))
      (derefChunk v.chunks (stopChunk + (k + 1))).usedSize 0 f s hlt (Nat.zero_le _) (hu _ hm)
    have hsplit : (v.chunks.take (stopChunk + (k + 1) + 1)).drop (stopChunk + 1)
        = (v.chunks.take (stopChunk + k + 1)).drop (stopChunk + 1)
          ++ [derefChunk v.chunks (stopChunk + (k + 1))] := by
      have : stopChunk + (k + 1) + 1 = (stopChunk + k + 1) + 1 := by omega
      rw [this, List.take_succ, List.getElem?_eq_getElem (by omega),
        List.drop_append_of_le_length (by simp; omega), derefChunk_of_lt hlt]
      rfl
    simp only [forEachLoop, e1, Chunk.getUsedSize]
    rw [ih _ (by omega), hsplit]
    simp [Chunk.records]

omit [Inhabited D] in
theorem forEach_eq (v : ChunkVector D N NP) (stop : Position NP) (f : σ → D → σ) (s : σ)
    (hv : v.WF) (hcov : v.Covers stop.chunk stop.data) :
    v.forEach v.getPosition stop f s
      = some (List.foldl f s (recordsAfter v.live stop.chunk stop.data).reverse) := by
  obtain ⟨h1, h2⟩ := hcov
  have hcur := hv.cur_lt
  have hu : ∀ c ∈ v.chunks, c.usedSize ≤ c.data.length := by
    intro c hc; rw [hv.slots c hc]; exact hv.used_le c hc
  have hge : Position.ge v.getPosition stop := by
    unfold Position.ge getPosition Chunk.getUsedSize
    dsimp only
    rcases Nat.lt_or_eq_of_le h1 with h | h
    · left; exact h
    · right; refine ⟨h.symm, ?_⟩
      rw [hv.cur_eq, ← h]; exact h2
  have hk : stop.chunk + (v.curChunkIndex - stop.chunk) = v.curChunkIndex := by omega
  have hloop := forEachLoop_eq v stop.chunk f (v.curChunkIndex - stop.chunk) s hu (by omega)
  rw [hk] at hloop
  have hsc : stop.chunk < v.chunks.length := by omega
  have hm := derefChunk_mem hsc
  have hfin := fun s1 => forEachData_eq v stop.chunk (derefChunk v.chunks stop.chunk).usedSize
    stop.data f s1 hsc h2 (hu _ hm)
  unfold forEach
  rw [if_neg (not_not.2 hge), if_neg (not_not.2 (by exact hcur))]
  show (match v.forEachLoop stop.chunk f (v.curChunkIndex - stop.chunk)
      (derefChunk v.chunks v.curChunk).usedSize s with
    | none => none
    | some (dataStart, s1) => v.forEachData stop.chunk dataStart stop.data f s1) = _
  rw [hv.cur_eq, hloop]
  dsimp only
  rw [hfin]
  have hgetD : v.live.getD stop.chunk [] = (derefChunk v.chunks stop.chunk).records := by
    unfold live
    rw [List.getD_eq_getElem?_getD, List.getElem?_map, List.getElem?_take_of_lt (by omega),
      List.getElem?_eq_getElem hsc, derefChunk_of_lt hsc]
    rfl
  have hdrop : v.live.drop (stop.chunk + 1)
      = ((v.chunks.take (v.curChunkIndex + 1)).drop (stop.chunk + 1)).map Chunk.records := by
    unfold live; rw [List.map_drop]
  unfold recordsAfter
  rw [hgetD, hdrop]
  simp [Chunk.records]

end Iteration



/-! ## Iterating over what was recorded between two captures -/

omit [Inhabited D] [NestedVector N NP] in
theorem covers_getPosition (v : ChunkVector D N NP) (hv : v.Inv) :
    v.Covers v.curChunkIndex (derefChunk v.chunks v.curChunk).usedSize :=
  ⟨le_refl _, by rw [hv.cur_eq]⟩

omit [Inhabited D] [NestedVector N NP] in
theorem recordsBefore_getPosition (v : ChunkVector D N NP) (hv : v.WF) :
    recordsBefore v.live v.curChunkIndex (derefChunk v.chunks v.curChunk).usedSize = v.flat := by
  have hm : derefChunk v.chunks v.curChunkIndex ∈ v.chunks := derefChunk_mem hv.cur_lt
  have hl := records_length (derefChunk v.chunks v.curChunkIndex)
    (by rw [hv.slots _ hm]; exact hv.used_le _ hm)
  have hlen : ((v.chunks.take v.curChunkIndex).map Chunk.records).length = v.curChunkIndex := by
    have := hv.cur_lt
    simp; omega
  have := recordsBefore_last ((v.chunks.take v.curChunkIndex).map Chunk.records)
    (derefChunk v.chunks v.curChunkIndex).records
  rw [hlen, hl, ← live_eq v hv.cur_lt] at this
  rw [hv.cur_eq]
  exact this

omit [Inhabited D] in
theorem forEach_continues {σ : Type} (v w : ChunkVector D N NP) (rs : List D) (hv : v.WF)
    (h : Continues v w rs) (f : σ → D → σ) (s : σ) :
    w.forEach w.getPosition v.getPosition f s = some (List.foldl f s rs.reverse) := by
  obtain ⟨hc, he⟩ := h.covers _ _ (covers_getPosition v hv.toInv)
  have e1 := forEach_eq w v.getPosition f s h.wf hc
  have e2 := recordsBefore_append_recordsAfter w.live v.curChunkIndex
    (derefChunk v.chunks v.curChunk).usedSize (by
      rw [live_length w h.wf.cur_lt]; have := hc.1; omega)
  rw [he, recordsBefore_getPosition v hv] at e2
  have e3 : recordsAfter w.live v.curChunkIndex (derefChunk v.chunks v.curChunk).usedSize = rs :=
    List.append_cancel_left (e2.trans h.flat_eq)
  rw [e1]
  show some (List.foldl f s (recordsAfter w.live v.curChunkIndex
    (derefChunk v.chunks v.curChunk).usedSize).reverse) = _
  rw [e3]

theorem continues_recordAll (bs : List (List D)) (v : ChunkVector D N NP) (hv : v.WF)
    (hbs : ∀ rs ∈ bs, rs.length ≤ v.chunkSize) :
    ∃ w, v.recordAll bs = some w ∧ Continues v w bs.flatten := by
  obtain ⟨w, e, c⟩ := continues_recordBatches (exactBatches bs) v hv (by
    intro b hb
    obtain ⟨rs, hrs, rfl⟩ := List.mem_map.1 hb
    exact ⟨le_refl _, hbs rs hrs⟩)
  refine ⟨w, e, ?_⟩
  have : (exactBatches bs).map Prod.snd = bs := by
    unfold exactBatches; simp [List.map_map, Function.comp_def]
  rwa [this] at c

/-- C1: a chunk vector is filled from its constructor only by batches (`reserveItems(n)`
followed by exactly `n` calls of `setDataAndMove`, `n ≤ C`).  With `p1` the position
captured after the batches `A` and `p2` the position captured after the further batches
`B`, the call `forEach(p2, p1, f)` is accepted and calls `f` exactly on the records of `B`,
once each and on nothing else, the most recent first, however the records are spread over
the chunks. -/
theorem forEach_between_captures (chunkSize : Nat) (nested : N) (A B : List (List D))
    (hA : ∀ rs ∈ A, rs.length ≤ chunkSize) (hB : ∀ rs ∈ B, rs.length ≤ chunkSize) :
    ∃ v1 v2 : ChunkVector D N NP,
      (ChunkVector.new chunkSize nested).recordAll A = some v1
      ∧ v1.recordAll B = some v2
      ∧ ∀ (σ : Type) (f : σ → D → σ) (s : σ),
          v2.forEach v2.getPosition v1.getPosition f s
            = some (List.foldl f s B.flatten.reverse) := by
  obtain ⟨v1, e1, c1⟩ := continues_recordAll A (ChunkVector.new chunkSize nested)
    (new_wf chunkSize nested) hA
  obtain ⟨v2, e2, c2⟩ := continues_recordAll B v1 c1.wf (by
    rw [c1.chunkSize_eq]; exact hB)
  exact ⟨v1, v2, e1, e2, fun σ f s => forEach_continues v1 v2 _ c1.wf c2 f s⟩



/-! ## Rewinding and recording again -/

omit [Inhabited D] [NestedVector N NP] in
theorem updateChunk_forall (cs : List (Chunk D)) (p : Nat) (g : Chunk D → Chunk D)
    (P : Chunk D → Prop) (h : ∀ c ∈ cs, P c) (hg : ∀ c, P c → P (g c)) :
    ∀ c ∈ updateChunk cs p g, P c := by
  intro c hc
  by_cases hp : p < cs.length
  · rcases List.mem_or_eq_of_mem_set hc with h1 | h1
    · exact h c h1
    · subst h1; exact hg _ (h _ (derefChunk_mem hp))
  · unfold updateChunk at hc
    rw [List.set_eq_of_length_le (by omega)] at hc
    exact h c hc

omit [Inhabited D] [NestedVector N NP] in
theorem resetLoop_forall (lo k : Nat) (cs : List (Chunk D)) (P : Chunk D → Prop)
    (h : ∀ c ∈ cs, P c) (hg : ∀ c, P c → P c.reset) : ∀ c ∈ resetLoop lo k cs, P c := by
  induction k generalizing cs with
  | zero => exact h
  | succ k ih => exact ih _ (updateChunk_forall cs _ _ P h hg)

omit [Inhabited D] [NestedVector N NP] in
theorem resetLoop_take (lo k : Nat) (cs : List (Chunk D)) :
    (resetLoop lo k cs).take (lo + 1) = cs.take (lo + 1) := by
  induction k generalizing cs with
  | zero => rfl
  | succ k ih =>
    simp only [resetLoop]
    rw [ih, take_updateChunk_of_le _ _ _ _ (by omega)]

omit [Inhabited D] in
theorem reset_wf (v w : ChunkVector D N NP) (pos : Position NP) (hv : v.WF)
    (h : v.reset pos = some w) : w.WF := by
  have hi := reset_inv v w pos hv.toInv h
  obtain ⟨h1, h2, nested, _, rfl⟩ := reset_spec v w pos h
  have key : ∀ c ∈ updateChunk (resetLoop pos.chunk (v.curChunkIndex - pos.chunk) v.chunks)
      pos.chunk (fun c => c.load.setUsedSize pos.data),
      c.data.length = v.chunkSize ∧ c.usedSize ≤ v.chunkSize := by
    apply updateChunk_forall
    · apply resetLoop_forall
      · exact fun c hc => ⟨hv.slots c hc, hv.used_le c hc⟩
      · exact fun c hc => ⟨hc.1, Nat.zero_le _⟩
    · exact fun c hc => ⟨hc.1, Nat.le_of_lt h2⟩
  exact ⟨hi, fun c hc => (key c hc).1, fun c hc => (key c hc).2⟩

omit [Inhabited D] in
theorem reset_flat (v w : ChunkVector D N NP) (pos : Position NP) (hv : v.WF)
    (h : v.reset pos = some w) (hcov : v.Covers pos.chunk pos.data) :
    w.flat = recordsBefore v.live pos.chunk pos.data := by
  have hi := reset_inv v w pos hv.toInv h
  obtain ⟨h1, h2, nested, _, rfl⟩ := reset_spec v w pos h
  obtain ⟨c1, c2⟩ := hcov
  have hlen : pos.chunk < (resetLoop pos.chunk (v.curChunkIndex - pos.chunk) v.chunks).length := by
    rw [resetLoop_length]; exact h1
  have htake : ∀ cs : List (Chunk D), cs.take pos.chunk = (cs.take (pos.chunk + 1)).take pos.chunk := by
    intro cs; rw [List.take_take]; congr 1; omega
  unfold flat
  rw [live_eq _ hi.cur_lt]
  dsimp only
  rw [take_updateChunk_of_le _ _ _ _ (le_refl _), derefChunk_updateChunk_same _ hlen,
    derefChunk_resetLoop_le _ _ _ _ (le_refl _), htake, resetLoop_take, ← htake]
  unfold recordsBefore live
  have hgetD : (List.map Chunk.records (v.chunks.take (v.curChunkIndex + 1))).getD pos.chunk []
      = (derefChunk v.chunks pos.chunk).records := by
    rw [List.getD_eq_getElem?_getD, List.getElem?_map, List.getElem?_take_of_lt (by omega),
      List.getElem?_eq_getElem h1, derefChunk_of_lt h1]
    rfl
  rw [hgetD, ← List.map_take, List.take_take, Nat.min_eq_left (by omega)]
  simp only [List.flatten_append, List.flatten_cons, List.flatten_nil, List.append_nil]
  congr 1
  unfold Chunk.records Chunk.load Chunk.setUsedSize
  dsimp only
  rw [List.take_take, Nat.min_eq_left c2]

theorem recordBatch_getPosition (v w : ChunkVector D N NP) (hv : v.Inv) (n : Nat) (rs : List D)
    (hn : n ≤ v.chunkSize) (h : v.recordBatch n rs = some w) :
    w.getPosition =
      { chunk := if v.chunkSize < v.getPosition.data + n then v.getPosition.chunk + 1
                 else v.getPosition.chunk
        data := (if v.chunkSize < v.getPosition.data + n then 0 else v.getPosition.data)
                  + rs.length
        inner := v.getPosition.inner } := by
  unfold recordBatch at h
  rw [reserveItems_eq v n hn] at h
  cases h
  obtain ⟨a, b, _, d, _, _⟩ := foldl_setDataAndMove_fields rs
    (if v.chunkSize < (derefChunk v.chunks v.curChunk).usedSize + n then v.nextChunk else v)
  unfold getPosition Chunk.getUsedSize
  rw [a, b, d]
  dsimp only
  split
  · rename_i hlt
    have hi := nextChunk_inv v hv
    rw [foldl_setDataAndMove_used rs v.nextChunk (by rw [hi.cur_eq]; exact hi.cur_lt),
      nextChunk_used v hv.cur_lt, nextChunk_curChunkIndex, nextChunk_nested]
  · rw [foldl_setDataAndMove_used rs v (by rw [hv.cur_eq]; exact hv.cur_lt)]

theorem recordBatches_getPosition_congr (bs : List (Nat × List D)) (v v1 w w1 : ChunkVector D N NP)
    (hv : v.Inv) (hv1 : v1.Inv) (hc : v.chunkSize = v1.chunkSize)
    (hp : v.getPosition = v1.getPosition) (hbs : ∀ b ∈ bs, b.1 ≤ v.chunkSize)
    (h : v.recordBatches bs = some w) (h1 : v1.recordBatches bs = some w1) :
    w.getPosition = w1.getPosition := by
  induction bs generalizing v v1 with
  | nil =>
    simp only [recordBatches, Option.some.injEq] at h h1
    subst h; subst h1; exact hp
  | cons b bs ih =>
    have hb := hbs b (List.mem_cons_self _ _)
    simp only [recordBatches] at h h1
    cases e : v.recordBatch b.1 b.2 with
    | none => rw [e] at h; exact absurd h (by simp)
    | some u =>
      cases e1 : v1.recordBatch b.1 b.2 with
      | none => rw [e1] at h1; exact absurd h1 (by simp)
      | some u1 =>
        rw [e] at h; rw [e1] at h1
        have p := recordBatch_getPosition v u hv b.1 b.2 hb e
        have p1 := recordBatch_getPosition v1 u1 hv1 b.1 b.2 (hc ▸ hb) e1
        rw [← hp, ← hc] at p1
        obtain ⟨_, eu, iu, cu⟩ := recordBatches_some [b] v hv (by simpa using hb)
        obtain ⟨_, eu1, iu1, cu1⟩ := recordBatches_some [b] v1 hv1 (by simpa [← hc] using hb)
        simp only [recordBatches, e, Option.some.injEq] at eu
        simp only [recordBatches, e1, Option.some.injEq] at eu1
        subst eu; subst eu1
        exact ih u u1 iu iu1 (by rw [cu, cu1, hc]) (p.trans p1.symm)
          (by intro b1 hb1; rw [cu]; exact hbs b1 (List.mem_cons_of_mem _ hb1)) h h1



theorem new_flat (chunkSize : Nat) (nested : N) :
    (ChunkVector.new chunkSize nested : ChunkVector D N NP).flat = [] := by
  simp [flat, live, ChunkVector.new, Chunk.records, Chunk.new]

omit [Inhabited D] in
theorem forEach_all {σ : Type} (v : ChunkVector D N NP) (inner : NP) (hv : v.WF)
    (f : σ → D → σ) (s : σ) :
    v.forEach v.getPosition (Position.zero inner) f s = some (List.foldl f s v.flat.reverse) := by
  rw [forEach_eq v (Position.zero inner) f s hv ⟨Nat.zero_le _, Nat.zero_le _⟩]
  have := recordsBefore_append_recordsAfter v.live 0 0 (by
    rw [live_length v hv.cur_lt]; omega)
  have h0 : recordsBefore v.live 0 0 = [] := by simp [recordsBefore]
  rw [h0, List.nil_append] at this
  show some (List.foldl f s (recordsAfter v.live 0 0).reverse) = _
  rw [this]; rfl

omit [Inhabited D] in
theorem reset_chunkSize (v w : ChunkVector D N NP) (pos : Position NP)
    (h : v.reset pos = some w) : w.chunkSize = v.chunkSize := by
  obtain ⟨_, _, nested, _, rfl⟩ := reset_spec v w pos h
  rfl

/-- C2: rewind-then-record is indistinguishable from never having recorded past `p`.  For
batch sequences `A`, `B`, `B'` on a fresh chunk vector, with `p` the position captured after
`A` and `reset(p)` accepted after `B`, recording `B'` after the rewind and recording `B'`
directly after `A` are both accepted and end with the same `getPosition()`, and
`forEach(getPosition(), Position())` visits the same records in both stores: those of `A`
followed by those of `B'`, the most recent first. -/
theorem rewind_then_record [LawfulNested N NP] (chunkSize : Nat) (nested : N)
    (A B B' : List (List D)) (hA : ∀ rs ∈ A, rs.length ≤ chunkSize)
    (hB : ∀ rs ∈ B, rs.length ≤ chunkSize) (hB' : ∀ rs ∈ B', rs.length ≤ chunkSize)
    (vA vB vR : ChunkVector D N NP)
    (h1 : (ChunkVector.new chunkSize nested).recordAll A = some vA)
    (h2 : vA.recordAll B = some vB) (h3 : vB.reset vA.getPosition = some vR) :
    ∃ w w1 : ChunkVector D N NP,
      vR.recordAll B' = some w
      ∧ vA.recordAll B' = some w1
      ∧ w.getPosition = w1.getPosition
      ∧ ∀ (σ : Type) (f : σ → D → σ) (s : σ),
          w.forEach w.getPosition (Position.zero (NestedVector.defaultPosition N)) f s
            = some (List.foldl f s (A.flatten ++ B'.flatten).reverse)
          ∧ w1.forEach w1.getPosition (Position.zero (NestedVector.defaultPosition N)) f s
            = some (List.foldl f s (A.flatten ++ B'.flatten).reverse) := by
  obtain ⟨vA0, eA, cA⟩ := continues_recordAll A (ChunkVector.new chunkSize nested)
    (new_wf chunkSize nested) hA
  rw [h1] at eA; cases eA
  have hcA : vA.chunkSize = chunkSize := cA.chunkSize_eq
  obtain ⟨vB0, eB, cB⟩ := continues_recordAll B vA cA.wf (by rw [hcA]; exact hB)
  rw [h2] at eB; cases eB
  obtain ⟨hcov, hbef⟩ := cB.covers _ _ (covers_getPosition vA cA.wf.toInv)
  have hwfR := reset_wf vB vR _ cB.wf h3
  have hflatR : vR.flat = vA.flat := by
    rw [reset_flat vB vR _ cB.wf h3 hcov]
    exact hbef.trans (recordsBefore_getPosition vA cA.wf)
  have hcR : vR.chunkSize = chunkSize := by
    rw [reset_chunkSize vB vR _ h3, cB.chunkSize_eq, hcA]
  have hposR : vR.getPosition = vA.getPosition :=
    LawfulNested.getPosition_reset vB vR vA.getPosition h3
  obtain ⟨w, ew, cw⟩ := continues_recordAll B' vR hwfR (by rw [hcR]; exact hB')
  obtain ⟨w1, ew1, cw1⟩ := continues_recordAll B' vA cA.wf (by rw [hcA]; exact hB')
  have hflatA : vA.flat = A.flatten := by rw [cA.flat_eq, new_flat, List.nil_append]
  have hpos : w.getPosition = w1.getPosition :=
    recordBatches_getPosition_congr (exactBatches B') vR vA w w1 hwfR.toInv cA.wf.toInv
      (hcR.trans hcA.symm) hposR (by
        intro b hb
        obtain ⟨rs, hrs, rfl⟩ := List.mem_map.1 hb
        rw [hcR]; exact hB' rs hrs) ew ew1
  refine ⟨w, w1, ew, ew1, hpos, fun σ f s => ⟨?_, ?_⟩⟩
  · rw [forEach_all w _ cw.wf f s, cw.flat_eq, hflatR, hflatA]
  · rw [forEach_all w1 _ cw1.wf f s, cw1.flat_eq, hflatA]



end ChunkVector

/-! ## Concrete instances -/

namespace ChunkVector

theorem forEach_between_captures_witness :
    ∃ v1 v2 : ChunkVector Nat EmptyChunkVector EmptyPosition,
      (ChunkVector.new 4 ({} : EmptyChunkVector)).recordAll [[1, 2], [3, 4, 5]] = some v1
      ∧ v1.recordAll [[6], [7, 8, 9, 10]] = some v2
      ∧ ∀ (σ : Type) (f : σ → Nat → σ) (s : σ),
          v2.forEach v2.getPosition v1.getPosition f s
            = some (List.foldl f s [10, 9, 8, 7, 6]) := by
  have hA : ∀ rs ∈ [[1, 2], [3, 4, 5]], rs.length ≤ 4 := by decide
  have hB : ∀ rs ∈ [[6], [7, 8, 9, 10]], rs.length ≤ 4 := by decide
  obtain ⟨v1, v2, h1, h2, h3⟩ := forEach_between_captures 4 ({} : EmptyChunkVector)
    [[1, 2], [3, 4, 5]] [[6], [7, 8, 9, 10]] hA hB
  exact ⟨v1, v2, h1, h2, h3⟩

theorem rewind_then_record_witness :
    (ChunkVector.new 4 ({} : EmptyChunkVector)).recordAll [[1, 2, 3]] = some demoA
    ∧ demoA.recordAll [[4, 5], [6]] = some demoB
    ∧ demoB.reset demoA.getPosition = some demoR
    ∧ ∃ w w1 : ChunkVector Nat EmptyChunkVector EmptyPosition,
      demoR.recordAll [[7], [8]] = some w
      ∧ demoA.recordAll [[7], [8]] = some w1
      ∧ w.getPosition = w1.getPosition
      ∧ w.forEach w.getPosition (Position.zero {}) (fun l x => l ++ [x]) []
          = some [8, 7, 3, 2, 1] := by
  have hA : ∀ rs ∈ [[1, 2, 3]], rs.length ≤ 4 := by decide
  have hB : ∀ rs ∈ [[4, 5], [6]], rs.length ≤ 4 := by decide
  have hB' : ∀ rs ∈ [[7], [8]], rs.length ≤ 4 := by decide
  have h1 : (ChunkVector.new 4 ({} : EmptyChunkVector)).recordAll [[1, 2, 3]] = some demoA := by
    decide
  have h2 : demoA.recordAll [[4, 5], [6]] = some demoB := by decide
  have h3 : demoB.reset demoA.getPosition = some demoR := by decide
  obtain ⟨w, w1, e, e1, hp, hf⟩ := rewind_then_record 4 ({} : EmptyChunkVector) [[1, 2, 3]]
    [[4, 5], [6]] [[7], [8]] hA hB hB' demoA demoB demoR h1 h2 h3
  exact ⟨h1, h2, h3, w, w1, e, e1, hp, (hf _ (fun l x => l ++ [x]) []).1⟩

theorem reserveItems_room_witness :
    ∃ w, demoTwo.reserveItems 3 = some w
      ∧ (derefChunk w.chunks w.curChunk).getUsedSize + 3 ≤ w.chunkSize := by
  have hv : demoTwo.Inv := ⟨rfl, by decide, rfl⟩
  have hn : 3 ≤ demoTwo.chunkSize := by decide
  obtain ⟨w, h, _, _, h4, _⟩ := reserveItems_room demoTwo hv 3 hn
  exact ⟨w, h, h4⟩

theorem reserveItems_effect_witness :
    ∃ w, demoTwo.reserveItems 3 = some w ∧ w.curChunkIndex = 1 ∧ w.chunks.length = 2 := by
  have hv : demoTwo.Inv := ⟨rfl, by decide, rfl⟩
  have hn : 3 ≤ demoTwo.chunkSize := by decide
  have hlt : demoTwo.chunkSize < (derefChunk demoTwo.chunks demoTwo.curChunk).getUsedSize + 3 := by
    decide
  obtain ⟨w, h, h1, _, _, _, _, _, _, h8, _⟩ := (reserveItems_effect demoTwo hv 3 hn).2 hlt
  exact ⟨w, h, h1, h8 rfl⟩

theorem reset_getPosition_witness :
    demoB.reset demoA.getPosition = some demoR ∧ demoR.getPosition = demoA.getPosition := by
  have h : demoB.reset demoA.getPosition = some demoR := by decide
  exact ⟨h, (reset_getPosition demoB demoR demoA.getPosition h).1⟩

theorem getPosition_strictMono_witness :
    ∃ w1 w2 : ChunkVector Nat EmptyChunkVector EmptyPosition,
      demoTwo.recordBatches [(2, [3, 4])] = some w1
      ∧ w1.recordBatches [(3, [5, 6]), (1, [7])] = some w2
      ∧ Position.lt w1.getPosition w2.getPosition := by
  have hv : demoTwo.Inv := ⟨rfl, by decide, rfl⟩
  have h1 : ∀ b ∈ [(2, [3, 4])],
      1 ≤ b.2.length ∧ b.2.length ≤ b.1 ∧ b.1 ≤ demoTwo.chunkSize := by decide
  have h2 : ∀ b ∈ [(3, [5, 6]), (1, [7])],
      1 ≤ b.2.length ∧ b.2.length ≤ b.1 ∧ b.1 ≤ demoTwo.chunkSize := by decide
  obtain ⟨w1, w2, e1, e2, _, l⟩ := getPosition_strictMono demoTwo hv [(2, [3, 4])]
    [(3, [5, 6]), (1, [7])] h1 h2 (by decide)
  exact ⟨w1, w2, e1, e2, l⟩

theorem positions_length_eq_chunks_length_witness :
    demoTwo.nextChunk.positions.length = demoTwo.nextChunk.chunks.length := by
  have h : Reachable demoTwo.nextChunk :=
    Reachable.nextChunk (Reachable.setDataAndMove 2 (Reachable.setDataAndMove 1
      (Reachable.new 4 ({} : EmptyChunkVector))))
  exact positions_length_eq_chunks_length demoTwo.nextChunk h

end ChunkVector

/-! ## What a rewind and a preallocation leave alone -/

namespace ChunkVector

section Frame

variable {D N NP : Type}

theorem derefChunk_updateChunk_data (cs : List (Chunk D)) (p i : Nat) (g : Chunk D → Chunk D)
    (hg : ∀ c, (g c).data = c.data ∧ (g c).size = c.size) :
    (derefChunk (updateChunk cs p g) i).data = (derefChunk cs i).data
    ∧ (derefChunk (updateChunk cs p g) i).size = (derefChunk cs i).size := by
  by_cases hp : p = i
  · subst hp
    by_cases hl : p < cs.length
    · rw [derefChunk_updateChunk_same g hl]; exact hg _
    · unfold updateChunk
      rw [List.set_eq_of_length_le (by omega)]
      exact ⟨rfl, rfl⟩
  · rw [derefChunk_updateChunk_ne g hp]
    exact ⟨rfl, rfl⟩

theorem derefChunk_resetLoop_data (lo k : Nat) (cs : List (Chunk D)) (i : Nat) :
    (derefChunk (resetLoop lo k cs) i).data = (derefChunk cs i).data
    ∧ (derefChunk (resetLoop lo k cs) i).size = (derefChunk cs i).size := by
  induction k generalizing cs with
  | zero => exact ⟨rfl, rfl⟩
  | succ k ih =>
    simp only [resetLoop]
    obtain ⟨a, b⟩ := ih (updateChunk cs (lo + (k + 1)) Chunk.reset)
    obtain ⟨c, d⟩ := derefChunk_updateChunk_data cs (lo + (k + 1)) i Chunk.reset
      (fun _ => ⟨rfl, rfl⟩)
    exact ⟨a.trans c, b.trans d⟩

theorem reset_only_truncates_aux [NestedVector N NP] (v w : ChunkVector D N NP)
    (pos : Position NP) (h : v.reset pos = some w) :
    w.chunks.length = v.chunks.length ∧ w.positions = v.positions
      ∧ w.chunkSize = v.chunkSize := by
  obtain ⟨_, _, nested, _, rfl⟩ := reset_spec v w pos h
  exact ⟨by rw [updateChunk_length, resetLoop_length], rfl, rfl⟩

/-- C12: `reset(pos)` never deallocates and only truncates.  For every state and every
accepted `pos` the number of chunks, the stored nested positions and the chunk size are
unchanged, every chunk with index below `pos.chunk` is unchanged (used count and records),
and no chunk at all loses its slots or its capacity: only used counts shrink. -/
theorem reset_only_truncates [NestedVector N NP] (v w : ChunkVector D N NP)
    (pos : Position NP) (h : v.reset pos = some w) :
    w.chunks.length = v.chunks.length
    ∧ w.positions = v.positions
    ∧ w.chunkSize = v.chunkSize
    ∧ (∀ i, i < pos.chunk → w.chunks[i]? = v.chunks[i]?)
    ∧ (∀ i, i < pos.chunk → w.getChunkUsedData i = v.getChunkUsedData i)
    ∧ (∀ i, (derefChunk w.chunks i).data = (derefChunk v.chunks i).data
          ∧ (derefChunk w.chunks i).size = (derefChunk v.chunks i).size) := by
  obtain ⟨_, _, nested, _, rfl⟩ := reset_spec v w pos h
  have hlen : (updateChunk (resetLoop pos.chunk (v.curChunkIndex - pos.chunk) v.chunks)
      pos.chunk (fun c => c.load.setUsedSize pos.data)).length = v.chunks.length := by
    rw [updateChunk_length, resetLoop_length]
  have hget : ∀ i, i < pos.chunk →
      (updateChunk (resetLoop pos.chunk (v.curChunkIndex - pos.chunk) v.chunks)
        pos.chunk (fun c => c.load.setUsedSize pos.data))[i]? = v.chunks[i]? := by
    intro i hi
    rw [getElem?_updateChunk_ne _ (by omega), resetLoop_getElem?_le _ _ _ _ (by omega)]
  refine ⟨hlen, rfl, rfl, hget, ?_, ?_⟩
  · intro i hi
    unfold getChunkUsedData derefChunk
    dsimp only
    rw [hlen, List.getD_eq_getElem?_getD, List.getD_eq_getElem?_getD, hget i hi]
  · intro i
    dsimp only
    obtain ⟨a, b⟩ := derefChunk_updateChunk_data
      (resetLoop pos.chunk (v.curChunkIndex - pos.chunk) v.chunks) pos.chunk i
      (fun c => c.load.setUsedSize pos.data) (fun _ => ⟨rfl, rfl⟩)
    obtain ⟨c, d⟩ := derefChunk_resetLoop_data pos.chunk (v.curChunkIndex - pos.chunk)
      v.chunks i
    exact ⟨a.trans c, b.trans d⟩

end Frame

end ChunkVector

namespace ChunkVector

section Preallocation

variable {D N NP : Type} [Inhabited D] [NestedVector N NP]

theorem resizeLoop_spec (k : Nat) (v : ChunkVector D N NP) :
    (resizeLoop k v).chunks = v.chunks ++ List.replicate k (Chunk.new v.chunkSize)
    ∧ (resizeLoop k v).curChunk = v.curChunk
    ∧ (resizeLoop k v).curChunkIndex = v.curChunkIndex
    ∧ (resizeLoop k v).chunkSize = v.chunkSize
    ∧ (resizeLoop k v).nested = v.nested := by
  induction k generalizing v with
  | zero => simp [resizeLoop]
  | succ k ih =>
    obtain ⟨a, b, c, d, e⟩ := ih (pushChunk v)
    simp only [resizeLoop]
    refine ⟨?_, b, c, d, e⟩
    rw [a]
    simp [pushChunk, List.replicate_succ]

omit [NestedVector N NP] in
theorem derefChunk_append_replicate_used (cs : List (Chunk D)) (k size p : Nat) :
    (derefChunk (cs ++ List.replicate k (Chunk.new size)) p).usedSize
      = (derefChunk cs p).usedSize := by
  unfold derefChunk
  rw [List.getD_eq_getElem?_getD, List.getD_eq_getElem?_getD]
  by_cases hp : p < cs.length
  · rw [List.getElem?_append_left hp]
  · rw [List.getElem?_append_right (by omega), List.getElem?_eq_none (by omega : cs.length ≤ p)]
    by_cases hk : p - cs.length < k
    · rw [List.getElem?_replicate, if_pos hk]; rfl
    · rw [List.getElem?_eq_none (by simp; omega)]

theorem ceil_div_eq (t c : Nat) (hc : 0 < c) :
    t / c + (if 0 ≠ t % c then 1 else 0) = (t + c - 1) / c := by
  have h := Nat.div_add_mod t c
  have hm := Nat.mod_lt t hc
  symm
  split
  · rename_i hne
    apply Nat.div_eq_of_lt_le
    · calc (t / c + 1) * c = c * (t / c) + c := by ring
        _ ≤ t + c - 1 := by omega
    · calc t + c - 1 < c * (t / c) + c + c := by omega
        _ = (t / c + 1 + 1) * c := by ring
  · rename_i he
    have h0 : t % c = 0 := by omega
    apply Nat.div_eq_of_lt_le
    · calc (t / c + 0) * c = c * (t / c) := by ring
        _ ≤ t + c - 1 := by omega
    · calc t + c - 1 < c * (t / c) + c := by omega
        _ = (t / c + 0 + 1) * c := by ring

/-- C13: for a chunk size `C > 0` and every `totalSize`, `resize(totalSize)` returns and the
number of chunks afterwards is the maximum of the previous number and `ceil(totalSize / C)`,
so that `chunks * C ≥ totalSize`; the number of chunks does not decrease, `getPosition()` is
unchanged and every chunk that existed before is unchanged (used count included). -/
theorem resize_chunks (v : ChunkVector D N NP) (totalSize : Nat) (hC : 0 < v.chunkSize) :
    ∃ w, v.resize totalSize = some w
      ∧ w.chunks.length = max v.chunks.length ((totalSize + v.chunkSize - 1) / v.chunkSize)
      ∧ totalSize ≤ w.chunks.length * w.chunkSize
      ∧ v.chunks.length ≤ w.chunks.length
      ∧ w.getPosition = v.getPosition
      ∧ (∀ i, i < v.chunks.length → w.chunks[i]? = v.chunks[i]?)
      ∧ (∀ i, i < v.chunks.length → w.getChunkUsedData i = v.getChunkUsedData i) := by
  unfold resize
  rw [if_neg (by omega)]
  dsimp only
  rw [ceil_div_eq totalSize v.chunkSize hC]
  obtain ⟨a, b, c, d, e⟩ := resizeLoop_spec
    ((totalSize + v.chunkSize - 1) / v.chunkSize - v.chunks.length) v
  have hlen : (resizeLoop ((totalSize + v.chunkSize - 1) / v.chunkSize - v.chunks.length)
      v).chunks.length = max v.chunks.length ((totalSize + v.chunkSize - 1) / v.chunkSize) := by
    rw [a]; simp; omega
  have hget : ∀ i, i < v.chunks.length →
      (resizeLoop ((totalSize + v.chunkSize - 1) / v.chunkSize - v.chunks.length)
        v).chunks[i]? = v.chunks[i]? := by
    intro i hi
    rw [a, List.getElem?_append_left hi]
  have hceil : totalSize ≤ (totalSize + v.chunkSize - 1) / v.chunkSize * v.chunkSize := by
    have h1 := Nat.div_add_mod (totalSize + v.chunkSize - 1) v.chunkSize
    have h2 := Nat.mod_lt (totalSize + v.chunkSize - 1) hC
    have h3 : v.chunkSize * ((totalSize + v.chunkSize - 1) / v.chunkSize)
        = (totalSize + v.chunkSize - 1) / v.chunkSize * v.chunkSize := by ring
    omega
  refine ⟨_, rfl, hlen, ?_, ?_, ?_, hget, ?_⟩
  · rw [hlen, d]
    exact le_trans hceil (Nat.mul_le_mul_right _ (le_max_right _ _))
  · rw [hlen]; exact le_max_left _ _
  · unfold getPosition Chunk.getUsedSize
    rw [a, b, c, e, derefChunk_append_replicate_used]
  · intro i hi
    unfold getChunkUsedData derefChunk
    rw [List.getD_eq_getElem?_getD, List.getD_eq_getElem?_getD, hget i hi, if_pos hi,
      if_pos (by rw [hlen]; exact lt_of_lt_of_le hi (le_max_left _ _))]

end Preallocation

end ChunkVector

/-! ## The rewind scenario with chunk size four -/

namespace ChunkVector

theorem scenario_eval (s1 s2 s3 s4 s5 s6 t1 t2 : Nat × Nat) :
    ((ChunkVector.new 4 ({} : EmptyChunkVector)
        : ChunkVector (Nat × Nat) EmptyChunkVector EmptyPosition).recordAll
        [[s1], [s2], [s3]]).bind (fun v3 =>
      (v3.recordAll [[s4], [s5], [s6]]).bind (fun v6 =>
        (v6.reset v3.getPosition).bind (fun vr =>
          (vr.recordAll [[t1], [t2]]).map (fun w =>
            (v3.getPosition, v6.chunks.length, v6.getPosition, w.chunks.length,
              w.getPosition)))))
      = some (⟨0, 3, {}⟩, 2, ⟨1, 2, {}⟩, 2, ⟨1, 1, {}⟩) := by
  simp [ChunkVector.new, recordAll, exactBatches, recordBatches, recordBatch, reserveItems,
    nextChunk, ChunkVector.setDataAndMove, derefChunk, updateChunk, Chunk.new,
    Chunk.getUsedSize, Chunk.setDataAndMove, Chunk.store, Chunk.reset, ChunkVector.reset,
    resetLoop, getPosition, Chunk.load, Chunk.setUsedSize, NestedVector.reset,
    NestedVector.getPosition, EmptyChunkVector.reset, EmptyChunkVector.getPosition,
    List.replicate]

/-- C14: the scenario with chunk size 4.  Six statements `s1 … s6` are recorded, each with
`reserveItems(1)` and `setDataAndMove`; the position after `s3` is `(chunk 0, data 3)`;
after `reset` to it and the recording of two statements `t1`, `t2` the number of allocated
chunks is 2 as before the reset, and `forEach(getPosition(), Position())` visits exactly the
five statements `t2, t1, s3, s2, s1` in that order. -/
theorem rewind_scenario (s1 s2 s3 s4 s5 s6 t1 t2 : Nat × Nat) :
    ∃ v3 v6 vr w : ChunkVector (Nat × Nat) EmptyChunkVector EmptyPosition,
      (ChunkVector.new 4 ({} : EmptyChunkVector)).recordAll [[s1], [s2], [s3]] = some v3
      ∧ v3.getPosition = ⟨0, 3, {}⟩
      ∧ v3.recordAll [[s4], [s5], [s6]] = some v6
      ∧ v6.chunks.length = 2
      ∧ v6.reset ⟨0, 3, {}⟩ = some vr
      ∧ vr.recordAll [[t1], [t2]] = some w
      ∧ w.chunks.length = 2
      ∧ ∀ (σ : Type) (f : σ → Nat × Nat → σ) (s : σ),
          w.forEach w.getPosition (Position.zero {}) f s
            = some (List.foldl f s [t2, t1, s3, s2, s1]) := by
  have hA : ∀ rs ∈ [[s1], [s2], [s3]], rs.length ≤ 4 := by simp
  have hB : ∀ rs ∈ [[s4], [s5], [s6]], rs.length ≤ 4 := by simp
  have hB' : ∀ rs ∈ [[t1], [t2]], rs.length ≤ 4 := by simp
  obtain ⟨v3, e3, c3⟩ := continues_recordAll [[s1], [s2], [s3]]
    (ChunkVector.new 4 ({} : EmptyChunkVector)
      : ChunkVector (Nat × Nat) EmptyChunkVector EmptyPosition) (new_wf 4 {}) hA
  obtain ⟨v6, e6, c6⟩ := continues_recordAll [[s4], [s5], [s6]] v3 c3.wf (by
    rw [c3.chunkSize_eq]; exact hB)
  have key := scenario_eval s1 s2 s3 s4 s5 s6 t1 t2
  rw [e3, Option.some_bind, e6, Option.some_bind] at key
  obtain ⟨vr, er, key⟩ := Option.bind_eq_some.1 key
  obtain ⟨w, ew, key⟩ := Option.map_eq_some'.1 key
  simp only [Prod.mk.injEq] at key
  obtain ⟨k1, k2, _, k4, _⟩ := key
  obtain ⟨w0, w1, ew0, _, _, hf⟩ := rewind_then_record 4 ({} : EmptyChunkVector)
    [[s1], [s2], [s3]] [[s4], [s5], [s6]] [[t1], [t2]] hA hB hB' v3 v6 vr e3 e6 er
  rw [ew] at ew0
  cases ew0
  refine ⟨v3, v6, vr, w, e3, k1, e6, k2, by rw [← k1]; exact er, ew, k4, fun σ f s => ?_⟩
  simpa using (hf σ f s).1

end ChunkVector

/-! ## The stored nested positions along a history -/

namespace ChunkVector

section History

variable {D N NP : Type} [Inhabited D] [NestedVector N NP]

theorem resizeLoop_positions (k : Nat) (v : ChunkVector D N NP) :
    (resizeLoop k v).positions
      = v.positions ++ List.replicate k (NestedVector.getPosition v.nested) := by
  induction k generalizing v with
  | zero => simp [resizeLoop]
  | succ k ih =>
    simp only [resizeLoop]
    rw [ih]
    simp [pushChunk, List.replicate_succ]

theorem nextChunk_positions_getElem? (v : ChunkVector D N NP) (hv : v.Inv) (i : Nat)
    (hi : i < v.nextChunk.chunks.length) :
    v.nextChunk.positions[i]?
      = Function.update (fun j => v.positions[j]?) (v.curChunkIndex + 1)
          (some (NestedVector.getPosition v.nested)) i := by
  obtain ⟨h1, h2, h3⟩ := hv
  unfold nextChunk at hi ⊢
  simp only [updateChunk_id] at hi ⊢
  split
  · rename_i he
    by_cases hc : i = v.curChunkIndex + 1
    · subst hc
      rw [Function.update_same, ← he, ← h3]
      simp
    · rw [Function.update_noteq hc]
      have : i < v.positions.length := by
        rw [if_pos he] at hi
        simp at hi
        omega
      exact List.getElem?_append_left this
  · rename_i hne
    by_cases hc : i = v.curChunkIndex + 1
    · subst hc
      rw [Function.update_same]
      simp [List.getElem?_set]
      omega
    · rw [Function.update_noteq hc]
      simp [List.getElem?_set, Ne.symm hc]

theorem tracked_positions_eq {v : ChunkVector D N NP} {g : Nat → Option NP}
    (h : Tracked v g) : v.Inv ∧ ∀ i, i < v.chunks.length → v.positions[i]? = g i := by
  induction h with
  | new chunkSize nested =>
    refine ⟨new_inv chunkSize nested, ?_⟩
    intro i hi
    have : i = 0 := by simpa [ChunkVector.new] using hi
    subst this
    simp [ChunkVector.new]
  | @setChunkSize v g chunkSize _ ih =>
    refine ⟨setChunkSize_inv _ chunkSize ih.1, ?_⟩
    intro i hi
    have hl : (v.setChunkSize chunkSize).chunks.length = v.chunks.length := by
      simp [ChunkVector.setChunkSize]
    exact ih.2 i (by rw [← hl]; exact hi)
  | @resize v w g totalSize _ hw ih =>
    refine ⟨resize_inv _ _ totalSize ih.1 hw, ?_⟩
    unfold resize at hw
    split at hw
    · exact absurd hw (by simp)
    · simp only [Option.some.injEq] at hw
      subst hw
      generalize totalSize / v.chunkSize + (if 0 ≠ totalSize % v.chunkSize then 1 else 0)
        - v.chunks.length = k
      have hlen : (resizeLoop k v).chunks.length = v.chunks.length + k := by
        rw [(resizeLoop_spec k v).1]; simp
      intro i hi
      rw [hlen] at hi
      show (resizeLoop k v).positions[i]?
        = if v.chunks.length ≤ i ∧ i < (resizeLoop k v).chunks.length
          then some (NestedVector.getPosition v.nested) else g i
      rw [resizeLoop_positions, hlen]
      by_cases hlt : i < v.chunks.length
      · rw [if_neg (by omega), List.getElem?_append_left (by rw [ih.1.pos_len]; exact hlt)]
        exact ih.2 i hlt
      · rw [if_pos ⟨by omega, by omega⟩,
          List.getElem?_append_right (by rw [ih.1.pos_len]; omega), List.getElem?_replicate,
          if_pos (by rw [ih.1.pos_len]; omega)]
  | @nextChunk v g _ ih =>
    refine ⟨nextChunk_inv _ ih.1, ?_⟩
    intro i hi
    rw [nextChunk_positions_getElem? v ih.1 i hi]
    by_cases hc : i = v.curChunkIndex + 1
    · subst hc; simp
    · rw [Function.update_noteq hc, Function.update_noteq hc]
      apply ih.2
      by_cases he : v.chunks.length = v.curChunkIndex + 1
      · rw [nextChunk_length_last v he] at hi; omega
      · rw [nextChunk_length_reuse v he] at hi; exact hi
  | @reserveItems v w g items _ hw ih =>
    refine ⟨reserveItems_inv _ _ items ih.1 hw, ?_⟩
    unfold reserveItems at hw
    split at hw
    · exact absurd hw (by simp)
    · split at hw
      · cases hw
        intro i hi
        rw [if_neg (by rw [nextChunk_curChunkIndex]; omega), nextChunk_curChunkIndex,
          nextChunk_positions_getElem? v ih.1 i hi]
        by_cases hc : i = v.curChunkIndex + 1
        · subst hc; simp
        · rw [Function.update_noteq hc, Function.update_noteq hc]
          apply ih.2
          by_cases he : v.chunks.length = v.curChunkIndex + 1
          · rw [nextChunk_length_last v he] at hi; omega
          · rw [nextChunk_length_reuse v he] at hi; exact hi
      · cases hw
        intro i hi
        rw [if_pos rfl]
        exact ih.2 i hi
  | @setDataAndMove v g data _ ih =>
    refine ⟨setDataAndMove_inv _ data ih.1, ?_⟩
    intro i hi
    have hl : (v.setDataAndMove data).chunks.length = v.chunks.length := by
      simp [ChunkVector.setDataAndMove]
    exact ih.2 i (by rw [← hl]; exact hi)
  | reset pos _ hw ih =>
    refine ⟨reset_inv _ _ pos ih.1 hw, ?_⟩
    obtain ⟨a, b, _⟩ := reset_only_truncates_aux _ _ pos hw
    intro i hi
    rw [b]; exact ih.2 i (by rw [← a]; exact hi)
  | resetAll _ hw ih =>
    refine ⟨reset_inv _ _ _ ih.1 hw, ?_⟩
    obtain ⟨a, b, _⟩ := reset_only_truncates_aux _ _ _ hw
    intro i hi
    rw [b]; exact ih.2 i (by rw [← a]; exact hi)
  | useNested nested _ ih =>
    exact ⟨⟨ih.1.cur_eq, ih.1.cur_lt, ih.1.pos_len⟩, ih.2⟩

/-- C11 (amended): in every reachable state and for every allocated chunk index `i`,
`getInnerPosition(i)` is the position of the nested vector as it was at the moment chunk `i`
was most recently allocated (constructor, `resize`) or loaded by `nextChunk` (also through
`reserveItems`); `reset(pos)` and `reset()` leave every stored position as it is, also the
one of the chunk they make current. -/
theorem getInnerPosition_tracked (v : ChunkVector D N NP) (g : Nat → Option NP)
    (h : Tracked v g) (i : Nat) (hi : i < v.chunks.length) :
    v.getInnerPosition i = g i := by
  obtain ⟨hv, hp⟩ := tracked_positions_eq h
  unfold getInnerPosition
  rw [if_pos (by rw [hv.pos_len]; exact hi)]
  exact hp i hi

end History

/-- C11 (counterexample): an outer vector (chunk size 2) over a nested vector (chunk size
4).  The outer vector is constructed at nested position `(0, 0)`, captures `p` at nested
position `(0, 1)`, moves on to chunk 1, and is rewound to `p` while the nested vector stands
at `(0, 2)`.  The rewind makes chunk 0 current again (the nested vector goes back to
`(0, 1)`), yet `getInnerPosition(0)` still is `(0, 0)`.  The list holds, in this order, the
nested position at the capture, the current chunk index before the rewind, the nested
position before the rewind, the current chunk index after the rewind and the nested
position after the rewind; the last component is `getInnerPosition(0)` after the rewind. -/
theorem getInnerPosition_after_rewind :
    ((ChunkVector.new 4 ({} : EmptyChunkVector)
        : ChunkVector Nat EmptyChunkVector EmptyPosition).recordAll [[10]]).bind (fun n1 =>
      (n1.recordAll [[11]]).bind (fun n2 =>
        (((ChunkVector.new 2 (ChunkVector.new 4 ({} : EmptyChunkVector)
            : ChunkVector Nat EmptyChunkVector EmptyPosition)
            : ChunkVector Nat (ChunkVector Nat EmptyChunkVector EmptyPosition)
                (Position EmptyPosition)).useNested n1).recordAll [[1, 2], [3]]).bind
          (fun o2 =>
            ((o2.useNested n2).reset ⟨0, 0, n1.getPosition⟩).map (fun o4 =>
              ([n1.getPosition.chunk, n1.getPosition.data, o2.curChunkIndex,
                n2.getPosition.chunk, n2.getPosition.data, o4.curChunkIndex,
                o4.nested.getPosition.chunk, o4.nested.getPosition.data],
                (o4.getInnerPosition 0).map (fun q => [q.chunk, q.data]))))))
      = some ([0, 1, 1, 0, 2, 0, 0, 1], some [0, 0]) := by
  decide

end ChunkVector

/-! ## The reverse step of a statement -/

section ReverseStep

variable {R : Type}

theorem coefficientRecords_succ (jacobies : Nat → R) (indices : Nat → Nat) (d k : Nat)
    (h : k + 1 ≤ d) :
    coefficientRecords jacobies indices d (k + 1)
      = coefficientRecords jacobies indices (d - 1) k ++ [(jacobies (d - 1), indices (d - 1))] := by
  unfold coefficientRecords
  rw [List.range_succ, List.map_append]
  congr 1
  · apply List.map_congr_left
    intro i _
    have : d - (k + 1) + i = d - 1 - k + i := by omega
    rw [this]
  · have : d - (k + 1) + k = d - 1 := by omega
    simp [this]

theorem coefficientSum_append [AddMonoid R] (a b : List (R × Nat)) (j : Nat) :
    coefficientSum (a ++ b) j = coefficientSum a j + coefficientSum b j := by
  simp [coefficientSum]

theorem coefficientSum_singleton [AddMonoid R] (c : R) (i j : Nat) :
    coefficientSum [(c, i)] j = if i = j then c else 0 := by
  unfold coefficientSum
  by_cases h : i = j <;> simp [h]

theorem incrementAdjointsLoop_dataPos [Add R] [Mul R] (adj : R) (jacobies : Nat → R)
    (indices : Nat → Nat) (k : Nat) (s : (Nat → R) × Nat) :
    (incrementAdjointsLoop adj jacobies indices k s).2 = s.2 - k := by
  induction k generalizing s with
  | zero => rfl
  | succ k ih =>
    simp only [incrementAdjointsLoop]
    rw [ih]
    omega

theorem incrementAdjoints_dataPos [Zero R] [Add R] [Mul R] [DecidableEq R] (adj : R)
    (adjoints : Nat → R) (k d : Nat) (jacobies : Nat → R) (indices : Nat → Nat) :
    (incrementAdjoints adj adjoints k d jacobies indices).2 = d - k := by
  unfold incrementAdjoints
  split
  · exact incrementAdjointsLoop_dataPos adj jacobies indices k (adjoints, d)
  · rfl

theorem incrementAdjointsLoop_adjoints [CommSemiring R] (adj : R) (jacobies : Nat → R)
    (indices : Nat → Nat) (k : Nat) (adjoints : Nat → R) (d : Nat) (h : k ≤ d) (j : Nat) :
    (incrementAdjointsLoop adj jacobies indices k (adjoints, d)).1 j
      = adjoints j + adj * coefficientSum (coefficientRecords jacobies indices d k) j := by
  induction k generalizing adjoints d with
  | zero => simp [incrementAdjointsLoop, coefficientRecords, coefficientSum]
  | succ k ih =>
    simp only [incrementAdjointsLoop]
    rw [ih _ _ (by omega), coefficientRecords_succ _ _ _ _ h, coefficientSum_append,
      coefficientSum_singleton, Function.update_apply]
    by_cases hj : j = indices (d - 1)
    · rw [if_pos hj, if_pos hj.symm, hj]; ring
    · rw [if_neg hj, if_neg (Ne.symm hj)]; ring

theorem incrementAdjoints_adjoints [CommSemiring R] [DecidableEq R] (adj : R)
    (adjoints : Nat → R) (k d : Nat) (jacobies : Nat → R) (indices : Nat → Nat) (h : k ≤ d)
    (j : Nat) :
    (incrementAdjoints adj adjoints k d jacobies indices).1 j
      = adjoints j + adj * coefficientSum (coefficientRecords jacobies indices d k) j := by
  unfold incrementAdjoints
  split
  · exact incrementAdjointsLoop_adjoints adj jacobies indices k adjoints d h j
  · rename_i h0
    have : adj = 0 := not_not.1 h0
    simp [this]

theorem evalStmtCallbackLoop_succ [Zero R] [Add R] [Mul R] [DecidableEq R]
    (numberOfArguments lhsIndices : Nat → Nat) (jacobies : Nat → R) (indices : Nat → Nat)
    (k : Nat) (adjoints : Nat → R) (stmtPos dataPos : Nat) :
    evalStmtCallbackLoop numberOfArguments lhsIndices jacobies indices (k + 1)
        (adjoints, stmtPos, dataPos)
      = evalStmtCallbackLoop numberOfArguments lhsIndices jacobies indices k
          ((incrementAdjoints (adjoints (lhsIndices (stmtPos - 1)))
              (Function.update adjoints (lhsIndices (stmtPos - 1)) 0)
              (numberOfArguments (stmtPos - 1)) dataPos jacobies indices).1,
            stmtPos - 1,
            dataPos - numberOfArguments (stmtPos - 1)) := by
  simp only [evalStmtCallbackLoop]
  rw [incrementAdjoints_dataPos]

/-- C16: the reverse step of one statement.  For every adjoint vector `A`, the statement in
slot `p` with record `(k, r)` and its `k` coefficient records below the cursor `d`,
`evalStmtCallback` from `p + 1` down to `p` ends with `stmtPos = p`, the cursor at `d - k`
and the adjoint vector `A'` with
`A'[j] = (if j = r then 0 else A[j]) + A[r] * (sum of the c_i with a_i = j)` for every `j`:
the result index is harvested and zeroed before the arguments are incremented, and for
`A[r] = 0` every entry other than `A[r]` is unchanged. -/
theorem evalStmtCallback_statement [CommSemiring R] [DecidableEq R] (A : Nat → R) (p d : Nat)
    (numberOfArguments lhsIndices : Nat → Nat) (jacobies : Nat → R) (indices : Nat → Nat)
    (hd : numberOfArguments p ≤ d) :
    (evalStmtCallback A (p + 1) p numberOfArguments lhsIndices d jacobies indices).2.1 = p
    ∧ (evalStmtCallback A (p + 1) p numberOfArguments lhsIndices d jacobies indices).2.2
        = d - numberOfArguments p
    ∧ (∀ j, (evalStmtCallback A (p + 1) p numberOfArguments lhsIndices d jacobies indices).1 j
        = (if j = lhsIndices p then 0 else A j)
          + A (lhsIndices p)
            * coefficientSum (coefficientRecords jacobies indices d (numberOfArguments p)) j)
    ∧ (A (lhsIndices p) = 0 → ∀ j, j ≠ lhsIndices p →
        (evalStmtCallback A (p + 1) p numberOfArguments lhsIndices d jacobies indices).1 j
          = A j) := by
  have hone : p + 1 - p = 1 := by omega
  have hev : evalStmtCallback A (p + 1) p numberOfArguments lhsIndices d jacobies indices
      = ((incrementAdjoints (A (lhsIndices p)) (Function.update A (lhsIndices p) 0)
            (numberOfArguments p) d jacobies indices).1, p, d - numberOfArguments p) := by
    unfold evalStmtCallback
    rw [hone, evalStmtCallbackLoop_succ]
    simp [evalStmtCallbackLoop]
  have hform : ∀ j, (incrementAdjoints (A (lhsIndices p)) (Function.update A (lhsIndices p) 0)
      (numberOfArguments p) d jacobies indices).1 j
        = (if j = lhsIndices p then 0 else A j)
          + A (lhsIndices p)
            * coefficientSum (coefficientRecords jacobies indices d (numberOfArguments p)) j := by
    intro j
    rw [incrementAdjoints_adjoints _ _ _ _ _ _ hd, Function.update_apply]
  rw [hev]
  refine ⟨rfl, rfl, hform, ?_⟩
  intro h0 j hj
  show (incrementAdjoints (A (lhsIndices p)) (Function.update A (lhsIndices p) 0)
    (numberOfArguments p) d jacobies indices).1 j = A j
  rw [hform, h0, if_neg hj]
  simp

theorem evalStmtCallbackLoop_cursor [Zero R] [Add R] [Mul R] [DecidableEq R]
    (numberOfArguments lhsIndices : Nat → Nat) (jacobies : Nat → R) (indices : Nat → Nat)
    (k : Nat) (A : Nat → R) (s d : Nat) (hk : k ≤ s) :
    (evalStmtCallbackLoop numberOfArguments lhsIndices jacobies indices k (A, s, d)).2.1 = s - k
    ∧ (evalStmtCallbackLoop numberOfArguments lhsIndices jacobies indices k (A, s, d)).2.2
        = d - ∑ i in Finset.Ico (s - k) s, numberOfArguments i := by
  induction k generalizing A s d with
  | zero => simp [evalStmtCallbackLoop]
  | succ k ih =>
    obtain ⟨t, rfl⟩ : ∃ t, s = t + 1 := ⟨s - 1, by omega⟩
    rw [evalStmtCallbackLoop_succ]
    have ht : t + 1 - 1 = t := by omega
    rw [ht]
    obtain ⟨a, b⟩ := ih
      (incrementAdjoints (A (lhsIndices t)) (Function.update A (lhsIndices t) 0)
        (numberOfArguments t) d jacobies indices).1 t
      (d - numberOfArguments t) (by omega)
    rw [a, b]
    refine ⟨by omega, ?_⟩
    have h1 : t + 1 - (k + 1) = t - k := by omega
    rw [h1, Finset.sum_Ico_succ_top (by omega)]
    omega

/-- C17: lock-step cursor advance.  For every call of `evalStmtCallback` with
`stmtPos ≥ endStmtPos`, whatever the adjoint values are, on return `stmtPos` is `endStmtPos`
and the coefficient cursor `dataPos` has been decreased by the sum of `numberOfArguments[i]`
over `endStmtPos ≤ i < stmtPos` (exactly so when the cursor does not run below the start of
its array); for `stmtPos = endStmtPos` adjoints and cursor are unchanged. -/
theorem evalStmtCallback_cursor [Zero R] [Add R] [Mul R] [DecidableEq R] (A : Nat → R)
    (stmtPos endStmtPos : Nat) (numberOfArguments lhsIndices : Nat → Nat) (dataPos : Nat)
    (jacobies : Nat → R) (indices : Nat → Nat) (h : endStmtPos ≤ stmtPos) :
    (evalStmtCallback A stmtPos endStmtPos numberOfArguments lhsIndices dataPos jacobies
        indices).2.1 = endStmtPos
    ∧ (evalStmtCallback A stmtPos endStmtPos numberOfArguments lhsIndices dataPos jacobies
        indices).2.2 = dataPos - ∑ i in Finset.Ico endStmtPos stmtPos, numberOfArguments i
    ∧ (∑ i in Finset.Ico endStmtPos stmtPos, numberOfArguments i ≤ dataPos →
        (evalStmtCallback A stmtPos endStmtPos numberOfArguments lhsIndices dataPos jacobies
          indices).2.2 + ∑ i in Finset.Ico endStmtPos stmtPos, numberOfArguments i = dataPos)
    ∧ (stmtPos = endStmtPos →
        evalStmtCallback A stmtPos endStmtPos numberOfArguments lhsIndices dataPos jacobies
          indices = (A, stmtPos, dataPos)) := by
  obtain ⟨a, b⟩ := evalStmtCallbackLoop_cursor numberOfArguments lhsIndices jacobies indices
    (stmtPos - endStmtPos) A stmtPos dataPos (by omega)
  have hs : stmtPos - (stmtPos - endStmtPos) = endStmtPos := by omega
  rw [hs] at a b
  unfold evalStmtCallback
  refine ⟨a, b, ?_, ?_⟩
  · intro hle; rw [b]; omega
  · intro he
    subst he
    simp [evalStmtCallbackLoop]

end ReverseStep

/-! ## Recording a statement -/

namespace ChunkVector

section Nested

variable {D N NP : Type}

theorem useNested_wf (v : ChunkVector D N NP) (nested : N) (hv : v.WF) :
    (v.useNested nested).WF :=
  ⟨⟨hv.cur_eq, hv.cur_lt, hv.pos_len⟩, hv.slots, hv.used_le⟩

theorem recordsAfter_of_continues (v w : ChunkVector D N NP) (rs : List D) (hv : v.WF)
    (h : Continues v w rs) :
    recordsAfter w.live v.curChunkIndex (derefChunk v.chunks v.curChunk).usedSize = rs := by
  obtain ⟨hc, he⟩ := h.covers _ _ (covers_getPosition v hv.toInv)
  have e2 := recordsBefore_append_recordsAfter w.live v.curChunkIndex
    (derefChunk v.chunks v.curChunk).usedSize (by
      rw [live_length w h.wf.cur_lt]; have := hc.1; omega)
  rw [he, recordsBefore_getPosition v hv] at e2
  exact List.append_cancel_left (e2.trans h.flat_eq)

theorem foldl_setDataAndMove_records (rs : List D) (v : ChunkVector D N NP) (hv : v.WF)
    (h : (derefChunk v.chunks v.curChunk).usedSize + rs.length ≤ v.chunkSize) :
    (derefChunk (rs.foldl setDataAndMove v).chunks v.curChunk).records
      = (derefChunk v.chunks v.curChunk).records ++ rs := by
  induction rs generalizing v with
  | nil => simp
  | cons r rs ih =>
    have hlen : (r :: rs).length = rs.length + 1 := rfl
    have hc : v.curChunk < v.chunks.length := by rw [hv.cur_eq]; exact hv.cur_lt
    have hm : derefChunk v.chunks v.curChunk ∈ v.chunks := derefChunk_mem hc
    have hw := setDataAndMove_wf v r hv (by omega)
    have hd : derefChunk (v.setDataAndMove r).chunks v.curChunk
        = (derefChunk v.chunks v.curChunk).setDataAndMove r := by
      show derefChunk (updateChunk v.chunks v.curChunk (fun c => c.setDataAndMove r)) v.curChunk
        = _
      rw [derefChunk_updateChunk_same _ hc]
    have := ih (v.setDataAndMove r) hw (by
      show (derefChunk (v.setDataAndMove r).chunks v.curChunk).usedSize + rs.length
        ≤ v.chunkSize
      rw [hd]
      show (derefChunk v.chunks v.curChunk).usedSize + 1 + rs.length ≤ v.chunkSize
      omega)
    simp only [List.foldl_cons]
    have hcc : (v.setDataAndMove r).curChunk = v.curChunk := rfl
    rw [hcc] at this
    rw [this, hd, records_setDataAndMove _ _ (by rw [hv.slots _ hm]; omega)]
    simp

end Nested

section ReserveNested

variable {D N NP : Type} [Inhabited D] [NestedVector N NP]

theorem reserveItems_nested (v w : ChunkVector D N NP) (n : Nat)
    (h : v.reserveItems n = some w) : w.nested = v.nested := by
  unfold reserveItems at h
  split at h
  · exact absurd h (by simp)
  · split at h
    · cases h; exact nextChunk_nested v
    · cases h; rfl

theorem nextChunk_getElem?_le (v : ChunkVector D N NP) (hv : v.Inv) (i : Nat)
    (h : i ≤ v.curChunkIndex) : v.nextChunk.chunks[i]? = v.chunks[i]? := by
  have hc := hv.cur_lt
  unfold nextChunk
  simp only [updateChunk_id]
  split
  · exact List.getElem?_append_left (by omega)
  · exact getElem?_updateChunk_ne _ (by omega)

end ReserveNested

end ChunkVector

section Protocol

open ChunkVector

variable {R : Type} [Inhabited R]

theorem recordStatement_spec (jv : JacobiVector R) (args : List (R × Nat)) (lhsIndex : Nat)
    (hj : jv.WF) (hs : jv.nested.WF) (h1 : 1 ≤ jv.nested.chunkSize)
    (hk : args.length ≤ jv.chunkSize) :
    ∃ (sv1 : StatementVector) (jv2 : JacobiVector R),
      jv.nested.reserveItems 1 = some sv1
      ∧ (jv.useNested sv1).reserveItems args.length = some jv2
      ∧ recordStatement jv args lhsIndex
          = some ((args.foldl setDataAndMove jv2).useNested
              (sv1.setDataAndMove (args.length, lhsIndex)))
      ∧ Continues (jv.useNested sv1) (args.foldl setDataAndMove jv2) args
      ∧ Continues jv.nested (sv1.setDataAndMove (args.length, lhsIndex))
          [(args.length, lhsIndex)] := by
  obtain ⟨sv4, e4, c4⟩ := continues_recordBatch jv.nested hs 1 [(args.length, lhsIndex)]
    (by simp) h1
  unfold recordBatch at e4
  cases hsv : jv.nested.reserveItems 1 with
  | none => rw [hsv] at e4; exact absurd e4 (by simp)
  | some sv1 =>
    rw [hsv] at e4
    simp only [List.foldl_cons, List.foldl_nil, Option.some.injEq] at e4
    subst e4
    obtain ⟨jv3, e3, c3⟩ := continues_recordBatch (jv.useNested sv1) (useNested_wf jv sv1 hj)
      args.length args (le_refl _) hk
    unfold recordBatch at e3
    cases hjv : (jv.useNested sv1).reserveItems args.length with
    | none => rw [hjv] at e3; exact absurd e3 (by simp)
    | some jv2 =>
      rw [hjv] at e3
      simp only [Option.some.injEq] at e3
      subst e3
      have hn : (args.foldl setDataAndMove jv2).nested = sv1 := by
        rw [c3.nested_eq]; rfl
      refine ⟨sv1, jv2, rfl, hjv, ?_, c3, c4⟩
      unfold recordStatement
      rw [hsv]
      dsimp only
      rw [hjv]
      dsimp only
      rw [hn]

end Protocol

section Spanning

open ChunkVector

variable {R : Type} [Inhabited R]

/-- C20: block-spanning statement.  A statement with `k ≤ C` arguments is recorded by the
protocol (statement `reserveItems(1)`, coefficient `reserveItems(k)`, `k` coefficient
appends, statement append) while the current coefficient chunk has fewer than `k` free
slots (which forces `k ≥ 1`), in well-formed vectors.  Then the coefficient vector moves to the next chunk, all `k` records lie
contiguously in that one chunk, in slots `0 … k-1` in their recording order, the chunks
recorded before are untouched, the position stored for the new chunk is the statement
position before the statement is appended, and the iteration from the position after the
statement down to the position before it visits exactly these `k` records and no other
slot, the most recent first. -/
theorem recordStatement_spanning (jv : JacobiVector R) (args : List (R × Nat)) (lhsIndex : Nat)
    (hj : jv.WF) (hs : jv.nested.WF) (h1 : 1 ≤ jv.nested.chunkSize)
    (hk : args.length ≤ jv.chunkSize)
    (hfree : jv.chunkSize < jv.getChunkPosition + args.length) :
    ∃ (sv1 : StatementVector) (w : JacobiVector R),
      jv.nested.reserveItems 1 = some sv1
      ∧ recordStatement jv args lhsIndex = some w
      ∧ w.curChunkIndex = jv.curChunkIndex + 1
      ∧ w.getChunkPosition = args.length
      ∧ (derefChunk w.chunks w.curChunkIndex).data.take args.length = args
      ∧ (∀ i, i < args.length → w.getDataAtPosition w.curChunkIndex i = args[i]?)
      ∧ (∀ i, i ≤ jv.curChunkIndex → w.chunks[i]? = jv.chunks[i]?)
      ∧ w.getInnerPosition w.curChunkIndex = some sv1.getPosition
      ∧ w.nested = sv1.setDataAndMove (args.length, lhsIndex)
      ∧ w.nested.flat = jv.nested.flat ++ [(args.length, lhsIndex)]
      ∧ ∀ (σ : Type) (f : σ → R × Nat → σ) (s : σ),
          w.forEach w.getPosition jv.getPosition f s = some (List.foldl f s args.reverse) := by
  obtain ⟨sv1, jv2, e1, e2, e3, c3, c4⟩ := recordStatement_spec jv args lhsIndex hj hs h1 hk
  have hwf1 : (jv.useNested sv1).WF := useNested_wf jv sv1 hj
  have hnext : jv2 = (jv.useNested sv1).nextChunk := by
    have h2 := reserveItems_eq (jv.useNested sv1) args.length hk
    rw [if_pos (show (jv.useNested sv1).chunkSize
      < (derefChunk (jv.useNested sv1).chunks (jv.useNested sv1).curChunk).usedSize
        + args.length from hfree)] at h2
    rw [h2] at e2
    exact (Option.some.inj e2).symm
  subst hnext
  have hwfn := nextChunk_wf _ hwf1
  obtain ⟨fa, fb, _, _, fe, _⟩ := foldl_setDataAndMove_fields args (jv.useNested sv1).nextChunk
  have hcur : (jv.useNested sv1).nextChunk.curChunkIndex = jv.curChunkIndex + 1 :=
    nextChunk_curChunkIndex _
  have hused0 := nextChunk_used (jv.useNested sv1) hwf1.cur_lt
  have hceq : (jv.useNested sv1).nextChunk.curChunk = jv.curChunkIndex + 1 := by
    rw [hwfn.cur_eq, hcur]
  have hroom : (derefChunk (jv.useNested sv1).nextChunk.chunks
      (jv.useNested sv1).nextChunk.curChunk).usedSize + args.length
        ≤ (jv.useNested sv1).nextChunk.chunkSize := by
    rw [hused0, nextChunk_chunkSize]; simpa using hk
  have hrec := foldl_setDataAndMove_records args _ hwfn hroom
  have hrec0 : (derefChunk (jv.useNested sv1).nextChunk.chunks
      (jv.useNested sv1).nextChunk.curChunk).records = [] := by
    unfold Chunk.records; rw [hused0]; rfl
  rw [hrec0, List.nil_append, hceq] at hrec
  have husedk := foldl_setDataAndMove_used args (jv.useNested sv1).nextChunk
    (by rw [hwfn.cur_eq]; exact hwfn.cur_lt)
  rw [hused0, Nat.zero_add, hceq] at husedk
  have htake : (derefChunk (args.foldl setDataAndMove (jv.useNested sv1).nextChunk).chunks
      (jv.useNested sv1).nextChunk.curChunkIndex).data.take args.length = args := by
    rw [hcur]
    unfold Chunk.records at hrec
    rw [husedk] at hrec
    exact hrec
  have hwfw : ((args.foldl setDataAndMove (jv.useNested sv1).nextChunk).useNested
      (sv1.setDataAndMove (args.length, lhsIndex))).WF := useNested_wf _ _ c3.wf
  refine ⟨sv1, _, e1, e3, ?_, ?_, ?_, ?_, ?_, ?_, rfl, c4.flat_eq, ?_⟩
  · show (args.foldl setDataAndMove (jv.useNested sv1).nextChunk).curChunkIndex = _
    rw [fb, hcur]
  · show (derefChunk (args.foldl setDataAndMove (jv.useNested sv1).nextChunk).chunks
      (args.foldl setDataAndMove (jv.useNested sv1).nextChunk).curChunk).getUsedSize = _
    rw [fa, hceq]
    exact husedk
  · show (derefChunk (args.foldl setDataAndMove (jv.useNested sv1).nextChunk).chunks
      (args.foldl setDataAndMove (jv.useNested sv1).nextChunk).curChunkIndex).data.take
        args.length = args
    rw [fb]; exact htake
  · intro i hi
    show (args.foldl setDataAndMove (jv.useNested sv1).nextChunk).getDataAtPosition
      (args.foldl setDataAndMove (jv.useNested sv1).nextChunk).curChunkIndex i = args[i]?
    unfold getDataAtPosition Chunk.dataPointer
    rw [if_pos c3.wf.cur_lt, fb]
    have hget : args[i]? = (List.take args.length
        (derefChunk (args.foldl setDataAndMove (jv.useNested sv1).nextChunk).chunks
          (jv.useNested sv1).nextChunk.curChunkIndex).data)[i]? := by rw [htake]
    rw [hget, List.getElem?_take_of_lt hi]
  · intro i hi
    show (args.foldl setDataAndMove (jv.useNested sv1).nextChunk).chunks[i]? = jv.chunks[i]?
    rw [foldl_setDataAndMove_other args _ i (by rw [hceq]; omega)]
    exact nextChunk_getElem?_le (jv.useNested sv1) hwf1.toInv i hi
  · show (args.foldl setDataAndMove (jv.useNested sv1).nextChunk).getInnerPosition
      (args.foldl setDataAndMove (jv.useNested sv1).nextChunk).curChunkIndex = _
    unfold getInnerPosition
    rw [fe, fb]
    exact nextChunk_innerPosition (jv.useNested sv1) hwf1.toInv
  · intro σ f s
    have hcov := (c3.covers _ _ (covers_getPosition (jv.useNested sv1) hwf1.toInv)).1
    have hra := recordsAfter_of_continues (jv.useNested sv1) _ args hwf1 c3
    rw [forEach_eq _ jv.getPosition f s hwfw hcov]
    exact congrArg (fun l => some (List.foldl f s l.reverse)) hra

end Spanning

/-! ## The copy operation of the tape -/

namespace JacobiIndexTape

open ChunkVector

variable {R H E : Type} [One R] [Inhabited R] [IndexHandler H]

theorem store_recording (opts : TapeOptions) (t : JacobiIndexTape R H E) (lhsValue : R)
    (lhsIndex : Nat) (rhs : ActiveReal R)
    (h1 : enableCheck opts.OptTapeActivity t.active = true)
    (h2 : enableCheck opts.OptCheckZeroIndex (0 != rhs.getGradientData) = true) :
    store opts t lhsValue lhsIndex rhs
      = (recordStatement t.jacobiVector [(1, rhs.getGradientData)]
          (IndexHandler.checkIndex t.indexHandler lhsIndex).2).map
          (fun jv =>
            ({ t with indexHandler := (IndexHandler.checkIndex t.indexHandler lhsIndex).1
                      extFuncVector := t.extFuncVector.useNested jv },
              rhs.getValue, (IndexHandler.checkIndex t.indexHandler lhsIndex).2)) := by
  unfold store recordStatement
  rw [if_pos h1, if_pos h2]
  simp only [List.length_singleton, List.foldl_cons, List.foldl_nil, stmtVector, jacobiVector]
  cases t.extFuncVector.nested.nested.reserveItems 1 with
  | none => rfl
  | some sv =>
    dsimp only
    cases (t.extFuncVector.nested.useNested sv).reserveItems 1 with
    | none => rfl
    | some jv => rfl

theorem store_skipping (opts : TapeOptions) (t : JacobiIndexTape R H E) (lhsValue : R)
    (lhsIndex : Nat) (rhs : ActiveReal R)
    (h : ¬ (enableCheck opts.OptTapeActivity t.active = true
      ∧ enableCheck opts.OptCheckZeroIndex (0 != rhs.getGradientData) = true)) :
    store opts t lhsValue lhsIndex rhs
      = some ({ t with indexHandler := (IndexHandler.freeIndex t.indexHandler lhsIndex).1 },
          rhs.getValue, (IndexHandler.freeIndex t.indexHandler lhsIndex).2) := by
  unfold store
  by_cases h1 : enableCheck opts.OptTapeActivity t.active = true
  · have h2 : ¬ enableCheck opts.OptCheckZeroIndex (0 != rhs.getGradientData) = true :=
      fun h2 => h ⟨h1, h2⟩
    rw [if_pos h1, if_neg h2]
  · rw [if_neg h1]

/-- C19: effect of `store(lhsValue, lhsIndex, rhs)` with the option checks enabled, on a
tape with well-formed statement and jacobi vectors of chunk size at least one.  If the tape
is active and the index of `rhs` is not zero, `checkIndex(lhsIndex)` is called, one
statement slot and then one coefficient slot are reserved, and exactly the coefficient
record `(1.0, rhsIndex)` and the statement record `(1, lhsIndex)` are appended.  Otherwise
no record is appended and `lhsIndex` is released through `freeIndex`.  In every case
`lhsValue` is the value of `rhs` afterwards. -/
theorem store_effect (opts : TapeOptions) (t : JacobiIndexTape R H E) (lhsValue : R)
    (lhsIndex : Nat) (rhs : ActiveReal R) (ho1 : opts.OptTapeActivity = true)
    (ho2 : opts.OptCheckZeroIndex = true) (hj : t.jacobiVector.WF) (hs : t.stmtVector.WF)
    (hcs : 1 ≤ t.stmtVector.chunkSize) (hcj : 1 ≤ t.jacobiVector.chunkSize) :
    (t.active = true ∧ rhs.getGradientData ≠ 0 →
      ∃ (t1 : JacobiIndexTape R H E) (sv1 : StatementVector) (jv1 : JacobiVector R),
        store opts t lhsValue lhsIndex rhs
          = some (t1, rhs.getValue, (IndexHandler.checkIndex t.indexHandler lhsIndex).2)
        ∧ t1.indexHandler = (IndexHandler.checkIndex t.indexHandler lhsIndex).1
        ∧ t.stmtVector.reserveItems 1 = some sv1
        ∧ (t.jacobiVector.useNested sv1).reserveItems 1 = some jv1
        ∧ t1.jacobiVector = (jv1.setDataAndMove (1, rhs.getGradientData)).useNested
            (sv1.setDataAndMove (1, (IndexHandler.checkIndex t.indexHandler lhsIndex).2))
        ∧ t1.jacobiVector.flat = t.jacobiVector.flat ++ [(1, rhs.getGradientData)]
        ∧ t1.stmtVector.flat
            = t.stmtVector.flat ++ [(1, (IndexHandler.checkIndex t.indexHandler lhsIndex).2)]
        ∧ t1.jacobiVector.WF ∧ t1.stmtVector.WF
        ∧ t1.active = t.active)
    ∧ (¬ (t.active = true ∧ rhs.getGradientData ≠ 0) →
        ∃ t1 : JacobiIndexTape R H E,
          store opts t lhsValue lhsIndex rhs
            = some (t1, rhs.getValue, (IndexHandler.freeIndex t.indexHandler lhsIndex).2)
          ∧ t1.indexHandler = (IndexHandler.freeIndex t.indexHandler lhsIndex).1
          ∧ t1.extFuncVector = t.extFuncVector
          ∧ t1.jacobiVector = t.jacobiVector
          ∧ t1.stmtVector = t.stmtVector
          ∧ t1.active = t.active) := by
  have hc1 : enableCheck opts.OptTapeActivity t.active = t.active := by
    rw [ho1]; simp [enableCheck]
  have hc2 : enableCheck opts.OptCheckZeroIndex (0 != rhs.getGradientData) = true
      ↔ rhs.getGradientData ≠ 0 := by
    rw [ho2]
    simp only [enableCheck, Bool.not_true, Bool.false_or, bne_iff_ne, ne_eq]
    exact ⟨fun h e => h e.symm, fun h e => h e.symm⟩
  constructor
  · rintro ⟨ha, hr⟩
    obtain ⟨sv1, jv1, e1, e2, e3, c3, c4⟩ := recordStatement_spec t.jacobiVector
      [(1, rhs.getGradientData)] (IndexHandler.checkIndex t.indexHandler lhsIndex).2 hj hs hcs
      hcj
    refine ⟨{ t with
        indexHandler := (IndexHandler.checkIndex t.indexHandler lhsIndex).1
        extFuncVector := t.extFuncVector.useNested
          ((jv1.setDataAndMove (1, rhs.getGradientData)).useNested
            (sv1.setDataAndMove (1, (IndexHandler.checkIndex t.indexHandler lhsIndex).2))) },
      sv1, jv1, ?_, rfl, e1, e2, rfl, c3.flat_eq, c4.flat_eq, useNested_wf _ _ c3.wf, c4.wf,
      rfl⟩
    rw [store_recording opts t lhsValue lhsIndex rhs (by rw [hc1]; exact ha) (hc2.2 hr), e3]
    rfl
  · intro hn
    refine ⟨_, store_skipping opts t lhsValue lhsIndex rhs ?_, rfl, rfl, rfl, rfl, rfl⟩
    rintro ⟨a, b⟩
    exact hn ⟨by rw [← hc1]; exact a, hc2.1 b⟩

end JacobiIndexTape

namespace JacobiIndexTape

open ChunkVector

/-- C18 (failing input): on a new active tape (option checks enabled, counter index
manager) the copy `store(lhsValue, lhsIndex = 0, rhs)` with `rhs` of value 5 and index 3
appends the statement record `(1, 1)` and the jacobi record `(1, 3)` to the empty vectors,
and the index of the left hand side becomes the new index 1, not the index 3 of `rhs`; the
value of the left hand side becomes 5. -/
theorem store_copy_records :
    (demoTape.stmtVector.flat, demoTape.jacobiVector.flat) = ([], [])
    ∧ (store demoOptions demoTape 0 0 ⟨5, 3⟩).map
        (fun r => (r.1.stmtVector.flat, r.1.jacobiVector.flat, r.2.1, r.2.2))
      = some ([(1, 1)], [(1, 3)], 5, 1) := by
  decide

end JacobiIndexTape

/-! ## The chain rule on a recorded tape -/

section ChainRule

open ChunkVector

theorem records_eq_flat {D N NP : Type} (v : ChunkVector D N NP) (hv : v.WF)
    (h0 : v.curChunkIndex = 0) : (derefChunk v.chunks 0).records = v.flat := by
  unfold flat
  rw [live_eq v hv.cur_lt, h0]
  simp

theorem getDataArrayAtPosition_flat {D N NP : Type} [Inhabited D] (v : ChunkVector D N NP)
    (hv : v.WF) (h0 : v.curChunkIndex = 0) :
    ∃ data, v.getDataArrayAtPosition 0 0 = some data
      ∧ ∀ i, i < v.flat.length → data i = v.flat.getD i default := by
  have hlt : 0 < v.chunks.length := by have := hv.cur_lt; omega
  refine ⟨_, by unfold getDataArrayAtPosition; rw [if_pos hlt], ?_⟩
  intro i hi
  have hr := records_eq_flat v hv h0
  unfold Chunk.records at hr
  have hlen : i < (derefChunk v.chunks 0).usedSize := by
    rw [← hr] at hi
    simp at hi
    exact hi.1
  show (derefChunk v.chunks 0).data.getD (0 + i) default = v.flat.getD i default
  rw [List.getD_eq_getElem?_getD, List.getD_eq_getElem?_getD, ← hr,
    List.getElem?_take_of_lt hlen, Nat.zero_add]

theorem recordStatement_result {R : Type} [Inhabited R] (jv : JacobiVector R)
    (args : List (R × Nat)) (lhsIndex : Nat) (hj : jv.WF) (hs : jv.nested.WF)
    (h1 : 1 ≤ jv.nested.chunkSize) (hk : args.length ≤ jv.chunkSize) :
    ∃ w : JacobiVector R, recordStatement jv args lhsIndex = some w
      ∧ w.WF ∧ w.nested.WF
      ∧ w.chunkSize = jv.chunkSize ∧ w.nested.chunkSize = jv.nested.chunkSize
      ∧ w.flat = jv.flat ++ args
      ∧ w.nested.flat = jv.nested.flat ++ [(args.length, lhsIndex)]
      ∧ w.curChunkIndex
          = (if jv.chunkSize < jv.getChunkPosition + args.length then jv.curChunkIndex + 1
             else jv.curChunkIndex)
      ∧ w.getChunkPosition
          = (if jv.chunkSize < jv.getChunkPosition + args.length then 0
             else jv.getChunkPosition) + args.length
      ∧ w.nested.curChunkIndex
          = (if jv.nested.chunkSize < jv.nested.getChunkPosition + 1
             then jv.nested.curChunkIndex + 1 else jv.nested.curChunkIndex)
      ∧ w.nested.getChunkPosition
          = (if jv.nested.chunkSize < jv.nested.getChunkPosition + 1 then 0
             else jv.nested.getChunkPosition) + 1 := by
  obtain ⟨sv1, jv2, e1, e2, e3, c3, c4⟩ := recordStatement_spec jv args lhsIndex hj hs h1 hk
  have b3 : (jv.useNested sv1).recordBatch args.length args
      = some (args.foldl setDataAndMove jv2) := by
    unfold recordBatch; rw [e2]
  have b4 : jv.nested.recordBatch 1 [(args.length, lhsIndex)]
      = some (sv1.setDataAndMove (args.length, lhsIndex)) := by
    unfold recordBatch; rw [e1]; rfl
  have p3 := recordBatch_getPosition (jv.useNested sv1) _ (useNested_wf jv sv1 hj).toInv
    args.length args hk b3
  have p4 := recordBatch_getPosition jv.nested _ hs.toInv 1 [(args.length, lhsIndex)] h1 b4
  refine ⟨_, e3, useNested_wf _ _ c3.wf, c4.wf, c3.chunkSize_eq, c4.chunkSize_eq, c3.flat_eq,
    c4.flat_eq, ?_, ?_, ?_, ?_⟩
  · exact congrArg Position.chunk p3
  · exact congrArg Position.data p3
  · exact congrArg Position.chunk p4
  · exact congrArg Position.data p4

/-- C15: chain rule round trip.  On a new jacobi vector over a new statement vector (chunk
size at least 2) the statements `y = 2x` (statement record `(1, idx_y)`, coefficient record
`(2, idx_x)`) and `z = 3y` (statement record `(1, idx_z)`, coefficient record `(3, idx_y)`)
are recorded, with `idx_x` distinct from `idx_y` and from `idx_z`.  Starting from the adjoints that are 1 at
`idx_z` and 0 elsewhere, `evaluateStmt` over the full statement range, with the coefficient
cursor starting at 2 and the arrays of the jacobi chunk, returns the cursor 0 and adjoints
with `adjoint[idx_x] = 6` and `adjoint[idx_y] = adjoint[idx_z] = 0`. -/
theorem chain_rule {R : Type} [CommSemiring R] [DecidableEq R] [Inhabited R] (c : Nat)
    (hc : 2 ≤ c) (x y z : Nat) (hxy : x ≠ y) (hxz : x ≠ z) :
    ∃ (jv1 jv2 : JacobiVector R) (data : Nat → R × Nat) (A : Nat → R),
      recordStatement (ChunkVector.new c (ChunkVector.new c ({} : EmptyChunkVector)))
          [(2, x)] y = some jv1
      ∧ recordStatement jv1 [(3, y)] z = some jv2
      ∧ jv2.nested.flat = [(1, y), (1, z)]
      ∧ jv2.flat = [(2, x), (3, y)]
      ∧ jv2.getPosition = ⟨0, 2, ⟨0, 2, {}⟩⟩
      ∧ jv2.getDataArrayAtPosition 0 0 = some data
      ∧ evaluateStmt jv2.nested (fun j => if j = z then 1 else 0) jv2.nested.getPosition
          (Position.zero {}) 2 (fun i => (data i).1) (fun i => (data i).2) = some (A, 0)
      ∧ A x = 6 ∧ A y = 0 ∧ A z = 0 := by
  have hj0 : (ChunkVector.new c (ChunkVector.new c ({} : EmptyChunkVector))
      : JacobiVector R).WF := new_wf _ _
  have hs0 : (ChunkVector.new c ({} : EmptyChunkVector) : StatementVector).WF := new_wf _ _
  obtain ⟨jv1, e1, wj1, ws1, cj1, cs1, fj1, fs1, ij1, dj1, is1, ds1⟩ :=
    recordStatement_result (ChunkVector.new c (ChunkVector.new c ({} : EmptyChunkVector))
      : JacobiVector R) [(2, x)] y hj0 hs0 (by show 1 ≤ c; omega) (by show 1 ≤ c; omega)
  have hcj1 : jv1.chunkSize = c := cj1
  have hcs1 : jv1.nested.chunkSize = c := cs1
  have hjpos0 : (ChunkVector.new c (ChunkVector.new c ({} : EmptyChunkVector))
      : JacobiVector R).getChunkPosition = 0 := rfl
  have hspos0 : (ChunkVector.new c ({} : EmptyChunkVector)
      : StatementVector).getChunkPosition = 0 := rfl
  have hn0 : (ChunkVector.new c (ChunkVector.new c ({} : EmptyChunkVector))
      : JacobiVector R).nested = ChunkVector.new c ({} : EmptyChunkVector) := rfl
  rw [hn0] at is1 ds1 fs1
  rw [hjpos0] at ij1 dj1
  rw [hspos0] at is1 ds1
  have hcc : (ChunkVector.new c (ChunkVector.new c ({} : EmptyChunkVector))
      : JacobiVector R).chunkSize = c := rfl
  have hcc2 : (ChunkVector.new c ({} : EmptyChunkVector) : StatementVector).chunkSize = c := rfl
  rw [hcc, if_neg (by simp; omega)] at ij1 dj1
  rw [hcc2, if_neg (by omega)] at is1 ds1
  obtain ⟨jv2, e2, wj2, ws2, cj2, cs2, fj2, fs2, ij2, dj2, is2, ds2⟩ :=
    recordStatement_result jv1 [(3, y)] z wj1 ws1 (by rw [hcs1]; omega)
      (by rw [hcj1]; show 1 ≤ c; omega)
  rw [hcj1, dj1, if_neg (by simp; omega), ij1] at ij2
  rw [hcj1, dj1, if_neg (by simp; omega)] at dj2
  rw [hcs1, ds1, if_neg (by omega), is1] at is2
  rw [hcs1, ds1, if_neg (by omega)] at ds2
  rw [fj1, new_flat] at fj2
  rw [fs1, new_flat] at fs2
  have hi0 : (ChunkVector.new c (ChunkVector.new c ({} : EmptyChunkVector))
      : JacobiVector R).curChunkIndex = 0 := rfl
  have hi1 : (ChunkVector.new c ({} : EmptyChunkVector) : StatementVector).curChunkIndex = 0 :=
    rfl
  rw [hi0] at ij2
  rw [hi1] at is2
  simp only [List.nil_append, List.singleton_append, List.length_singleton, Nat.zero_add,
    List.cons_append] at fj2 fs2 dj2 ds2
  obtain ⟨data, hdata, hd⟩ := getDataArrayAtPosition_flat jv2 wj2 ij2
  obtain ⟨sdata, hsdata, hsd⟩ := getDataArrayAtPosition_flat jv2.nested ws2 is2
  rw [fj2] at hd
  rw [fs2] at hsd
  have d0 : data 0 = (2, x) := hd 0 (by simp)
  have d1 : data 1 = (3, y) := hd 1 (by simp)
  have s0 : sdata 0 = (1, y) := hsd 0 (by simp)
  have s1 : sdata 1 = (1, z) := hsd 1 (by simp)
  have hpos : jv2.nested.getPosition = ⟨0, 2, {}⟩ := by
    show (⟨jv2.nested.curChunkIndex, jv2.nested.getChunkPosition, _⟩ : StmtPosition) = _
    rw [is2, ds2]
  have hjpos : jv2.getPosition = ⟨0, 2, ⟨0, 2, {}⟩⟩ := by
    show (⟨jv2.curChunkIndex, jv2.getChunkPosition, jv2.nested.getPosition⟩ : JacobiPosition) = _
    rw [ij2, dj2, hpos]
  have hev : evaluateStmt jv2.nested (fun j => if j = z then (1 : R) else 0)
      jv2.nested.getPosition (Position.zero {}) 2 (fun i => (data i).1) (fun i => (data i).2)
      = some ((evalStmtCallback (fun j => if j = z then (1 : R) else 0) 2 0
          (fun i => (sdata i).1) (fun i => (sdata i).2) 2 (fun i => (data i).1)
          (fun i => (data i).2)).1,
          (evalStmtCallback (fun j => if j = z then (1 : R) else 0) 2 0
          (fun i => (sdata i).1) (fun i => (sdata i).2) 2 (fun i => (data i).1)
          (fun i => (data i).2)).2.2) := by
    rw [hpos]
    simp [evaluateStmt, evaluateStmtLoop, Position.zero, hsdata]
  have hcur := evalStmtCallback_cursor (fun j => if j = z then (1 : R) else 0) 2 0
    (fun i => (sdata i).1) (fun i => (sdata i).2) 2 (fun i => (data i).1)
    (fun i => (data i).2) (Nat.zero_le _)
  have hsum : ∑ i in Finset.Ico 0 2, (sdata i).1 = 2 := by
    simp [Finset.sum_range_succ, s0, s1]
  have hrec1 : coefficientRecords (fun i => (data i).1) (fun i => (data i).2) 1 1
      = [((2 : R), x)] := by
    simp [coefficientRecords, List.range_succ, d0]
  have hrec2 : coefficientRecords (fun i => (data i).1) (fun i => (data i).2) 2 1
      = [((3 : R), y)] := by
    simp [coefficientRecords, List.range_succ, d1]
  have hinner : ∀ (adj : R) (i : Nat),
      (incrementAdjoints adj (Function.update (fun j => if j = z then (1 : R) else 0) z 0) 1 2
        (fun i => (data i).1) (fun i => (data i).2)).1 i
        = adj * (if y = i then 3 else 0) := by
    intro adj i
    rw [incrementAdjoints_adjoints _ _ _ _ _ _ (by omega), hrec2, coefficientSum_singleton,
      Function.update_apply]
    by_cases hiz : i = z <;> simp [hiz]
  have hA : ∀ j, (evalStmtCallback (fun j => if j = z then (1 : R) else 0) 2 0
      (fun i => (sdata i).1) (fun i => (sdata i).2) 2 (fun i => (data i).1)
      (fun i => (data i).2)).1 j = if x = j then 6 else 0 := by
    intro j
    unfold evalStmtCallback
    have h20 : 2 - 0 = 1 + 1 := rfl
    rw [h20, evalStmtCallbackLoop_succ, evalStmtCallbackLoop_succ]
    simp only [evalStmtCallbackLoop, s0, s1, Nat.add_sub_cancel, Nat.sub_self]
    have h21 : 2 - 1 = 1 := rfl
    simp only [h21]
    rw [incrementAdjoints_adjoints _ _ _ _ _ _ (le_refl _), hrec1, coefficientSum_singleton,
      Function.update_apply]
    simp only [hinner]
    by_cases hxj : x = j
    · subst hxj
      simp [hxy, Ne.symm hxy]
      norm_num
    · by_cases hjy : j = y
      · subst hjy
        simp [hxj]
      · simp [hxj, hjy, Ne.symm hjy]
  refine ⟨jv1, jv2, data, (evalStmtCallback (fun j => if j = z then (1 : R) else 0) 2 0
    (fun i => (sdata i).1) (fun i => (sdata i).2) 2 (fun i => (data i).1)
    (fun i => (data i).2)).1, e1, e2, fs2, fj2, hjpos, hdata, ?_, ?_, ?_, ?_⟩
  · rw [hev, hcur.2.1, hsum]
  · rw [hA, if_pos rfl]
  · rw [hA, if_neg hxy]
  · rw [hA, if_neg hxz]

end ChainRule

/-! ## Concrete instances for the second group of statements -/

theorem getInnerPosition_tracked_witness :
    demoOuter.getInnerPosition 0 = some ⟨0, 0, {}⟩
    ∧ demoOuter.getInnerPosition 1 = some ⟨0, 1, {}⟩ := by
  have ht : ChunkVector.Tracked demoOuter _ :=
    ChunkVector.Tracked.nextChunk (D := Nat) (ChunkVector.Tracked.useNested (D := Nat)
      ((ChunkVector.new 4 ({} : EmptyChunkVector)).setDataAndMove (1, 7))
      (ChunkVector.Tracked.new (D := Nat) 2
        (ChunkVector.new 4 ({} : EmptyChunkVector) : StatementVector)))
  have h0 : 0 < demoOuter.chunks.length := by decide
  have h1 : 1 < demoOuter.chunks.length := by decide
  exact ⟨ChunkVector.getInnerPosition_tracked demoOuter _ ht 0 h0,
    ChunkVector.getInnerPosition_tracked demoOuter _ ht 1 h1⟩

theorem reset_only_truncates_witness :
    ∃ w, demoB.reset ⟨1, 1, {}⟩ = some w
      ∧ w.chunks.length = demoB.chunks.length
      ∧ w.positions = demoB.positions
      ∧ w.chunkSize = demoB.chunkSize
      ∧ w.chunks[0]? = demoB.chunks[0]?
      ∧ (derefChunk w.chunks 1).data = [4, 5, 6, 0] := by
  have h : demoB.reset ⟨1, 1, {}⟩
      = some { demoB with chunks := [⟨4, 3, [1, 2, 3, 0]⟩, ⟨4, 1, [4, 5, 6, 0]⟩] } := by decide
  obtain ⟨h1, h2, h3, h4, _, h6⟩ := ChunkVector.reset_only_truncates demoB _ ⟨1, 1, {}⟩ h
  exact ⟨_, h, h1, h2, h3, h4 0 (by decide), (h6 1).1⟩

theorem resize_chunks_witness :
    ∃ w, demoTwo.resize 10 = some w
      ∧ w.chunks.length = 3
      ∧ 10 ≤ w.chunks.length * w.chunkSize
      ∧ w.getPosition = demoTwo.getPosition
      ∧ w.getChunkUsedData 0 = demoTwo.getChunkUsedData 0 := by
  have hC : 0 < demoTwo.chunkSize := by decide
  obtain ⟨w, h1, h2, h3, _, h5, _, h7⟩ := ChunkVector.resize_chunks demoTwo 10 hC
  exact ⟨w, h1, h2, h3, h5, h7 0 (by decide)⟩

theorem chain_rule_witness :
    ∃ (jv1 jv2 : JacobiVector Int) (data : Nat → Int × Nat) (A : Nat → Int),
      recordStatement (ChunkVector.new 4 (ChunkVector.new 4 ({} : EmptyChunkVector)))
          [(2, 1)] 2 = some jv1
      ∧ recordStatement jv1 [(3, 2)] 3 = some jv2
      ∧ jv2.getDataArrayAtPosition 0 0 = some data
      ∧ evaluateStmt jv2.nested (fun j => if j = 3 then 1 else 0) jv2.nested.getPosition
          (Position.zero {}) 2 (fun i => (data i).1) (fun i => (data i).2) = some (A, 0)
      ∧ A 1 = 6 ∧ A 2 = 0 ∧ A 3 = 0 := by
  have hc : 2 ≤ 4 := by decide
  have h12 : (1 : Nat) ≠ 2 := by decide
  have h13 : (1 : Nat) ≠ 3 := by decide
  obtain ⟨jv1, jv2, data, A, e1, e2, _, _, _, hd, he, a1, a2, a3⟩ :=
    chain_rule (R := Int) 4 hc 1 2 3 h12 h13
  exact ⟨jv1, jv2, data, A, e1, e2, hd, he, a1, a2, a3⟩

theorem evalStmtCallback_statement_witness :
    (evalStmtCallback demoSeed 1 0 demoArgs demoLhs 1 demoJacobies demoIndices).2.1 = 0
    ∧ (evalStmtCallback demoSeed 1 0 demoArgs demoLhs 1 demoJacobies demoIndices).2.2 = 0
    ∧ (evalStmtCallback demoSeed 1 0 demoArgs demoLhs 1 demoJacobies demoIndices).1 2 = 5
    ∧ (evalStmtCallback demoSeed 1 0 demoArgs demoLhs 1 demoJacobies demoIndices).1 3 = 0 := by
  have hd : demoArgs 0 ≤ 1 := by decide
  obtain ⟨h1, h2, h3, _⟩ :=
    evalStmtCallback_statement demoSeed 0 1 demoArgs demoLhs demoJacobies demoIndices hd
  exact ⟨h1, h2, (h3 2).trans (by decide), (h3 3).trans (by decide)⟩

theorem evalStmtCallback_cursor_witness :
    (evalStmtCallback demoSeed 2 0 demoArgs demoLhs 5 demoJacobies demoIndices).2.1 = 0
    ∧ (evalStmtCallback demoSeed 2 0 demoArgs demoLhs 5 demoJacobies demoIndices).2.2 = 3 := by
  have h : 0 ≤ 2 := by decide
  obtain ⟨h1, h2, _, _⟩ :=
    evalStmtCallback_cursor demoSeed 2 0 demoArgs demoLhs 5 demoJacobies demoIndices h
  exact ⟨h1, h2.trans (by decide)⟩

theorem store_effect_witness :
    ∃ t1 : JacobiIndexTape Int CounterIndexHandler Unit,
      JacobiIndexTape.store demoOptions demoTape 0 0 ⟨5, 3⟩ = some (t1, 5, 1)
      ∧ t1.indexHandler = ⟨1⟩
      ∧ t1.jacobiVector.flat = [(1, 3)]
      ∧ t1.stmtVector.flat = [(1, 1)] := by
  have hj : demoTape.jacobiVector.WF := ChunkVector.new_wf _ _
  have hs : demoTape.stmtVector.WF := ChunkVector.new_wf _ _
  have hcs : 1 ≤ demoTape.stmtVector.chunkSize := by decide
  have hcj : 1 ≤ demoTape.jacobiVector.chunkSize := by decide
  have ha : demoTape.active = true ∧ (⟨5, 3⟩ : ActiveReal Int).getGradientData ≠ 0 := by decide
  obtain ⟨t1, _, _, e, hi, _, _, _, fj, fs, _⟩ :=
    (JacobiIndexTape.store_effect demoOptions demoTape 0 0 ⟨5, 3⟩ rfl rfl hj hs hcs hcj).1 ha
  exact ⟨t1, e, hi, fj, fs⟩

theorem recordStatement_spanning_witness :
    ∃ w : JacobiVector Int,
      recordStatement demoJacobi [(2, 1), (3, 2)] 5 = some w
      ∧ w.curChunkIndex = 1
      ∧ w.getChunkPosition = 2
      ∧ w.getDataAtPosition 1 0 = some (2, 1)
      ∧ w.getDataAtPosition 1 1 = some (3, 2)
      ∧ w.nested.flat = [(2, 5)]
      ∧ w.forEach w.getPosition demoJacobi.getPosition (fun l x => l ++ [x]) []
          = some [(3, 2), (2, 1)] := by
  have hj : demoJacobi.WF :=
    ChunkVector.setDataAndMove_wf _ _ (ChunkVector.new_wf _ _) (by decide)
  have hs : demoJacobi.nested.WF := ChunkVector.new_wf _ _
  have h1 : 1 ≤ demoJacobi.nested.chunkSize := by decide
  have hk : [((2 : Int), 1), (3, 2)].length ≤ demoJacobi.chunkSize := by decide
  have hfree : demoJacobi.chunkSize
      < demoJacobi.getChunkPosition + [((2 : Int), 1), (3, 2)].length := by decide
  obtain ⟨_, w, _, e, hc, hp, _, hg, _, _, _, hf, he⟩ :=
    recordStatement_spanning demoJacobi [(2, 1), (3, 2)] 5 hj hs h1 hk hfree
  have hg0 := hg 0 (by decide)
  have hg1 := hg 1 (by decide)
  rw [hc] at hg0 hg1
  exact ⟨w, e, hc, hp, hg0, hg1, hf, he _ (fun l x => l ++ [x]) []⟩

/-! ## The chunks behind the current chunk -/

namespace ChunkVector

section Tail

variable {D N NP : Type}

theorem derefChunk_updateChunk_used_zero (cs : List (Chunk D)) (p i : Nat)
    (g : Chunk D → Chunk D) (hg : ∀ c : Chunk D, c.usedSize = 0 → (g c).usedSize = 0)
    (h : (derefChunk cs i).usedSize = 0) :
    (derefChunk (updateChunk cs p g) i).usedSize = 0 := by
  by_cases hp : p = i
  · subst hp
    by_cases hl : p < cs.length
    · rw [derefChunk_updateChunk_same g hl]; exact hg _ h
    · unfold updateChunk
      rw [List.set_eq_of_length_le (by omega)]
      exact h
  · rw [derefChunk_updateChunk_ne g hp]; exact h

theorem derefChunk_reset_used (cs : List (Chunk D)) (p : Nat) :
    (derefChunk (updateChunk cs p Chunk.reset) p).usedSize = 0 := by
  by_cases hl : p < cs.length
  · rw [derefChunk_updateChunk_same _ hl]; rfl
  · unfold updateChunk
    rw [List.set_eq_of_length_le (by omega)]
    simp [derefChunk, List.getD, List.getElem?_eq_none (by omega : cs.length ≤ p)]

theorem derefChunk_resetLoop_used_zero (lo k : Nat) (cs : List (Chunk D)) (i : Nat)
    (h : (derefChunk cs i).usedSize = 0) :
    (derefChunk (resetLoop lo k cs) i).usedSize = 0 := by
  induction k generalizing cs with
  | zero => exact h
  | succ k ih =>
    simp only [resetLoop]
    exact ih _ (derefChunk_updateChunk_used_zero cs _ i Chunk.reset (fun _ _ => rfl) h)

theorem derefChunk_resetLoop_used (lo k : Nat) (cs : List (Chunk D)) (i : Nat)
    (h1 : lo < i) (h2 : i ≤ lo + k) :
    (derefChunk (resetLoop lo k cs) i).usedSize = 0 := by
  induction k generalizing cs with
  | zero => omega
  | succ k ih =>
    simp only [resetLoop]
    by_cases hi : i = lo + (k + 1)
    · subst hi
      exact derefChunk_resetLoop_used_zero lo k _ _ (derefChunk_reset_used cs _)
    · exact ih _ (by omega)

theorem derefChunk_map_resize_used [Inhabited D] (cs : List (Chunk D)) (size i : Nat) :
    (derefChunk (cs.map (fun c => c.resize size)) i).usedSize = (derefChunk cs i).usedSize := by
  unfold derefChunk
  rw [List.getD_eq_getElem?_getD, List.getD_eq_getElem?_getD, List.getElem?_map]
  cases cs[i]? <;> rfl

variable [Inhabited D] [NestedVector N NP]

theorem nextChunk_tailEmpty (v : ChunkVector D N NP) (ht : v.TailEmpty) :
    v.nextChunk.TailEmpty := by
  intro i hi
  unfold nextChunk at hi ⊢
  rw [updateChunk_id] at hi ⊢
  by_cases hl : v.chunks.length = v.curChunkIndex + 1
  · rw [if_pos hl] at hi ⊢
    dsimp only at hi ⊢
    simp [derefChunk, List.getD, List.getElem?_eq_none (show (v.chunks ++ [Chunk.new
      v.chunkSize]).length ≤ i by simp; omega)]
  · rw [if_neg hl] at hi ⊢
    dsimp only at hi ⊢
    rw [derefChunk_updateChunk_ne _ (by omega)]
    exact ht i (by omega)

omit [Inhabited D] in
theorem reset_tailEmpty (v w : ChunkVector D N NP) (pos : Position NP) (ht : v.TailEmpty)
    (h : v.reset pos = some w) : w.TailEmpty := by
  obtain ⟨_, _, nested, _, rfl⟩ := reset_spec v w pos h
  intro i hi
  dsimp only at hi ⊢
  rw [derefChunk_updateChunk_ne _ (by omega)]
  by_cases hc : i ≤ pos.chunk + (v.curChunkIndex - pos.chunk)
  · exact derefChunk_resetLoop_used _ _ _ _ hi hc
  · exact derefChunk_resetLoop_used_zero _ _ _ _ (ht i (by omega))

theorem Reachable.tailEmpty {v : ChunkVector D N NP} (h : Reachable v) : v.TailEmpty := by
  induction h with
  | new chunkSize nested =>
    intro i hi
    have hi0 : 0 < i := hi
    simp [ChunkVector.new, derefChunk, List.getD, List.getElem?_eq_none
      (show ([Chunk.new chunkSize] : List (Chunk D)).length ≤ i by simpa using hi0)]
  | setChunkSize chunkSize _ ih =>
    intro i hi
    show (derefChunk (List.map _ _) i).usedSize = 0
    rw [derefChunk_map_resize_used]
    exact ih i hi
  | @resize v w totalSize hr hw ih =>
    unfold ChunkVector.resize at hw
    split at hw
    · exact absurd hw (by simp)
    · simp only [Option.some.injEq] at hw
      subst hw
      intro i hi
      obtain ⟨a, _, c, _, _⟩ := resizeLoop_spec
        (totalSize / v.chunkSize + (if 0 ≠ totalSize % v.chunkSize then 1 else 0)
          - v.chunks.length) v
      rw [c] at hi
      rw [a, derefChunk_append_replicate_used]
      exact ih i hi
  | nextChunk hr ih => exact nextChunk_tailEmpty _ ih
  | @reserveItems v w items hr hw ih =>
    unfold ChunkVector.reserveItems at hw
    split at hw
    · exact absurd hw (by simp)
    · split at hw
      · simp only [Option.some.injEq] at hw
        subst hw
        exact nextChunk_tailEmpty _ ih
      · simp only [Option.some.injEq] at hw
        subst hw
        exact ih
  | @setDataAndMove v data hr ih =>
    intro i hi
    have hi1 : v.curChunkIndex < i := hi
    unfold ChunkVector.setDataAndMove
    dsimp only
    rw [derefChunk_updateChunk_ne _ (by rw [(Reachable.inv hr).cur_eq]; omega)]
    exact ih i hi1
  | reset pos _ hw ih => exact reset_tailEmpty _ _ pos ih hw
  | resetAll _ hw ih => exact reset_tailEmpty _ _ _ ih hw
  | useNested nested _ ih => exact ih

/-- C25: in every state reachable from the constructor by `setChunkSize`, `resize`,
`nextChunk`, `reserveItems`, `setDataAndMove`, accepted `reset(pos)` and `reset()` calls (and
changes of the nested vector by its owner) the current chunk index is smaller than the
number of allocated chunks, the pointer `curChunk` is the chunk stored at that index, and
every allocated chunk with a larger index has the used count 0. -/
theorem reachable_current_chunk (v : ChunkVector D N NP) (h : Reachable v) :
    v.curChunkIndex < v.chunks.length
    ∧ v.curChunk = v.curChunkIndex
    ∧ v.chunks[v.curChunkIndex]? = some (derefChunk v.chunks v.curChunk)
    ∧ ∀ i, v.curChunkIndex < i → i < v.chunks.length → v.getChunkUsedData i = some 0 := by
  have hv := Reachable.inv h
  refine ⟨hv.cur_lt, hv.cur_eq, ?_, ?_⟩
  · rw [hv.cur_eq, derefChunk_of_lt hv.cur_lt, List.getElem?_eq_getElem hv.cur_lt]
  · intro i hi hl
    unfold getChunkUsedData
    rw [if_pos hl]
    exact congrArg some (Reachable.tailEmpty h i hi)

end Tail

end ChunkVector

/-! ## Evaluation of a reversed range -/

/-- C21 (failing input): `demoStmt` is what recording six statements gives.  The range from
`start = (chunk 0, data 2)` to `end = (chunk 1, data 1)` is reversed (`start < end`).
`forEach` of the statement vector rejects it by its assertion, but `evaluateStmt` returns:
it evaluates the statement in slot 1 of chunk 1, so that the adjoint of index 6 goes from 1
to 0, the adjoint of index 2 from 0 to 5 and the coefficient cursor from 6 to 5.  In the
reversed range from `(chunk 1, data 0)` to `(chunk 1, data 2)` it also returns (with the
adjoints and the cursor as they were) instead of failing an assertion.  The components
of the results are the adjoints of the indices 6 and 2 and the cursor. -/
theorem evaluateStmt_reversed_range :
    (ChunkVector.new 4 ({} : EmptyChunkVector)).recordAll
        [[(1, 1)], [(1, 2)], [(1, 3)], [(1, 4)], [(1, 5)], [(1, 6)]] = some demoStmt
    ∧ Position.lt (⟨0, 2, {}⟩ : StmtPosition) ⟨1, 1, {}⟩
    ∧ demoStmt.forEach ⟨0, 2, {}⟩ ⟨1, 1, {}⟩ (fun (l : List (Nat × Nat)) r => r :: l) [] = none
    ∧ (evaluateStmt demoStmt demoSeedSix ⟨0, 2, {}⟩ ⟨1, 1, {}⟩ 6 demoJacobies demoIndices).map
        (fun r => (r.1 6, r.1 2, r.2)) = some (0, 5, 5)
    ∧ Position.lt (⟨1, 0, {}⟩ : StmtPosition) ⟨1, 2, {}⟩
    ∧ (evaluateStmt demoStmt demoSeedSix ⟨1, 0, {}⟩ ⟨1, 2, {}⟩ 6 demoJacobies demoIndices).map
        (fun r => (r.1 6, r.1 2, r.2)) = some (1, 0, 6) := by
  refine ⟨by decide, by decide, by decide, by decide, by decide, by decide⟩

/-! ## The reverse sweep over the statements is the reverse iteration -/

section Sweep

open ChunkVector

variable {R : Type} [Zero R] [Add R] [Mul R] [DecidableEq R]

theorem evalStmtCallbackLoop_fold (numberOfArguments lhsIndices : Nat → Nat)
    (jacobies : Nat → R) (indices : Nat → Nat) (stop k : Nat) (A : Nat → R) (d : Nat) :
    evalStmtCallbackLoop numberOfArguments lhsIndices jacobies indices k (A, stop + k, d)
      = ((List.foldl (evalStatement jacobies indices) (A, d)
            ((List.range k).map
              (fun i => (numberOfArguments (stop + i), lhsIndices (stop + i)))).reverse).1,
          stop,
          (List.foldl (evalStatement jacobies indices) (A, d)
            ((List.range k).map
              (fun i => (numberOfArguments (stop + i), lhsIndices (stop + i)))).reverse).2) := by
  induction k generalizing A d with
  | zero => simp [evalStmtCallbackLoop]
  | succ k ih =>
    have h1 : stop + (k + 1) - 1 = stop + k := by omega
    simp only [evalStmtCallbackLoop, h1]
    rw [ih]
    simp [List.range_succ, evalStatement]

theorem range_map_getD {α : Type} (l : List α) (d : α) (stop k : Nat)
    (h : stop + k ≤ l.length) :
    (List.range k).map (fun i => l.getD (stop + i) d) = (l.drop stop).take k := by
  apply List.ext_getElem?
  intro i
  by_cases hi : i < k
  · have hlt : stop + i < l.length := by omega
    rw [List.getElem?_map, List.getElem?_range hi, List.getElem?_take_of_lt hi,
      List.getElem?_drop, List.getElem?_eq_getElem hlt]
    simp [List.getD_eq_getElem?_getD, List.getElem?_eq_getElem hlt]
  · rw [List.getElem?_eq_none (by simp; omega), List.getElem?_eq_none (by simp; omega)]

theorem evalStmtCallback_chunk (sv : StatementVector) (c : Nat) (data : Nat → Nat × Nat)
    (hdata : sv.getDataArrayAtPosition c 0 = some data) (s : (Nat → R) × Nat)
    (start stop : Nat) (h1 : stop ≤ start) (h2 : start ≤ (derefChunk sv.chunks c).data.length)
    (jacobies : Nat → R) (indices : Nat → Nat) :
    evalStmtCallback s.1 start stop (fun i => (data i).1) (fun i => (data i).2) s.2 jacobies
        indices
      = ((List.foldl (evalStatement jacobies indices) s
            (((derefChunk sv.chunks c).data.take start).drop stop).reverse).1,
          stop,
          (List.foldl (evalStatement jacobies indices) s
            (((derefChunk sv.chunks c).data.take start).drop stop).reverse).2) := by
  unfold getDataArrayAtPosition at hdata
  split at hdata
  · simp only [Option.some.injEq] at hdata
    subst hdata
    unfold evalStmtCallback
    have hk : start = stop + (start - stop) := by omega
    have hl := range_map_getD (derefChunk sv.chunks c).data default stop (start - stop)
      (by omega)
    have e := evalStmtCallbackLoop_fold
      (fun i => ((derefChunk sv.chunks c).data.getD (0 + i) default).1)
      (fun i => ((derefChunk sv.chunks c).data.getD (0 + i) default).2)
      jacobies indices stop (start - stop) s.1 s.2
    rw [← hk] at e
    rw [e]
    have hl2 : (List.range (start - stop)).map (fun i =>
        (((derefChunk sv.chunks c).data.getD (0 + (stop + i)) default).1,
          ((derefChunk sv.chunks c).data.getD (0 + (stop + i)) default).2))
        = ((derefChunk sv.chunks c).data.take start).drop stop := by
      rw [List.drop_take, ← hl]
      apply List.map_congr_left
      intro i _
      rw [Nat.zero_add]
    rw [hl2]
  · exact absurd hdata (by simp)

theorem evalStmtCallback_skip (A : Nat → R) (start stop : Nat)
    (numberOfArguments lhsIndices : Nat → Nat) (d : Nat) (jacobies : Nat → R)
    (indices : Nat → Nat) (h : start ≤ stop) :
    evalStmtCallback A start stop numberOfArguments lhsIndices d jacobies indices
      = (A, start, d) := by
  unfold evalStmtCallback
  rw [Nat.sub_eq_zero_of_le h]
  rfl

omit [Zero R] [Add R] [Mul R] [DecidableEq R] in
theorem forEachLoop_from {D N NP σ : Type} (v : ChunkVector D N NP) (stopChunk : Nat)
    (f : σ → D → σ) (k dataStart : Nat) (s : σ)
    (hu : ∀ c ∈ v.chunks, c.usedSize ≤ c.data.length)
    (hk : stopChunk + (k + 1) < v.chunks.length)
    (hd : dataStart ≤ (derefChunk v.chunks (stopChunk + (k + 1))).data.length) :
    v.forEachLoop stopChunk f (k + 1) dataStart s
      = some ((derefChunk v.chunks stopChunk).usedSize,
          List.foldl f s
            (((derefChunk v.chunks (stopChunk + (k + 1))).data.take dataStart).reverse
              ++ (((v.chunks.take (stopChunk + k + 1)).drop (stopChunk + 1)).map
                    Chunk.records).flatten.reverse)) := by
  have e1 := forEachData_eq v (stopChunk + (k + 1)) dataStart 0 f s hk (Nat.zero_le _) hd
  simp only [forEachLoop, e1, Chunk.getUsedSize]
  rw [forEachLoop_eq v stopChunk f k _ hu (by omega), List.foldl_append]
  simp

theorem evaluateStmtLoop_eq (sv : StatementVector) (stopChunk : Nat) (jacobies : Nat → R)
    (indices : Nat → Nat) (k dataStart : Nat) (s : (Nat → R) × Nat)
    (hu : ∀ c ∈ sv.chunks, c.usedSize ≤ c.data.length)
    (hk : stopChunk + k < sv.chunks.length)
    (hd : k ≠ 0 → dataStart ≤ (derefChunk sv.chunks (stopChunk + k)).data.length) :
    evaluateStmtLoop sv stopChunk jacobies indices k dataStart s
      = sv.forEachLoop stopChunk (evalStatement jacobies indices) k dataStart s := by
  induction k generalizing dataStart s with
  | zero => rfl
  | succ k ih =>
    have hd1 := hd (Nat.succ_ne_zero k)
    have hdata : sv.getDataArrayAtPosition (stopChunk + (k + 1)) 0
        = some (fun i => (derefChunk sv.chunks (stopChunk + (k + 1))).data.getD (0 + i)
            default) := by
      unfold getDataArrayAtPosition; rw [if_pos hk]
    have e1 := forEachData_eq sv (stopChunk + (k + 1)) dataStart 0
      (evalStatement jacobies indices) s hk (Nat.zero_le _) hd1
    have e2 := evalStmtCallback_chunk sv (stopChunk + (k + 1)) _ hdata s dataStart 0
      (Nat.zero_le _) hd1 jacobies indices
    have hused : sv.getChunkUsedData (stopChunk + (k + 1) - 1)
        = some (derefChunk sv.chunks (stopChunk + k)).usedSize := by
      have h1 : stopChunk + (k + 1) - 1 = stopChunk + k := by omega
      unfold getChunkUsedData
      rw [h1, if_pos (by omega)]
      rfl
    have hm : derefChunk sv.chunks (stopChunk + k) ∈ sv.chunks :=
      derefChunk_mem (by omega)
    simp only [evaluateStmtLoop, forEachLoop, hdata, e1, e2, hused, Chunk.getUsedSize]
    exact ih _ _ (by omega) (fun _ => hu _ hm)

omit [Zero R] [Add R] [Mul R] [DecidableEq R] in
theorem forEach_visits {D N NP : Type} (v : ChunkVector D N NP) (start stop : Position NP)
    (hu : ∀ c ∈ v.chunks, c.usedSize ≤ c.data.length)
    (hge : Position.ge start stop) (hlt : start.chunk < v.chunks.length)
    (hin : start.data ≤ (derefChunk v.chunks start.chunk).data.length) :
    (start.chunk = stop.chunk ∨ stop.data ≤ (derefChunk v.chunks stop.chunk).usedSize →
        ∀ (σ : Type) (f : σ → D → σ) (s : σ),
          v.forEach start stop f s = some (List.foldl f s (v.visited start stop)))
    ∧ (stop.chunk < start.chunk → (derefChunk v.chunks stop.chunk).usedSize < stop.data →
        ∀ (σ : Type) (f : σ → D → σ) (s : σ),
          v.forEach start stop f s = none
          ∧ v.forEachLoop stop.chunk f (start.chunk - stop.chunk) start.data s
              = some ((derefChunk v.chunks stop.chunk).usedSize,
                  List.foldl f s (v.visited start stop))) := by
  have hsc : stop.chunk < v.chunks.length := by
    rcases hge with h | h <;> omega
  have hm := derefChunk_mem hsc
  have hge1 := hge
  rcases hge with hgt | ⟨heq, hdge⟩
  · obtain ⟨k, hk⟩ : ∃ k, start.chunk = stop.chunk + (k + 1) := ⟨start.chunk - stop.chunk - 1,
      by omega⟩
    have hsub : start.chunk - stop.chunk = k + 1 := by omega
    have hne : start.chunk ≠ stop.chunk := by omega
    have hin1 : start.data ≤ (derefChunk v.chunks (stop.chunk + (k + 1))).data.length := by
      rw [← hk]; exact hin
    have hloop := fun (σ : Type) (f : σ → D → σ) (s : σ) =>
      forEachLoop_from v stop.chunk f k start.data s hu (by omega) hin1
    have hmid : stop.chunk + k + 1 = start.chunk := by omega
    have hvis : ∀ (σ : Type) (f : σ → D → σ) (s : σ),
        List.foldl f s (v.visited start stop)
          = List.foldl f (List.foldl f s
              (((derefChunk v.chunks (stop.chunk + (k + 1))).data.take start.data).reverse
                ++ (((v.chunks.take (stop.chunk + k + 1)).drop (stop.chunk + 1)).map
                      Chunk.records).flatten.reverse))
              ((derefChunk v.chunks stop.chunk).records.drop stop.data).reverse := by
      intro σ f s
      unfold visited
      rw [if_neg hne, List.foldl_append, hmid, ← hk]
    refine ⟨?_, ?_⟩
    · intro hc σ f s
      have hc1 : stop.data ≤ (derefChunk v.chunks stop.chunk).usedSize := by
        rcases hc with h | h
        · exact absurd h hne
        · exact h
      unfold forEach
      rw [if_neg (not_not.2 hge1), if_neg (not_not.2 hlt), hsub, hloop]
      dsimp only
      rw [forEachData_eq v stop.chunk _ stop.data f _ hsc hc1 (hu _ hm), hvis]
      rfl
    · intro _ hc σ f s
      refine ⟨?_, ?_⟩
      · unfold forEach
        rw [if_neg (not_not.2 hge1), if_neg (not_not.2 hlt), hsub, hloop]
        dsimp only
        unfold forEachData
        rw [if_pos (by omega)]
      · have hnil : (derefChunk v.chunks stop.chunk).records.drop stop.data = [] := by
          apply List.drop_eq_nil_of_le
          unfold Chunk.records
          rw [List.length_take]
          omega
        rw [hsub, hloop, hvis, hnil]
        rfl
  · have hsub : start.chunk - stop.chunk = 0 := by omega
    have hin1 : start.data ≤ (derefChunk v.chunks stop.chunk).data.length := by
      rw [← heq]; exact hin
    have hvis : v.visited start stop
        = (((derefChunk v.chunks stop.chunk).data.take start.data).drop stop.data).reverse := by
      unfold visited; rw [if_pos heq]
    refine ⟨?_, ?_⟩
    · intro _ σ f s
      unfold forEach
      rw [if_neg (not_not.2 hge1), if_neg (not_not.2 hlt), hsub]
      simp only [forEachLoop]
      rw [forEachData_eq v stop.chunk _ stop.data f _ hsc hdge hin1, hvis]
    · intro h
      omega

theorem evaluateStmt_fold (sv : StatementVector) (A : Nat → R) (start stop : StmtPosition)
    (dataPos : Nat) (jacobies : Nat → R) (indices : Nat → Nat)
    (hu : ∀ c ∈ sv.chunks, c.usedSize ≤ c.data.length)
    (hge : Position.ge start stop) (hlt : start.chunk < sv.chunks.length)
    (hin : start.data ≤ (derefChunk sv.chunks start.chunk).data.length) :
    evaluateStmt sv A start stop dataPos jacobies indices
        = some (List.foldl (evalStatement jacobies indices) (A, dataPos)
            (sv.visited start stop)) := by
  have hsc : stop.chunk < sv.chunks.length := by
    rcases hge with h | h <;> omega
  have hm := derefChunk_mem hsc
  have hdata : sv.getDataArrayAtPosition stop.chunk 0
      = some (fun i => (derefChunk sv.chunks stop.chunk).data.getD (0 + i) default) := by
    unfold getDataArrayAtPosition; rw [if_pos hsc]
  rcases hge with hgt | ⟨heq, hdge⟩
  · obtain ⟨k, hk⟩ : ∃ k, start.chunk = stop.chunk + (k + 1) := ⟨start.chunk - stop.chunk - 1,
      by omega⟩
    have hsub : start.chunk - stop.chunk = k + 1 := by omega
    have hne : start.chunk ≠ stop.chunk := by omega
    have hin1 : start.data ≤ (derefChunk sv.chunks (stop.chunk + (k + 1))).data.length := by
      rw [← hk]; exact hin
    have hloop := forEachLoop_from sv stop.chunk (evalStatement jacobies indices) k start.data
      (A, dataPos) hu (by omega) hin1
    have hmid : stop.chunk + k + 1 = start.chunk := by omega
    have hvis : List.foldl (evalStatement jacobies indices) (A, dataPos) (sv.visited start stop)
          = List.foldl (evalStatement jacobies indices)
              (List.foldl (evalStatement jacobies indices) (A, dataPos)
              (((derefChunk sv.chunks (stop.chunk + (k + 1))).data.take start.data).reverse
                ++ (((sv.chunks.take (stop.chunk + k + 1)).drop (stop.chunk + 1)).map
                      Chunk.records).flatten.reverse))
              ((derefChunk sv.chunks stop.chunk).records.drop stop.data).reverse := by
      unfold visited
      rw [if_neg hne, List.foldl_append, hmid, ← hk]
    have hev := evaluateStmtLoop_eq sv stop.chunk jacobies indices (k + 1) start.data
      (A, dataPos) hu (by omega) (fun _ => hin1)
    unfold evaluateStmt
    rw [hsub, hev, hloop]
    simp only [hdata]
    rw [hvis]
    by_cases hc : stop.data ≤ (derefChunk sv.chunks stop.chunk).usedSize
    · rw [evalStmtCallback_chunk sv stop.chunk _ hdata _ _ _ hc (hu _ hm)]
      rfl
    · rw [evalStmtCallback_skip _ _ _ _ _ _ _ _ (by omega)]
      have hnil : (derefChunk sv.chunks stop.chunk).records.drop stop.data = [] := by
        apply List.drop_eq_nil_of_le
        unfold Chunk.records
        rw [List.length_take]
        omega
      rw [hnil]
      rfl
  · have hsub : start.chunk - stop.chunk = 0 := by omega
    have hin1 : start.data ≤ (derefChunk sv.chunks stop.chunk).data.length := by
      rw [← heq]; exact hin
    have hvis : sv.visited start stop
        = (((derefChunk sv.chunks stop.chunk).data.take start.data).drop stop.data).reverse := by
      unfold visited; rw [if_pos heq]
    unfold evaluateStmt
    rw [hsub]
    simp only [evaluateStmtLoop, hdata]
    have e := evalStmtCallback_chunk sv stop.chunk _ hdata (A, dataPos) start.data stop.data
      hdge hin1 jacobies indices
    dsimp only at e
    rw [e, hvis]

/-- C24: `evaluateStmt` is the reverse iteration of the statement vector with the statement
step as function object.  For every statement vector whose used counts lie within the chunk
storage and all positions `start ≥ end` with `start.chunk` allocated and `start.data` within
the storage, `evaluateStmt(start, end, …)` returns and has processed exactly the records of
the range, newest first, resuming each preceding chunk at its used count; `forEach(start,
end, f)` visits the same records in the same order for every function object `f`.  When the
two chunks differ and `end.data` exceeds the used count of the chunk of `end`, the last
assertion of `forEach` fails after these records were visited by its loop over the chunks. -/
theorem evaluateStmt_visits (sv : StatementVector) (A : Nat → R) (start stop : StmtPosition)
    (dataPos : Nat) (jacobies : Nat → R) (indices : Nat → Nat)
    (hu : ∀ c ∈ sv.chunks, c.usedSize ≤ c.data.length)
    (hge : Position.ge start stop) (hlt : start.chunk < sv.chunks.length)
    (hin : start.data ≤ (derefChunk sv.chunks start.chunk).data.length) :
    evaluateStmt sv A start stop dataPos jacobies indices
        = some (List.foldl (evalStatement jacobies indices) (A, dataPos)
            (sv.visited start stop))
    ∧ (start.chunk = stop.chunk ∨ stop.data ≤ (derefChunk sv.chunks stop.chunk).usedSize →
        ∀ (σ : Type) (f : σ → Nat × Nat → σ) (s : σ),
          sv.forEach start stop f s = some (List.foldl f s (sv.visited start stop)))
    ∧ (stop.chunk < start.chunk → (derefChunk sv.chunks stop.chunk).usedSize < stop.data →
        ∀ (σ : Type) (f : σ → Nat × Nat → σ) (s : σ),
          sv.forEach start stop f s = none
          ∧ sv.forEachLoop stop.chunk f (start.chunk - stop.chunk) start.data s
              = some ((derefChunk sv.chunks stop.chunk).usedSize,
                  List.foldl f s (sv.visited start stop))) :=
  ⟨evaluateStmt_fold sv A start stop dataPos jacobies indices hu hge hlt hin,
    (forEach_visits sv start stop hu hge hlt hin).1,
    (forEach_visits sv start stop hu hge hlt hin).2⟩

end Sweep

/-! ## The records between two positions -/

namespace ChunkVector

section Between

variable {D N NP : Type}

theorem live_getD (v : ChunkVector D N NP) (i : Nat) (hi : i ≤ v.curChunkIndex)
    (hc : v.curChunkIndex < v.chunks.length) :
    v.live.getD i [] = (derefChunk v.chunks i).records := by
  unfold live
  rw [List.getD_eq_getElem?_getD, List.getElem?_map, List.getElem?_take_of_lt (by omega),
    List.getElem?_eq_getElem (by omega), derefChunk_of_lt (by omega)]
  rfl

theorem live_take (v : ChunkVector D N NP) (i : Nat) (hi : i ≤ v.curChunkIndex + 1) :
    v.live.take i = (v.chunks.take i).map Chunk.records := by
  unfold live
  rw [← List.map_take, List.take_take, Nat.min_eq_left hi]

theorem live_take_succ (v : ChunkVector D N NP) (i : Nat) (hi : i ≤ v.curChunkIndex)
    (hc : v.curChunkIndex < v.chunks.length) :
    v.live.take (i + 1) = v.live.take i ++ [(derefChunk v.chunks i).records] := by
  have hl : v.live[i]? = some (derefChunk v.chunks i).records := by
    unfold live
    rw [List.getElem?_map, List.getElem?_take_of_lt (by omega),
      List.getElem?_eq_getElem (by omega), derefChunk_of_lt (by omega)]
    rfl
  rw [List.take_succ, hl]
  rfl

theorem recordsBefore_visited (v : ChunkVector D N NP) (hv : v.WF) (a b : Position NP)
    (ha : v.Covers a.chunk a.data) (hb : v.Covers b.chunk b.data) (hge : Position.ge b a) :
    recordsBefore v.live b.chunk b.data
      = recordsBefore v.live a.chunk a.data ++ (v.visited b a).reverse := by
  have hcur := hv.cur_lt
  have htb : (derefChunk v.chunks b.chunk).records.take b.data
      = (derefChunk v.chunks b.chunk).data.take b.data := by
    unfold Chunk.records; rw [List.take_take, Nat.min_eq_left hb.2]
  have hta : (derefChunk v.chunks a.chunk).records.take a.data
      = (derefChunk v.chunks a.chunk).data.take a.data := by
    unfold Chunk.records; rw [List.take_take, Nat.min_eq_left ha.2]
  unfold recordsBefore visited
  rw [live_getD v _ hb.1 hcur, live_getD v _ ha.1 hcur, htb]
  rcases hge with hgt | ⟨heq, hd⟩
  · rw [if_neg (by omega)]
    have hsplit : v.live.take b.chunk
        = v.live.take a.chunk ++ [(derefChunk v.chunks a.chunk).records]
          ++ ((v.chunks.take b.chunk).drop (a.chunk + 1)).map Chunk.records := by
      have h1 : v.live.take b.chunk
          = (v.live.take b.chunk).take (a.chunk + 1) ++ (v.live.take b.chunk).drop (a.chunk + 1) :=
        (List.take_append_drop _ _).symm
      rw [List.take_take, Nat.min_eq_left (by omega), live_take_succ v _ ha.1 hcur] at h1
      rw [h1, live_take v b.chunk (by have := hb.1; omega), List.map_drop]
    rw [hsplit]
    simp only [List.reverse_append, List.reverse_reverse, List.flatten_append,
      List.append_assoc, List.flatten_cons, List.flatten_nil, List.append_nil]
    rw [← List.append_assoc ((derefChunk v.chunks a.chunk).records.take a.data),
      List.take_append_drop]
  · rw [if_pos heq, List.reverse_reverse, heq, List.append_assoc]
    congr 1
    have h2 : (derefChunk v.chunks a.chunk).data.take a.data
        = ((derefChunk v.chunks a.chunk).data.take b.data).take a.data := by
      rw [List.take_take, Nat.min_eq_left hd]
    rw [hta, h2, List.take_append_drop]

end Between

end ChunkVector

/-! ## Alignment of the jacobi chunks with the statements -/

section Order

variable {NP : Type}

theorem Position.ge_refl (p : Position NP) : Position.ge p p :=
  Or.inr ⟨rfl, le_refl _⟩

theorem Position.ge_trans {p q r : Position NP} (h1 : Position.ge r q) (h2 : Position.ge q p) :
    Position.ge r p := by
  unfold Position.ge at *
  omega

theorem Position.ge_of_lt {p q : Position NP} (h : Position.lt p q) : Position.ge q p := by
  unfold Position.ge
  unfold Position.lt at h
  omega

end Order

namespace ChunkVector

section Reserve

variable {D N NP : Type} [Inhabited D] [NestedVector N NP]

theorem reserveItems_facts (v : ChunkVector D N NP) (hv : v.WF) (n : Nat)
    (hn : n ≤ v.chunkSize) :
    ∃ w, v.reserveItems n = some w ∧ Continues v w []
      ∧ (derefChunk w.chunks w.curChunk).usedSize + n ≤ w.chunkSize
      ∧ Position.ge w.getPosition v.getPosition := by
  obtain ⟨w, e, c⟩ := continues_recordBatch v hv n [] (Nat.zero_le _) hn
  have hp := recordBatch_getPosition v w hv.toInv n [] hn e
  unfold recordBatch at e
  cases hr : v.reserveItems n with
  | none => rw [hr] at e; exact absurd e (by simp)
  | some w1 =>
    rw [hr] at e
    simp only [List.foldl_nil, Option.some.injEq] at e
    subst e
    refine ⟨w1, rfl, c, ?_, ?_⟩
    · have hd := congrArg Position.data hp
      have hd1 : (derefChunk w1.chunks w1.curChunk).usedSize
          = (if v.chunkSize < (derefChunk v.chunks v.curChunk).usedSize + n then 0
             else (derefChunk v.chunks v.curChunk).usedSize) + 0 := hd
      rw [hd1, c.chunkSize_eq]
      split <;> omega
    · have hd := congrArg Position.data hp
      have hc := congrArg Position.chunk hp
      have hd1 : w1.getPosition.data
          = (if v.chunkSize < v.getPosition.data + n then 0 else v.getPosition.data) + 0 := hd
      have hc1 : w1.getPosition.chunk
          = if v.chunkSize < v.getPosition.data + n then v.getPosition.chunk + 1
            else v.getPosition.chunk := hc
      unfold Position.ge
      rw [hd1, hc1]
      split <;> omega

omit [Inhabited D] [NestedVector N NP] in
theorem usedBefore_succ (v : ChunkVector D N NP) (hv : v.WF) (i : Nat)
    (hi : i ≤ v.curChunkIndex) :
    v.usedBefore (i + 1) = v.usedBefore i + (derefChunk v.chunks i).usedSize := by
  have hm := derefChunk_mem (show i < v.chunks.length by have := hv.cur_lt; omega)
  unfold usedBefore recordsBefore
  rw [live_take_succ v i hi hv.cur_lt]
  simp only [List.take_zero, List.append_nil, List.flatten_append, List.flatten_cons,
    List.flatten_nil, List.length_append]
  rw [records_length _ (by rw [hv.slots _ hm]; exact hv.used_le _ hm)]

omit [Inhabited D] [NestedVector N NP] in
theorem flat_length (v : ChunkVector D N NP) (hv : v.WF) :
    v.flat.length = v.usedBefore v.curChunkIndex
      + (derefChunk v.chunks v.curChunkIndex).usedSize := by
  rw [← usedBefore_succ v hv _ (le_refl _)]
  unfold usedBefore recordsBefore flat
  have hl := live_length v hv.cur_lt
  rw [List.take_of_length_le (by omega)]
  simp

end Reserve

end ChunkVector

theorem foldl_add_fst {α : Type} (l : List (Nat × α)) (n : Nat) :
    List.foldl (fun (m : Nat) (r : Nat × α) => m + r.1) n l = n + (l.map Prod.fst).sum := by
  induction l generalizing n with
  | nil => simp
  | cons x xs ih => simp [ih, Nat.add_assoc]


namespace ChunkVector

theorem continues_ge {D N NP : Type} [NestedVector N NP] (v w : ChunkVector D N NP)
    (rs : List D) (hv : v.WF) (h : Continues v w rs) :
    Position.ge w.getPosition v.getPosition := by
  obtain ⟨hc, _⟩ := h.covers _ _ (covers_getPosition v hv.toInv)
  obtain ⟨h1, h2⟩ := hc
  unfold Position.ge getPosition Chunk.getUsedSize
  dsimp only
  rcases Nat.lt_or_eq_of_le h1 with hlt | heq
  · left; exact hlt
  · right
    refine ⟨heq.symm, ?_⟩
    rw [h.wf.cur_eq, ← heq]
    exact h2

end ChunkVector

section Alignment

open ChunkVector

variable {R : Type} [Inhabited R]

theorem recordStatement_some (jv w : JacobiVector R) (args : List (R × Nat)) (lhsIndex : Nat)
    (h : recordStatement jv args lhsIndex = some w) :
    1 ≤ jv.nested.chunkSize ∧ args.length ≤ jv.chunkSize := by
  unfold recordStatement at h
  cases h1 : jv.nested.reserveItems 1 with
  | none => rw [h1] at h; exact absurd h (by simp)
  | some sv1 =>
    rw [h1] at h
    dsimp only at h
    cases h2 : (jv.useNested sv1).reserveItems args.length with
    | none => rw [h2] at h; exact absurd h (by simp)
    | some jv2 =>
      constructor
      · by_contra hc
        unfold reserveItems at h1
        rw [if_pos hc] at h1
        exact absurd h1 (by simp)
      · by_contra hc
        unfold reserveItems at h2
        rw [if_pos (show ¬ args.length ≤ (jv.useNested sv1).chunkSize from hc)] at h2
        exact absurd h2 (by simp)

theorem aligned_new (cj cs : Nat) :
    Aligned (ChunkVector.new cj (ChunkVector.new cs ({} : EmptyChunkVector)) : JacobiVector R) := by
  refine ⟨new_wf _ _, new_wf _ _, ?_, ?_, ?_⟩
  · rw [new_flat]
    show ((ChunkVector.new cs ({} : EmptyChunkVector) : StatementVector).flat.map Prod.fst).sum = 0
    rw [new_flat]
    rfl
  · intro i hi
    have hi0 : i = 0 := Nat.le_zero.1 hi
    subst hi0
    refine ⟨⟨0, 0, {}⟩, rfl, ⟨le_refl _, Nat.zero_le _⟩, ?_, Position.ge_refl _⟩
    simp [argsBefore, usedBefore, recordsBefore]
  · intro i hi
    exact absurd hi (Nat.not_lt_zero _)

theorem aligned_recordStatement (jv w : JacobiVector R) (args : List (R × Nat))
    (lhsIndex : Nat) (h : Aligned jv) (hw : recordStatement jv args lhsIndex = some w) :
    Aligned w := by
  obtain ⟨h1, hk⟩ := recordStatement_some jv w args lhsIndex hw
  obtain ⟨sv1, jv2, e1, e2, e3, c3, c4⟩ :=
    recordStatement_spec jv args lhsIndex h.wf h.wfs h1 hk
  rw [e3] at hw
  have hw1 := (Option.some.inj hw).symm
  subst hw1
  obtain ⟨sv0, e0, cs1, hroom, hge1⟩ := reserveItems_facts jv.nested h.wfs 1 h1
  rw [e1] at e0
  have e00 := Option.some.inj e0
  subst e00
  have hcs1 : sv1.chunkSize = jv.nested.chunkSize := cs1.chunkSize_eq
  have cN : Continues sv1 (sv1.setDataAndMove (args.length, lhsIndex))
      [(args.length, lhsIndex)] :=
    continues_setDataAndMove sv1 _ cs1.wf (by omega)
  have hv1 : (jv.useNested sv1).WF := useNested_wf jv sv1 h.wf
  obtain ⟨_, fcur, _, _, fpos, _⟩ := foldl_setDataAndMove_fields args jv2
  have e2a := reserveItems_eq (jv.useNested sv1) args.length hk
  rw [e2] at e2a
  have e2b := Option.some.inj e2a
  -- the statement side
  have hcovS : ∀ a : StmtPosition, jv.nested.Covers a.chunk a.data →
      (sv1.setDataAndMove (args.length, lhsIndex)).Covers a.chunk a.data
      ∧ argsBefore (sv1.setDataAndMove (args.length, lhsIndex)) a = argsBefore jv.nested a := by
    intro a ha
    obtain ⟨x, y⟩ := c4.covers _ _ ha
    exact ⟨x, by unfold argsBefore; rw [y]⟩
  have hgeS : ∀ a : StmtPosition, Position.ge jv.nested.getPosition a →
      Position.ge (sv1.setDataAndMove (args.length, lhsIndex)).getPosition a :=
    fun a ha => Position.ge_trans (continues_ge _ _ _ h.wfs c4) ha
  have hub : ∀ i, i ≤ jv.curChunkIndex →
      (args.foldl setDataAndMove jv2).usedBefore i = jv.usedBefore i := by
    intro i hi
    have := (c3.covers i 0 ⟨hi, Nat.zero_le _⟩).2
    unfold usedBefore
    rw [this]
    rfl
  have hold : ∀ i, i ≤ jv.curChunkIndex → jv2.positions[i]? = jv.positions[i]? →
      ∃ a : StmtPosition, (args.foldl setDataAndMove jv2).positions[i]? = some a
        ∧ (sv1.setDataAndMove (args.length, lhsIndex)).Covers a.chunk a.data
        ∧ argsBefore (sv1.setDataAndMove (args.length, lhsIndex)) a
            = (args.foldl setDataAndMove jv2).usedBefore i
        ∧ Position.ge (sv1.setDataAndMove (args.length, lhsIndex)).getPosition a := by
    intro i hi hp
    obtain ⟨a, p1, p2, p3, p4⟩ := h.stored i hi
    refine ⟨a, by rw [fpos, hp, p1], (hcovS a p2).1, ?_, hgeS a p4⟩
    rw [(hcovS a p2).2, p3, hub i hi]
  have htotal : (((sv1.setDataAndMove (args.length, lhsIndex)).flat).map Prod.fst).sum
      = (args.foldl setDataAndMove jv2).flat.length := by
    rw [c4.flat_eq, c3.flat_eq]
    have ht := h.total
    have hf : (jv.useNested sv1).flat = jv.flat := rfl
    rw [hf]
    simp [ht]
  by_cases hm : (jv.useNested sv1).chunkSize
      < (derefChunk (jv.useNested sv1).chunks (jv.useNested sv1).curChunk).usedSize + args.length
  · rw [if_pos hm] at e2b
    subst e2b
    have hni := nextChunk_inv (jv.useNested sv1) hv1.toInv
    have hnc : (jv.useNested sv1).nextChunk.curChunkIndex = jv.curChunkIndex + 1 :=
      nextChunk_curChunkIndex _
    have hlen : jv.curChunkIndex + 1 < (jv.useNested sv1).nextChunk.chunks.length := by
      have := hni.cur_lt; rw [hnc] at this; exact this
    have hpo : ∀ i, i ≤ jv.curChunkIndex →
        (jv.useNested sv1).nextChunk.positions[i]? = jv.positions[i]? := by
      intro i hi
      rw [nextChunk_positions_getElem? _ hv1.toInv i (by omega),
        Function.update_noteq (by show i ≠ jv.curChunkIndex + 1; omega)]
      rfl
    have hpn : (jv.useNested sv1).nextChunk.positions[jv.curChunkIndex + 1]?
        = some sv1.getPosition := by
      rw [nextChunk_positions_getElem? _ hv1.toInv _ hlen]
      show Function.update _ (jv.curChunkIndex + 1) _ (jv.curChunkIndex + 1) = _
      rw [Function.update_same]
      rfl
    have hfc : (args.foldl setDataAndMove (jv.useNested sv1).nextChunk).curChunkIndex
        = jv.curChunkIndex + 1 := by rw [fcur, hnc]
    have hnew : argsBefore (sv1.setDataAndMove (args.length, lhsIndex)) sv1.getPosition
        = (args.foldl setDataAndMove (jv.useNested sv1).nextChunk).usedBefore
            (jv.curChunkIndex + 1) := by
      obtain ⟨_, y⟩ := cN.covers _ _ (covers_getPosition sv1 cs1.wf.toInv)
      have hy : argsBefore (sv1.setDataAndMove (args.length, lhsIndex)) sv1.getPosition
          = ((recordsBefore sv1.live sv1.curChunkIndex
              (derefChunk sv1.chunks sv1.curChunk).usedSize).map Prod.fst).sum := by
        unfold argsBefore
        show ((recordsBefore _ sv1.curChunkIndex
          (derefChunk sv1.chunks sv1.curChunk).usedSize).map Prod.fst).sum = _
        rw [y]
      rw [hy, recordsBefore_getPosition sv1 cs1.wf, cs1.flat_eq, List.append_nil, h.total]
      have hfl := flat_length _ c3.wf
      rw [hfc, c3.flat_eq] at hfl
      have hu := foldl_setDataAndMove_used args (jv.useNested sv1).nextChunk
        (by rw [hni.cur_eq]; exact hni.cur_lt)
      rw [nextChunk_used _ hv1.cur_lt, hni.cur_eq, hnc] at hu
      rw [hu] at hfl
      have hf : (jv.useNested sv1).flat = jv.flat := rfl
      rw [hf, List.length_append] at hfl
      omega
    refine ⟨useNested_wf _ _ c3.wf, c4.wf, htotal, ?_, ?_⟩
    · intro i hi
      have hi1 : i ≤ jv.curChunkIndex + 1 := by
        have : i ≤ (args.foldl setDataAndMove (jv.useNested sv1).nextChunk).curChunkIndex := hi
        rw [hfc] at this; exact this
      rcases Nat.lt_or_eq_of_le hi1 with hlt | heq
      · exact hold i (by omega) (hpo i (by omega))
      · subst heq
        refine ⟨sv1.getPosition, ?_, (cN.covers _ _ (covers_getPosition sv1 cs1.wf.toInv)).1,
          hnew, continues_ge _ _ _ cs1.wf cN⟩
        show (args.foldl setDataAndMove (jv.useNested sv1).nextChunk).positions[_]? = _
        rw [fpos, hpn]
    · intro i hi a b ha hb
      have hi1 : i < jv.curChunkIndex + 1 := by
        have : i < (args.foldl setDataAndMove (jv.useNested sv1).nextChunk).curChunkIndex := hi
        rw [hfc] at this; exact this
      have ha1 : (args.foldl setDataAndMove (jv.useNested sv1).nextChunk).positions[i]?
          = some a := ha
      have hb1 : (args.foldl setDataAndMove (jv.useNested sv1).nextChunk).positions[i + 1]?
          = some b := hb
      rw [fpos] at ha1 hb1
      rw [hpo i (by omega)] at ha1
      rcases Nat.lt_or_eq_of_le (Nat.lt_succ_iff.1 hi1) with hlt | heq
      · rw [hpo (i + 1) (by omega)] at hb1
        exact h.mono i hlt a b ha1 hb1
      · subst heq
        rw [hpn] at hb1
        have hb2 := Option.some.inj hb1
        subst hb2
        obtain ⟨a1, p1, _, _, p4⟩ := h.stored jv.curChunkIndex (le_refl _)
        rw [p1] at ha1
        have ha2 := Option.some.inj ha1
        subst ha2
        exact Position.ge_trans hge1 p4
  · rw [if_neg hm] at e2b
    subst e2b
    have hfc : (args.foldl setDataAndMove (jv.useNested sv1)).curChunkIndex
        = jv.curChunkIndex := fcur
    refine ⟨useNested_wf _ _ c3.wf, c4.wf, htotal, ?_, ?_⟩
    · intro i hi
      have hi1 : i ≤ jv.curChunkIndex := by
        have : i ≤ (args.foldl setDataAndMove (jv.useNested sv1)).curChunkIndex := hi
        rw [hfc] at this; exact this
      exact hold i hi1 rfl
    · intro i hi a b ha hb
      have hi1 : i < jv.curChunkIndex := by
        have : i < (args.foldl setDataAndMove (jv.useNested sv1)).curChunkIndex := hi
        rw [hfc] at this; exact this
      have ha1 : (args.foldl setDataAndMove (jv.useNested sv1)).positions[i]? = some a := ha
      have hb1 : (args.foldl setDataAndMove (jv.useNested sv1)).positions[i + 1]? = some b := hb
      rw [fpos] at ha1 hb1
      exact h.mono i hi1 a b ha1 hb1

theorem Recorded.aligned {cj cs : Nat} {jv : JacobiVector R} (h : Recorded cj cs jv) :
    Aligned jv := by
  induction h with
  | new => exact aligned_new cj cs
  | statement args lhsIndex _ hw ih => exact aligned_recordStatement _ _ args lhsIndex ih hw

omit [Inhabited R] in
theorem aligned_between (jv : JacobiVector R) (al : Aligned jv) (i : Nat)
    (hi : i ≤ jv.curChunkIndex) (a b : StmtPosition)
    (ha : jv.nested.Covers a.chunk a.data) (hb : jv.nested.Covers b.chunk b.data)
    (hge : Position.ge b a) (hsa : argsBefore jv.nested a = jv.usedBefore i)
    (hsb : argsBefore jv.nested b = jv.usedBefore i + (derefChunk jv.chunks i).usedSize) :
    (∀ (σ : Type) (f : σ → Nat × Nat → σ) (s : σ),
        jv.nested.forEach b a f s = some (List.foldl f s (jv.nested.visited b a)))
    ∧ jv.nested.forEach b a (fun n r => n + r.1) 0 = jv.getChunkUsedData i := by
  have hs := al.wfs
  have hu : ∀ c ∈ jv.nested.chunks, c.usedSize ≤ c.data.length := by
    intro c hc; rw [hs.slots c hc]; exact hs.used_le c hc
  have hblt : b.chunk < jv.nested.chunks.length := by
    have := hb.1; have := hs.cur_lt; omega
  have hbin : b.data ≤ (derefChunk jv.nested.chunks b.chunk).data.length :=
    le_trans hb.2 (hu _ (derefChunk_mem hblt))
  have hfe := (forEach_visits jv.nested b a hu hge hblt hbin).1 (Or.inr ha.2)
  refine ⟨hfe, ?_⟩
  have hvis := recordsBefore_visited jv.nested hs a b ha hb hge
  have hsum : argsBefore jv.nested b
      = argsBefore jv.nested a + ((jv.nested.visited b a).map Prod.fst).sum := by
    unfold argsBefore
    rw [hvis, List.map_append, List.sum_append, List.map_reverse, List.sum_reverse]
  rw [hfe, foldl_add_fst]
  unfold getChunkUsedData
  rw [if_pos (by have := al.wf.cur_lt; omega)]
  show some _ = some (derefChunk jv.chunks i).usedSize
  congr 1
  omega

/-- C23: cross-layer alignment.  In every state reached by recording statements with the
protocol (statement `reserveItems(1)`, coefficient `reserveItems(k)`, `k` coefficient
appends, statement append) from new vectors of arbitrary chunk sizes, for every coefficient
chunk `i` up to the current one: let `a` be the statement position stored for chunk `i`
(`getInnerPosition(i)`) and `b` the one stored for chunk `i + 1`, or the current statement
position when `i` is the current chunk.  Then `b ≥ a`, `forEach(b, a, f)` of the statement
vector is accepted and visits the statements between the two positions, and the sum of
their argument counts, computed by `forEach`, is `getChunkUsedData(i)` of the coefficient
vector. -/
theorem recorded_alignment (cj cs : Nat) (jv : JacobiVector R) (h : Recorded cj cs jv)
    (i : Nat) (hi : i ≤ jv.curChunkIndex) :
    ∃ a b : StmtPosition,
      jv.getInnerPosition i = some a
      ∧ (i < jv.curChunkIndex → jv.getInnerPosition (i + 1) = some b)
      ∧ (i = jv.curChunkIndex → b = jv.nested.getPosition)
      ∧ Position.ge b a
      ∧ (∀ (σ : Type) (f : σ → Nat × Nat → σ) (s : σ),
          jv.nested.forEach b a f s = some (List.foldl f s (jv.nested.visited b a)))
      ∧ jv.nested.forEach b a (fun n r => n + r.1) 0 = jv.getChunkUsedData i := by
  have al := Recorded.aligned h
  obtain ⟨a, p1, p2, p3, p4⟩ := al.stored i hi
  have hinner : ∀ j, j ≤ jv.curChunkIndex → jv.getInnerPosition j = jv.positions[j]? := by
    intro j hj
    unfold getInnerPosition
    rw [if_pos (by rw [al.wf.pos_len]; have := al.wf.cur_lt; omega)]
  rcases Nat.lt_or_eq_of_le hi with hlt | heq
  · obtain ⟨b, q1, q2, q3, _⟩ := al.stored (i + 1) hlt
    have hge := al.mono i hlt a b p1 q1
    rw [usedBefore_succ jv al.wf i hi] at q3
    obtain ⟨r1, r2⟩ := aligned_between jv al i hi a b p2 q2 hge p3 q3
    exact ⟨a, b, by rw [hinner i hi, p1], fun _ => by rw [hinner (i + 1) hlt, q1],
      fun e => absurd e (Nat.ne_of_lt hlt), hge, r1, r2⟩
  · have hb := covers_getPosition jv.nested al.wfs.toInv
    have hsb : argsBefore jv.nested jv.nested.getPosition
        = jv.usedBefore i + (derefChunk jv.chunks i).usedSize := by
      have e1 : argsBefore jv.nested jv.nested.getPosition
          = ((recordsBefore jv.nested.live jv.nested.curChunkIndex
              (derefChunk jv.nested.chunks jv.nested.curChunk).usedSize).map Prod.fst).sum := rfl
      rw [e1, recordsBefore_getPosition jv.nested al.wfs, al.total, flat_length jv al.wf, heq]
    obtain ⟨r1, r2⟩ := aligned_between jv al i hi a jv.nested.getPosition p2 hb p4 p3 hsb
    exact ⟨a, jv.nested.getPosition, by rw [hinner i hi, p1],
      fun hl => absurd heq (Nat.ne_of_lt hl), fun _ => rfl, p4, r1, r2⟩

end Alignment

/-! ## The used counts and the slots of all chunks along the operations -/

namespace ChunkVector

section Profile

variable {D N NP : Type}

theorem derefChunk_beyond (cs : List (Chunk D)) (i : Nat) (h : cs.length ≤ i) :
    derefChunk cs i = { size := 0, usedSize := 0, data := [] } := by
  simp [derefChunk, List.getD, List.getElem?_eq_none h]

theorem derefChunk_resetLoop_gt (lo k : Nat) (cs : List (Chunk D)) (i : Nat)
    (h : lo + k < i) : derefChunk (resetLoop lo k cs) i = derefChunk cs i := by
  induction k generalizing cs with
  | zero => rfl
  | succ k ih =>
    simp only [resetLoop]
    rw [ih _ (by omega), derefChunk_updateChunk_ne _ (by omega)]

theorem reset_used_all [NestedVector N NP] (v w : ChunkVector D N NP) (pos : Position NP)
    (h : v.reset pos = some w) (i : Nat) :
    (derefChunk w.chunks i).usedSize
      = if i = pos.chunk then pos.data
        else if pos.chunk < i ∧ i ≤ v.curChunkIndex then 0
        else (derefChunk v.chunks i).usedSize := by
  obtain ⟨h1, _, nested, _, rfl⟩ := reset_spec v w pos h
  dsimp only
  by_cases hi : i = pos.chunk
  · subst hi
    rw [if_pos rfl, derefChunk_updateChunk_same _ (by rw [resetLoop_length]; exact h1)]
    rfl
  · rw [if_neg hi, derefChunk_updateChunk_ne _ (Ne.symm hi)]
    by_cases hr : pos.chunk < i ∧ i ≤ v.curChunkIndex
    · rw [if_pos hr]
      exact derefChunk_resetLoop_used _ _ _ _ hr.1 (by omega)
    · rw [if_neg hr]
      by_cases hle : i ≤ pos.chunk
      · rw [derefChunk_resetLoop_le _ _ _ _ hle]
      · rw [derefChunk_resetLoop_gt _ _ _ _ (by omega)]

theorem reset_data_all [NestedVector N NP] (v w : ChunkVector D N NP) (pos : Position NP)
    (h : v.reset pos = some w) (i : Nat) :
    (derefChunk w.chunks i).data = (derefChunk v.chunks i).data := by
  obtain ⟨_, _, nested, _, rfl⟩ := reset_spec v w pos h
  dsimp only
  rw [(derefChunk_updateChunk_data _ pos.chunk i (fun c => c.load.setUsedSize pos.data)
    (fun _ => ⟨rfl, rfl⟩)).1, (derefChunk_resetLoop_data _ _ _ i).1]

variable [Inhabited D] [NestedVector N NP]

theorem nextChunk_used_all (v : ChunkVector D N NP) (i : Nat) :
    (derefChunk v.nextChunk.chunks i).usedSize
      = if i = v.curChunkIndex + 1 then 0 else (derefChunk v.chunks i).usedSize := by
  unfold nextChunk
  rw [updateChunk_id]
  by_cases hl : v.chunks.length = v.curChunkIndex + 1
  · rw [if_pos hl]
    dsimp only
    by_cases hi : i = v.curChunkIndex + 1
    · rw [if_pos hi, hi, ← hl, derefChunk_append_length]
      rfl
    · rw [if_neg hi]
      by_cases hlt : i < v.chunks.length
      · rw [derefChunk_append_left _ hlt]
      · rw [derefChunk_beyond _ _ (by simp; omega), derefChunk_beyond _ _ (by omega)]
  · rw [if_neg hl]
    dsimp only
    by_cases hi : i = v.curChunkIndex + 1
    · rw [if_pos hi, hi]
      exact derefChunk_reset_used _ _
    · rw [if_neg hi, derefChunk_updateChunk_ne _ (Ne.symm hi)]

theorem nextChunk_data_all (v : ChunkVector D N NP) (i : Nat) (hi : i < v.chunks.length) :
    (derefChunk v.nextChunk.chunks i).data = (derefChunk v.chunks i).data := by
  unfold nextChunk
  rw [updateChunk_id]
  by_cases hl : v.chunks.length = v.curChunkIndex + 1
  · rw [if_pos hl]
    dsimp only
    rw [derefChunk_append_left _ hi]
  · rw [if_neg hl]
    dsimp only
    exact (derefChunk_updateChunk_data _ _ i Chunk.reset (fun _ => ⟨rfl, rfl⟩)).1

omit [Inhabited D] [NestedVector N NP] in
theorem setDataAndMove_used_all (v : ChunkVector D N NP) (x : D)
    (hc : v.curChunk < v.chunks.length) (i : Nat) :
    (derefChunk (v.setDataAndMove x).chunks i).usedSize
      = if i = v.curChunk then (derefChunk v.chunks i).usedSize + 1
        else (derefChunk v.chunks i).usedSize := by
  unfold setDataAndMove
  dsimp only
  by_cases hi : i = v.curChunk
  · rw [if_pos hi, hi, derefChunk_updateChunk_same _ hc]
    rfl
  · rw [if_neg hi, derefChunk_updateChunk_ne _ (Ne.symm hi)]

omit [Inhabited D] [NestedVector N NP] in
theorem setDataAndMove_data_other (v : ChunkVector D N NP) (x : D)
    (hc : v.curChunk < v.chunks.length) (i j : Nat)
    (h : i ≠ v.curChunk ∨ j ≠ (derefChunk v.chunks v.curChunk).usedSize) :
    (derefChunk (v.setDataAndMove x).chunks i).data[j]? = (derefChunk v.chunks i).data[j]? := by
  unfold setDataAndMove
  dsimp only
  by_cases hi : i = v.curChunk
  · subst hi
    rw [derefChunk_updateChunk_same _ hc]
    show ((derefChunk v.chunks v.curChunk).data.set _ x)[j]? = _
    rw [List.getElem?_set_ne]
    rcases h with h | h
    · exact absurd rfl h
    · exact Ne.symm h
  · rw [derefChunk_updateChunk_ne _ (Ne.symm hi)]

omit [Inhabited D] [NestedVector N NP] in
theorem setDataAndMove_data_same (v : ChunkVector D N NP) (x : D)
    (hc : v.curChunk < v.chunks.length)
    (hu : (derefChunk v.chunks v.curChunk).usedSize
      < (derefChunk v.chunks v.curChunk).data.length) :
    (derefChunk (v.setDataAndMove x).chunks v.curChunk).data[
      (derefChunk v.chunks v.curChunk).usedSize]? = some x := by
  unfold setDataAndMove
  dsimp only
  rw [derefChunk_updateChunk_same _ hc]
  show ((derefChunk v.chunks v.curChunk).data.set _ x)[_]? = _
  rw [List.getElem?_set_self hu]

theorem recordBatch_one (v : ChunkVector D N NP) (hv : v.WF) (h1 : 1 ≤ v.chunkSize) (x : D) :
    ∃ w, v.recordBatch 1 [x] = some w ∧ w.WF ∧ w.chunkSize = v.chunkSize
      ∧ w.curChunkIndex
          = (if v.chunkSize < (derefChunk v.chunks v.curChunkIndex).usedSize + 1
             then v.curChunkIndex + 1 else v.curChunkIndex)
      ∧ w.chunks.length
          = (if v.chunkSize < (derefChunk v.chunks v.curChunkIndex).usedSize + 1
                ∧ v.chunks.length = v.curChunkIndex + 1
             then v.chunks.length + 1 else v.chunks.length)
      ∧ (∀ i, (derefChunk w.chunks i).usedSize
          = if i = w.curChunkIndex
            then (if v.chunkSize < (derefChunk v.chunks v.curChunkIndex).usedSize + 1 then 0
                  else (derefChunk v.chunks v.curChunkIndex).usedSize) + 1
            else (derefChunk v.chunks i).usedSize)
      ∧ (∀ i j, i < v.chunks.length →
          (i ≠ w.curChunkIndex
            ∨ j ≠ (if v.chunkSize < (derefChunk v.chunks v.curChunkIndex).usedSize + 1 then 0
                   else (derefChunk v.chunks v.curChunkIndex).usedSize)) →
          (derefChunk w.chunks i).data[j]? = (derefChunk v.chunks i).data[j]?)
      ∧ (derefChunk w.chunks w.curChunkIndex).data[
          (if v.chunkSize < (derefChunk v.chunks v.curChunkIndex).usedSize + 1 then 0
           else (derefChunk v.chunks v.curChunkIndex).usedSize)]? = some x := by
  obtain ⟨w, e, c⟩ := continues_recordBatch v hv 1 [x] (le_refl _) h1
  have e0 := e
  have er := reserveItems_eq v 1 h1
  rw [hv.cur_eq] at er
  unfold recordBatch at e
  rw [er] at e
  simp only [List.foldl_cons, List.foldl_nil, Option.some.injEq] at e
  refine ⟨w, e0, c.wf, c.chunkSize_eq, ?_⟩
  clear e0
  by_cases hm : v.chunkSize < (derefChunk v.chunks v.curChunkIndex).usedSize + 1
  · simp only [if_pos hm] at e ⊢
    subst e
    have hni := nextChunk_inv v hv.toInv
    have hnw := nextChunk_wf v hv
    have hnc : v.nextChunk.curChunkIndex = v.curChunkIndex + 1 := nextChunk_curChunkIndex v
    have hcc : v.nextChunk.curChunk = v.curChunkIndex + 1 := by rw [hni.cur_eq, hnc]
    have hcl : v.nextChunk.curChunk < v.nextChunk.chunks.length := by
      rw [hni.cur_eq]; exact hni.cur_lt
    have hu0 : (derefChunk v.nextChunk.chunks v.nextChunk.curChunk).usedSize = 0 :=
      nextChunk_used v hv.cur_lt
    have hwc : (v.nextChunk.setDataAndMove x).curChunkIndex = v.curChunkIndex + 1 := hnc
    refine ⟨hwc, ?_, ?_, ?_, ?_⟩
    · have hl0 : (v.nextChunk.setDataAndMove x).chunks.length = v.nextChunk.chunks.length := by
        simp [ChunkVector.setDataAndMove]
      rw [hl0]
      by_cases hl : v.chunks.length = v.curChunkIndex + 1
      · rw [if_pos ⟨hm, hl⟩, nextChunk_length_last v hl]
      · rw [if_neg (fun h => hl h.2), nextChunk_length_reuse v hl]
    · intro i
      rw [setDataAndMove_used_all _ _ hcl, nextChunk_used_all, hcc, hwc]
      by_cases hi : i = v.curChunkIndex + 1
      · rw [if_pos hi, if_pos hi, if_pos hi]
      · rw [if_neg hi, if_neg hi, if_neg hi]
    · intro i j hi hij
      rw [hwc] at hij
      rw [setDataAndMove_data_other _ _ hcl i j (by rw [hu0, hcc]; exact hij),
        nextChunk_data_all v i hi]
    · rw [hwc, ← hcc]
      have := setDataAndMove_data_same v.nextChunk x hcl (by
        rw [hu0, hnw.slots _ (derefChunk_mem hcl), nextChunk_chunkSize]; omega)
      rw [hu0] at this
      exact this
  · simp only [if_neg hm] at e ⊢
    subst e
    have hcl : v.curChunk < v.chunks.length := by rw [hv.cur_eq]; exact hv.cur_lt
    have hwc : (v.setDataAndMove x).curChunkIndex = v.curChunkIndex := rfl
    refine ⟨hwc, ?_, ?_, ?_, ?_⟩
    · have hl0 : (v.setDataAndMove x).chunks.length = v.chunks.length := by
        simp [ChunkVector.setDataAndMove]
      rw [hl0, if_neg (fun h => hm h.1)]
    · intro i
      rw [setDataAndMove_used_all _ _ hcl, hv.cur_eq, hwc]
      by_cases hi : i = v.curChunkIndex
      · rw [if_pos hi, if_pos hi, hi]
      · rw [if_neg hi, if_neg hi]
    · intro i j _ hij
      rw [hwc] at hij
      exact setDataAndMove_data_other _ _ hcl i j (by rw [hv.cur_eq]; exact hij)
    · rw [hwc]
      have := setDataAndMove_data_same v x hcl (by
        rw [hv.slots _ (derefChunk_mem hcl), hv.cur_eq]; omega)
      rw [hv.cur_eq] at this
      exact this

end Profile

end ChunkVector

/-! ## The lock-step of the statement and the jacobi vector -/

section Lock

open ChunkVector

variable {R : Type}

theorem lockStep_capture (jv : JacobiVector R) (P : List JacobiPosition) (h : LockStep jv P) :
    LockStep jv (jv.getPosition :: P) := by
  refine ⟨h.wf, h.wfs, h.chunkSize_eq, h.cur_eq, h.length_eq, h.used_eq, h.ones, ?_⟩
  intro p hp
  rcases List.mem_cons.1 hp with hp | hp
  · subst hp
    refine ⟨h.wf.cur_lt, h.cur_eq.symm, ?_, ?_⟩
    · show (derefChunk jv.nested.chunks jv.nested.curChunk).usedSize
        = (derefChunk jv.chunks jv.curChunk).usedSize
      rw [h.wfs.cur_eq, h.wf.cur_eq, h.used_eq, h.cur_eq]
    · show OneArgument (derefChunk jv.nested.chunks jv.curChunkIndex).data
        (derefChunk jv.chunks jv.curChunk).usedSize
      rw [h.wf.cur_eq, h.used_eq]
      exact h.ones _
  · exact h.captured p hp

theorem lockStep_reset (jv w : JacobiVector R) (P : List JacobiPosition) (h : LockStep jv P)
    (pos : JacobiPosition) (hp : pos ∈ P) (hw : jv.reset pos = some w) : LockStep w P := by
  obtain ⟨c1, c2, c3, c4⟩ := h.captured pos hp
  obtain ⟨_, _, nested, hn, hform⟩ := reset_spec jv w pos hw
  have hn1 : jv.nested.reset pos.inner = some nested := hn
  have hwn : w.nested = nested := by rw [hform]
  have hwc : w.curChunkIndex = pos.chunk := by rw [hform]
  obtain ⟨_, _, _, _, hforms⟩ := reset_spec jv.nested nested pos.inner hn1
  have hnc : nested.curChunkIndex = pos.inner.chunk := by rw [hforms]
  have hlj := (reset_only_truncates_aux jv w pos hw).1
  have hls := (reset_only_truncates_aux jv.nested nested pos.inner hn1).1
  have huj := reset_used_all jv w pos hw
  have hus := reset_used_all jv.nested nested pos.inner hn1
  have hds := reset_data_all jv.nested nested pos.inner hn1
  have husw : ∀ i, (derefChunk nested.chunks i).usedSize
      = if i = pos.chunk then pos.data
        else if pos.chunk < i ∧ i ≤ jv.curChunkIndex then 0
        else (derefChunk jv.chunks i).usedSize := by
    intro i
    rw [hus i, c2, c3, ← h.cur_eq, ← h.used_eq]
  rw [← hwn] at husw hds hls hnc
  refine ⟨reset_wf jv w pos h.wf hw, ?_, ?_, ?_, ?_, ?_, ?_, ?_⟩
  · rw [hwn]; exact reset_wf jv.nested nested pos.inner h.wfs hn1
  · rw [reset_chunkSize jv w pos hw, hwn, reset_chunkSize jv.nested nested pos.inner hn1]
    exact h.chunkSize_eq
  · rw [hwc, hnc, c2]
  · rw [hlj, hls]; exact h.length_eq
  · intro i
    rw [huj i, husw i]
  · intro i
    rw [hds i, husw i]
    by_cases hi : i = pos.chunk
    · rw [if_pos hi, hi]; exact c4
    · rw [if_neg hi]
      by_cases hr : pos.chunk < i ∧ i ≤ jv.curChunkIndex
      · rw [if_pos hr]
        intro j hj
        exact absurd hj (Nat.not_lt_zero _)
      · rw [if_neg hr, h.used_eq]
        exact h.ones i
  · intro q hq
    obtain ⟨d1, d2, d3, d4⟩ := h.captured q hq
    refine ⟨by rw [hlj]; exact d1, d2, d3, ?_⟩
    rw [hds]
    exact d4

theorem lockStep_new [Inhabited (R × Nat)] (c : Nat) :
    LockStep (ChunkVector.new c (ChunkVector.new c ({} : EmptyChunkVector)) : JacobiVector R)
      [] := by
  have hu : ∀ i, (derefChunk (ChunkVector.new c ({} : EmptyChunkVector)
      : StatementVector).chunks i).usedSize = 0 := by
    intro i
    cases i <;> rfl
  refine ⟨new_wf _ _, new_wf _ _, rfl, rfl, rfl, ?_, ?_, ?_⟩
  · intro i
    cases i <;> rfl
  · intro i j hj
    have h0 : (derefChunk (ChunkVector.new c (ChunkVector.new c ({} : EmptyChunkVector))
        : JacobiVector R).nested.chunks i).usedSize = 0 := hu i
    rw [h0] at hj
    exact absurd hj (Nat.not_lt_zero _)
  · intro p hp
    exact absurd hp (List.not_mem_nil _)

theorem lockStep_record [Inhabited R] (jv w : JacobiVector R) (P : List JacobiPosition)
    (h : LockStep jv P) (x : R × Nat) (lhsIndex : Nat)
    (hw : recordStatement jv [x] lhsIndex = some w) : LockStep w P := by
  obtain ⟨h1, hk⟩ := recordStatement_some jv w [x] lhsIndex hw
  obtain ⟨sv1, jv2, e1, e2, e3, _, _⟩ := recordStatement_spec jv [x] lhsIndex h.wf h.wfs h1 hk
  rw [e3] at hw
  have hw1 := (Option.some.inj hw).symm
  obtain ⟨ws, es, s1, s2, s3, s4, s5, s6, s7⟩ := recordBatch_one jv.nested h.wfs h1 (1, lhsIndex)
  unfold recordBatch at es
  rw [e1] at es
  simp only [List.foldl_cons, List.foldl_nil, Option.some.injEq] at es
  obtain ⟨wj, ej, j1, j2, j3, j4, j5, _, _⟩ :=
    recordBatch_one (jv.useNested sv1) (useNested_wf jv sv1 h.wf) hk x
  unfold recordBatch at ej
  have e2a : (jv.useNested sv1).reserveItems 1 = some jv2 := e2
  rw [e2a] at ej
  simp only [List.foldl_cons, List.foldl_nil, Option.some.injEq] at ej
  have hwf : w = wj.useNested ws := by
    rw [hw1, ← es, ← ej]
    rfl
  have k2 : wj.chunkSize = jv.nested.chunkSize := j2.trans h.chunkSize_eq
  have k3 : wj.curChunkIndex
      = (if jv.chunkSize < (derefChunk jv.chunks jv.curChunkIndex).usedSize + 1
         then jv.curChunkIndex + 1 else jv.curChunkIndex) := j3
  have k4 : wj.chunks.length
      = (if jv.chunkSize < (derefChunk jv.chunks jv.curChunkIndex).usedSize + 1
            ∧ jv.chunks.length = jv.curChunkIndex + 1
         then jv.chunks.length + 1 else jv.chunks.length) := j4
  have k5 : ∀ i, (derefChunk wj.chunks i).usedSize
      = if i = wj.curChunkIndex
        then (if jv.chunkSize < (derefChunk jv.chunks jv.curChunkIndex).usedSize + 1 then 0
              else (derefChunk jv.chunks jv.curChunkIndex).usedSize) + 1
        else (derefChunk jv.chunks i).usedSize := j5
  rw [h.chunkSize_eq, h.used_eq, h.cur_eq, ← s3] at k3
  rw [h.chunkSize_eq, h.used_eq, h.cur_eq, h.length_eq, ← s4] at k4
  have k5a : ∀ i, (derefChunk wj.chunks i).usedSize = (derefChunk ws.chunks i).usedSize := by
    intro i
    rw [k5 i, s5 i, h.chunkSize_eq, h.used_eq, h.used_eq, h.cur_eq, k3]
  have hlen : jv.nested.chunks.length ≤ ws.chunks.length := by
    rw [s4]; split <;> omega
  have hone : ∀ i n, i < jv.nested.chunks.length →
      OneArgument (derefChunk jv.nested.chunks i).data n →
      OneArgument (derefChunk ws.chunks i).data n := by
    intro i n hi ho j hj
    by_cases hc : i = ws.curChunkIndex ∧ j
        = (if jv.nested.chunkSize
              < (derefChunk jv.nested.chunks jv.nested.curChunkIndex).usedSize + 1 then 0
           else (derefChunk jv.nested.chunks jv.nested.curChunkIndex).usedSize)
    · refine ⟨lhsIndex, ?_⟩
      rw [hc.1, hc.2]
      exact s7
    · rw [s6 i j hi (by
        by_cases hi1 : i = ws.curChunkIndex
        · exact Or.inr (fun hj1 => hc ⟨hi1, hj1⟩)
        · exact Or.inl hi1)]
      exact ho j hj
  subst hwf
  refine ⟨useNested_wf _ _ j1, s1, k2.trans s2.symm, k3, k4, k5a, ?_, ?_⟩
  · intro i
    show OneArgument (derefChunk ws.chunks i).data (derefChunk ws.chunks i).usedSize
    by_cases hi : i < jv.nested.chunks.length
    · rw [s5 i]
      by_cases hic : i = ws.curChunkIndex
      · rw [if_pos hic]
        intro j hj
        by_cases hju : j
            = (if jv.nested.chunkSize
                  < (derefChunk jv.nested.chunks jv.nested.curChunkIndex).usedSize + 1 then 0
               else (derefChunk jv.nested.chunks jv.nested.curChunkIndex).usedSize)
        · refine ⟨lhsIndex, ?_⟩
          rw [hic, hju]
          exact s7
        · rw [s6 i j hi (Or.inr hju)]
          by_cases hm : jv.nested.chunkSize
              < (derefChunk jv.nested.chunks jv.nested.curChunkIndex).usedSize + 1
          · rw [if_pos hm] at hj hju
            omega
          · rw [if_neg hm] at hj hju
            rw [s3, if_neg hm] at hic
            rw [hic]
            exact h.ones _ j (by omega)
      · rw [if_neg hic]
        exact hone i _ hi (h.ones i)
    · by_cases hic : i = ws.curChunkIndex
      · rw [s5 i, if_pos hic]
        have hm : jv.nested.chunkSize
            < (derefChunk jv.nested.chunks jv.nested.curChunkIndex).usedSize + 1 := by
          by_contra hm
          rw [s3, if_neg hm] at hic
          have := h.wfs.cur_lt
          omega
        rw [if_pos hm]
        intro j hj
        have hj0 : j = 0 := by omega
        refine ⟨lhsIndex, ?_⟩
        have := s7
        rw [if_pos hm] at this
        rw [hic, hj0]
        exact this
      · rw [s5 i, if_neg hic, derefChunk_beyond jv.nested.chunks i (by omega)]
        intro j hj
        exact absurd hj (Nat.not_lt_zero _)
  · intro q hq
    obtain ⟨d1, d2, d3, d4⟩ := h.captured q hq
    have hq1 : q.chunk < jv.nested.chunks.length := by rw [← h.length_eq]; exact d1
    refine ⟨?_, d2, d3, hone _ _ hq1 d4⟩
    show q.chunk < wj.chunks.length
    rw [k4]
    omega

theorem sum_eq_length_of_ones (l : List Nat) (h : ∀ y ∈ l, y = 1) : l.sum = l.length := by
  induction l with
  | nil => rfl
  | cons a l ih =>
    rw [List.sum_cons, List.length_cons, ih (fun y hy => h y (List.mem_cons_of_mem _ hy)),
      h a (List.mem_cons_self _ _)]
    omega

theorem records_sum_of_ones (c : Chunk (Nat × Nat)) (h : OneArgument c.data c.usedSize) :
    (c.records.map Prod.fst).sum = c.records.length := by
  rw [sum_eq_length_of_ones, List.length_map]
  intro y hy
  obtain ⟨r, hr, rfl⟩ := List.mem_map.1 hy
  obtain ⟨n, hn⟩ := List.mem_iff_getElem?.1 hr
  unfold Chunk.records at hn
  by_cases hlt : n < c.usedSize
  · rw [List.getElem?_take_of_lt hlt] at hn
    obtain ⟨x, hx⟩ := h n hlt
    rw [hx] at hn
    rw [← Option.some.inj hn]
  · rw [List.getElem?_eq_none (by rw [List.length_take]; omega)] at hn
    exact absurd hn (by simp)

theorem argsBefore_succ (sv : StatementVector) (hs : sv.WF) (i : Nat)
    (hi : i ≤ sv.curChunkIndex) :
    argsBefore sv ⟨i + 1, 0, {}⟩
      = argsBefore sv ⟨i, 0, {}⟩ + ((derefChunk sv.chunks i).records.map Prod.fst).sum := by
  unfold argsBefore recordsBefore
  dsimp only
  rw [live_take_succ sv i hi hs.cur_lt]
  simp

theorem lockStep_total (jv : JacobiVector R) (P : List JacobiPosition) (h : LockStep jv P) :
    (jv.nested.flat.map Prod.fst).sum = jv.flat.length := by
  have hstep : ∀ i, i ≤ jv.curChunkIndex + 1 →
      argsBefore jv.nested ⟨i, 0, {}⟩ = jv.usedBefore i := by
    intro i
    induction i with
    | zero =>
      intro _
      simp [argsBefore, usedBefore, recordsBefore]
    | succ i ih =>
      intro hi
      have hi1 : i ≤ jv.curChunkIndex := by omega
      have hm := derefChunk_mem (show i < jv.nested.chunks.length by
        have := h.wfs.cur_lt; rw [← h.cur_eq] at this; omega)
      rw [argsBefore_succ jv.nested h.wfs i (by rw [← h.cur_eq]; exact hi1),
        usedBefore_succ jv h.wf i hi1, ih (by omega), records_sum_of_ones _ (h.ones i),
        records_length _ (by rw [h.wfs.slots _ hm]; exact h.wfs.used_le _ hm), h.used_eq]
  have hf : (jv.nested.flat.map Prod.fst).sum
      = argsBefore jv.nested ⟨jv.nested.curChunkIndex + 1, 0, {}⟩ := by
    unfold argsBefore recordsBefore flat
    dsimp only
    rw [List.take_of_length_le (by rw [live_length _ h.wfs.cur_lt])]
    simp
  rw [hf, ← h.cur_eq, hstep _ (le_refl _), usedBefore_succ jv h.wf _ (le_refl _),
    flat_length jv h.wf]

end Lock

namespace JacobiIndexTape

section Reach

open ChunkVector

variable {R H E : Type} [Zero R] [One R] [Inhabited R] [Inhabited E] [IndexHandler H]

theorem Reached.lockStep {opts : TapeOptions} {t : JacobiIndexTape R H E}
    {P : List JacobiPosition} (h : Reached opts t P) : LockStep t.jacobiVector P := by
  induction h with
  | new indexHandler =>
    exact @lockStep_new R (@instInhabitedProd R Nat ⟨0⟩ inferInstance) opts.DefaultChunkSize
  | setActive active _ ih => exact ih
  | @store t P lhsValue lhsIndex rhs r _ hr ih =>
    by_cases hc : enableCheck opts.OptTapeActivity t.active = true
        ∧ enableCheck opts.OptCheckZeroIndex (0 != rhs.getGradientData) = true
    · rw [store_recording opts t lhsValue lhsIndex rhs hc.1 hc.2] at hr
      obtain ⟨w, hw, hrw⟩ := Option.map_eq_some'.1 hr
      rw [← hrw]
      exact lockStep_record _ w P ih _ _ hw
    · rw [store_skipping opts t lhsValue lhsIndex rhs hc] at hr
      rw [← Option.some.inj hr]
      exact ih
  | getPosition _ ih => exact lockStep_capture _ _ ih
  | reset pos jv _ hp hw ih => exact lockStep_reset _ jv _ ih pos hp hw

/-- C22: statement/coefficient lock-step.  In every tape state reached from the constructor
by `store` calls (with any options, the tape switched active or passive in between) and by
rewinds of the coefficient vector to positions that its `getPosition()` returned before
(which rewind the statement vector recursively), the sum of the argument counts of all live
statement records equals the number of live coefficient records. -/
theorem store_reset_lockstep (opts : TapeOptions) (t : JacobiIndexTape R H E)
    (P : List JacobiPosition) (h : Reached opts t P) :
    (t.stmtVector.flat.map Prod.fst).sum = t.jacobiVector.flat.length :=
  lockStep_total t.jacobiVector P (Reached.lockStep h)

end Reach

end JacobiIndexTape

/-! ## Concrete instances for the third group of statements -/

theorem reachable_current_chunk_witness :
    (ChunkVector.resizeLoop 2 demoTwo).curChunkIndex < (ChunkVector.resizeLoop 2 demoTwo).chunks.length
    ∧ (ChunkVector.resizeLoop 2 demoTwo).curChunk = (ChunkVector.resizeLoop 2 demoTwo).curChunkIndex
    ∧ (ChunkVector.resizeLoop 2 demoTwo).getChunkUsedData 1 = some 0
    ∧ (ChunkVector.resizeLoop 2 demoTwo).getChunkUsedData 2 = some 0 := by
  have hw : demoTwo.resize 10 = some (ChunkVector.resizeLoop 2 demoTwo) := by decide
  have hr : ChunkVector.Reachable (ChunkVector.resizeLoop 2 demoTwo) :=
    ChunkVector.Reachable.resize 10 (ChunkVector.Reachable.setDataAndMove 2
      (ChunkVector.Reachable.setDataAndMove 1
        (ChunkVector.Reachable.new 4 ({} : EmptyChunkVector)))) hw
  obtain ⟨h1, h2, _, h4⟩ := ChunkVector.reachable_current_chunk _ hr
  exact ⟨h1, h2, h4 1 (by decide) (by decide), h4 2 (by decide) (by decide)⟩

theorem evaluateStmt_visits_witness :
    evaluateStmt demoStmt demoSeedSix ⟨1, 2, {}⟩ ⟨0, 1, {}⟩ 6 demoJacobies demoIndices
        = some (List.foldl (evalStatement demoJacobies demoIndices) (demoSeedSix, 6)
            [(1, 6), (1, 5), (1, 4), (1, 3), (1, 2)])
    ∧ demoStmt.forEach ⟨1, 2, {}⟩ ⟨0, 1, {}⟩ (fun (l : List (Nat × Nat)) r => l ++ [r]) []
        = some [(1, 6), (1, 5), (1, 4), (1, 3), (1, 2)] := by
  have hu : ∀ c ∈ demoStmt.chunks, c.usedSize ≤ c.data.length := by decide
  have hge : Position.ge (⟨1, 2, {}⟩ : StmtPosition) ⟨0, 1, {}⟩ := by decide
  have hlt : (⟨1, 2, {}⟩ : StmtPosition).chunk < demoStmt.chunks.length := by decide
  have hin : (⟨1, 2, {}⟩ : StmtPosition).data
      ≤ (derefChunk demoStmt.chunks (⟨1, 2, {}⟩ : StmtPosition).chunk).data.length := by decide
  have hst : (⟨1, 2, {}⟩ : StmtPosition).chunk = (⟨0, 1, {}⟩ : StmtPosition).chunk
      ∨ (⟨0, 1, {}⟩ : StmtPosition).data
        ≤ (derefChunk demoStmt.chunks (⟨0, 1, {}⟩ : StmtPosition).chunk).usedSize := by decide
  have hv : demoStmt.visited ⟨1, 2, {}⟩ ⟨0, 1, {}⟩ = [(1, 6), (1, 5), (1, 4), (1, 3), (1, 2)] := by
    decide
  obtain ⟨h1, h2, _⟩ := evaluateStmt_visits demoStmt demoSeedSix ⟨1, 2, {}⟩ ⟨0, 1, {}⟩ 6
    demoJacobies demoIndices hu hge hlt hin
  have h3 := h2 hst _ (fun (l : List (Nat × Nat)) r => l ++ [r]) []
  rw [hv] at h1 h3
  exact ⟨h1, h3⟩

theorem recorded_alignment_witness :
    ∃ w1 w2 : JacobiVector Int,
      recordStatement (ChunkVector.new 2 (ChunkVector.new 4 ({} : EmptyChunkVector)))
          [(2, 1)] 5 = some w1
      ∧ recordStatement w1 [(3, 2), (4, 3)] 6 = some w2
      ∧ ∃ a b : StmtPosition, w2.getInnerPosition 0 = some a
          ∧ (0 < w2.curChunkIndex → w2.getInnerPosition 1 = some b)
          ∧ w2.nested.forEach b a (fun n r => n + r.1) 0 = w2.getChunkUsedData 0 := by
  have hs1 : (recordStatement (ChunkVector.new 2 (ChunkVector.new 4 ({} : EmptyChunkVector))
      : JacobiVector Int) [(2, 1)] 5).isSome = true := by decide
  obtain ⟨w1, e1⟩ := Option.isSome_iff_exists.1 hs1
  have hs2 : ((recordStatement (ChunkVector.new 2 (ChunkVector.new 4 ({} : EmptyChunkVector))
      : JacobiVector Int) [(2, 1)] 5).bind
        (fun w => recordStatement w [(3, 2), (4, 3)] 6)).isSome = true := by decide
  rw [e1, Option.some_bind] at hs2
  obtain ⟨w2, e2⟩ := Option.isSome_iff_exists.1 hs2
  have hr : Recorded 2 4 w2 := Recorded.statement _ _ (Recorded.statement _ _ Recorded.new e1) e2
  obtain ⟨a, b, h1, h2, _, _, _, h6⟩ := recorded_alignment 2 4 w2 hr 0 (Nat.zero_le _)
  exact ⟨w1, w2, e1, e2, a, b, h1, h2, h6⟩

theorem store_reset_lockstep_witness :
    ∃ (r1 r2 : JacobiIndexTape Int CounterIndexHandler Unit × Int × Nat) (jv : JacobiVector Int),
      JacobiIndexTape.store demoOptions demoTape 0 0 ⟨5, 3⟩ = some r1
      ∧ JacobiIndexTape.store demoOptions r1.1 0 0 ⟨7, 1⟩ = some r2
      ∧ r2.1.jacobiVector.reset r1.1.jacobiVector.getPosition = some jv
      ∧ ((r2.1.setJacobiVector jv).stmtVector.flat.map Prod.fst).sum
          = (r2.1.setJacobiVector jv).jacobiVector.flat.length := by
  have hs : ((JacobiIndexTape.store demoOptions demoTape 0 0 ⟨5, 3⟩).bind (fun r1 =>
      (JacobiIndexTape.store demoOptions r1.1 0 0 ⟨7, 1⟩).bind (fun r2 =>
        r2.1.jacobiVector.reset r1.1.jacobiVector.getPosition))).isSome = true := by decide
  obtain ⟨jv, hjv⟩ := Option.isSome_iff_exists.1 hs
  obtain ⟨r1, e1, hjv1⟩ := Option.bind_eq_some.1 hjv
  obtain ⟨r2, e2, e3⟩ := Option.bind_eq_some.1 hjv1
  have h0 : JacobiIndexTape.Reached demoOptions
      (JacobiIndexTape.new demoOptions ⟨0⟩ : JacobiIndexTape Int CounterIndexHandler Unit) [] :=
    JacobiIndexTape.Reached.new (⟨0⟩ : CounterIndexHandler)
  have h1 : JacobiIndexTape.Reached demoOptions demoTape [] :=
    JacobiIndexTape.Reached.setActive true h0
  have h2 : JacobiIndexTape.Reached demoOptions r1.1 [r1.1.jacobiVector.getPosition] :=
    JacobiIndexTape.Reached.getPosition (JacobiIndexTape.Reached.store 0 0 ⟨5, 3⟩ r1 h1 e1)
  have h3 : JacobiIndexTape.Reached demoOptions (r2.1.setJacobiVector jv)
      [r1.1.jacobiVector.getPosition] :=
    JacobiIndexTape.Reached.reset _ jv (JacobiIndexTape.Reached.store 0 0 ⟨7, 1⟩ r2 h2 e2)
      (List.mem_singleton.2 rfl) e3
  exact ⟨r1, r2, jv, e1, e2, e3, JacobiIndexTape.store_reset_lockstep demoOptions _ _ h3⟩

end codi
